import Mathlib

/-! The shaderc GLSL back end (`tools/shaderc/shaderc_glsl.cpp`).

A shallow embedding of `bgfx::glsl::compile`: the vertex precision forcing, the
GL-style uniform scanner, the two Metal passes and the blob serializer.

Source text is a `List Char`, one `Char` per byte of the C string.  A
`bx::StringView` whose end is the end of the text is the list of characters
from its start on; a view that ends earlier is the list of its characters.
Bytes of the blob are natural numbers below 256.
-/

namespace Shaderc

set_option autoImplicit false

/-! ## String helpers of the `bx` library and of `shaderc.cpp` -/

/-- Modelled from the spec: `bx::isSpace` is not under src/; white space is the
six ASCII blank characters. -/
def isSpace (c : Char) : Bool :=
  c == ' ' || c == '\t' || c == '\n' || c == '\x0b' || c == '\x0c' || c == '\r'

/-- Modelled from the spec: `bx::isNumeric` is not under src/; a decimal digit. -/
def isNumeric (c : Char) : Bool :=
  decide (48 ≤ c.toNat) && decide (c.toNat ≤ 57)

/-- Modelled from the spec: `bx::isAlpha` is not under src/; an ASCII letter. -/
def isAlpha (c : Char) : Bool :=
  (decide (97 ≤ c.toNat) && decide (c.toNat ≤ 122)) ||
    (decide (65 ≤ c.toNat) && decide (c.toNat ≤ 90))

/-- The characters of an identifier, as `bx::strWord` accepts them. -/
def isWordChar (c : Char) : Bool :=
  isAlpha c || isNumeric c || c == '_'

/-- Modelled from the spec: `bx::strLTrimSpace` is not under src/; it skips the
leading white space (§4.2 step 1). -/
def strLTrimSpace (s : List Char) : List Char :=
  s.dropWhile isSpace

/-- Modelled from the spec: `bx::strWord` is not under src/; the leading
identifier of the view (§4.2 step 1), possibly empty. -/
def strWord (s : List Char) : List Char :=
  s.takeWhile isWordChar

/-- Modelled from the spec: `nextWord` of `shaderc.cpp` is not under src/; it
returns the next identifier and moves the cursor past it and past the white
space that follows (§4.2 steps 1, 4 and 6). -/
def nextWord (parse : List Char) : List Char × List Char :=
  let t := strLTrimSpace parse
  (strWord t, strLTrimSpace (t.dropWhile isWordChar))

/-- The character loop of `bx::strCmp` on two views already cut to their
maximal lengths. -/
def strCmpAux : List Char → List Char → Int
  | [], [] => 0
  | [], _ :: _ => -1
  | _ :: _, [] => 1
  | a :: l, b :: r => if a = b then strCmpAux l r else (a.toNat : Int) - (b.toNat : Int)

/-- Modelled from the spec: `bx::strCmp(lhs, rhs, max)` is not under src/; both
views are cut to at most `max` characters and compared. -/
def strCmp (lhs rhs : List Char) (max : Nat) : Int :=
  strCmpAux (lhs.take max) (rhs.take max)

/-- Modelled from the spec: `bx::strFind(view, char)` is not under src/; the
text from the first occurrence of the character on, empty when there is none. -/
def strFindChar (s : List Char) (c : Char) : List Char :=
  s.dropWhile (fun x => x != c)

/-- Modelled from the spec: `bx::strFind(view, string)` is not under src/; the
text from the first occurrence of the string on, empty when there is none. -/
def strFind : List Char → List Char → List Char
  | [], _ => []
  | c :: cs, pat => if pat.isPrefixOf (c :: cs) then c :: cs else strFind cs pat

/-- Modelled from the spec: `bx::strFindNl` is not under src/; the text after
the first line feed, empty when there is none (§4.2 step 9). -/
def strFindNl (s : List Char) : List Char :=
  (s.dropWhile (fun x => x != '\n')).tail

/-- Modelled from the spec: `bx::strCopy(dst, dstSize, src)` is not under
src/; it copies at most `dstSize - 1` characters. -/
def strCopy (dstSize : Nat) (src : List Char) : List Char :=
  src.take (dstSize - 1)

/-- The value of a run of decimal digits. -/
def digitsValue (ds : List Char) : Nat :=
  ds.foldl (fun acc c => 10 * acc + (c.toNat - 48)) 0

/-- Modelled from the spec: `bx::fromString(uint32_t*, view)` is not under
src/; after leading white space and an optional sign it reads the leading
decimal digits; the result is a 32-bit unsigned value (0 when there is no
digit). -/
def fromString (s : List Char) : Nat :=
  let str := strLTrimSpace s
  let digits :=
    if str.head? = some '-' ∨ str.head? = some '+' then str.tail else str
  let v := digitsValue (digits.takeWhile isNumeric)
  if str.head? = some '-' then (2 ^ 32 - v % 2 ^ 32) % 2 ^ 32 else v % 2 ^ 32

/-! ## Resource descriptors -/

/-- Modelled from the spec: the enumeration `UniformType::Enum` is not under
src/; `Count` is the sentinel of an unrecognized type name (§3 `Unknown`). -/
inductive UniformType where
  | Sampler
  | End
  | Vec4
  | Mat3
  | Mat4
  | Count
  deriving DecidableEq, Repr

/-- The 8-bit code written to the blob for a kind. -/
def UniformType.toNat : UniformType → Nat
  | .Sampler => 0
  | .End => 1
  | .Vec4 => 2
  | .Mat3 => 3
  | .Mat4 => 4
  | .Count => 5

/-- Modelled from the spec: the record `Uniform` is declared outside src/; its
fields and their widths follow §3 and §4.4: `num` 8 bits, `regIndex` and
`regCount` 16 bits, the three texture fields one byte each. -/
structure Uniform where
  name : List Char
  type : UniformType
  num : Nat
  regIndex : Nat
  regCount : Nat
  texComponent : Nat
  texDimension : Nat
  texFormat : Nat
  deriving DecidableEq, Repr

/-- Modelled from the spec: `nameToUniformTypeEnum` of `shaderc.cpp` is not
under src/; the recognized names are `int`, `vec4`/`float4`, `mat3`/`float3x3`
and `mat4`/`float4x4`, every other name is `Count` (§4.2 step 5, §8). -/
def nameToUniformTypeEnum (name : List Char) : UniformType :=
  if name = ['i', 'n', 't'] then .Sampler
  else if name = ['v', 'e', 'c', '4'] then .Vec4
  else if name = ['f', 'l', 'o', 'a', 't', '4'] then .Vec4
  else if name = ['m', 'a', 't', '3'] then .Mat3
  else if name = ['f', 'l', 'o', 'a', 't', '3', 'x', '3'] then .Mat3
  else if name = ['m', 'a', 't', '4'] then .Mat4
  else if name = ['f', 'l', 'o', 'a', 't', '4', 'x', '4'] then .Mat4
  else .Count

/-! ## The GL-style scanner (lines 122-246) -/

/-- The register count of lines 227-238: `num`, times 3 for `Mat3`, times 4
for `Mat4`, in 16 bits. -/
def glRegCount (type : UniformType) (num : Nat) : Nat :=
  match type with
  | .Mat3 => num * 3 % 65536
  | .Mat4 => num * 4 % 65536
  | _ => num

/-- The type name handed to `nameToUniformTypeEnum` (lines 190-201): `int` for
a name that begins with `sampler`, `isampler` or `usampler`, else the name
itself copied into a buffer of 256 characters. -/
def glUniformType (typen : List Char) : List Char :=
  if strCmp typen ['s', 'a', 'm', 'p', 'l', 'e', 'r'] 7 = 0
      ∨ strCmp typen ['i', 's', 'a', 'm', 'p', 'l', 'e', 'r'] 8 = 0
      ∨ strCmp typen ['u', 's', 'a', 'm', 'p', 'l', 'e', 'r'] 8 = 0 then
    strCopy 256 ['i', 'n', 't']
  else strCopy 256 typen

/-- The test of lines 180-182: the word begins with a precision keyword. -/
def isPrecisionWord (typen : List Char) : Bool :=
  decide (strCmp typen ['l', 'o', 'w', 'p'] 4 = 0
    ∨ strCmp typen ['m', 'e', 'd', 'i', 'u', 'm', 'p'] 7 = 0
    ∨ strCmp typen ['h', 'i', 'g', 'h', 'p'] 5 = 0)

/-- The tests of lines 134-161 on the leading word: it begins with one of the
nine keywords whose statements are skipped. -/
def isSkipQualifier (qualifier : List Char) : Bool :=
  decide (strCmp qualifier ['p', 'r', 'e', 'c', 'i', 's', 'i', 'o', 'n'] 9 = 0)
    || decide (strCmp qualifier ['a', 't', 't', 'r', 'i', 'b', 'u', 't', 'e'] 9 = 0
        ∨ strCmp qualifier ['v', 'a', 'r', 'y', 'i', 'n', 'g'] 7 = 0
        ∨ strCmp qualifier ['i', 'n'] 2 = 0
        ∨ strCmp qualifier ['o', 'u', 't'] 3 = 0)
    || decide (strCmp qualifier ['f', 'l', 'a', 't'] 4 = 0
        ∨ strCmp qualifier ['s', 'm', 'o', 'o', 't', 'h'] 6 = 0
        ∨ strCmp qualifier
            ['n', 'o', 'p', 'e', 'r', 's', 'p', 'e', 'c', 't', 'i', 'v', 'e'] 13 = 0
        ∨ strCmp qualifier ['c', 'e', 'n', 't', 'r', 'o', 'i', 'd'] 8 = 0)

/-- Lines 177-241: the cursor `parse` stands after the word `uniform`; the
declaration is read and its descriptor, when the type is recognized, is
appended to the table. -/
def glDeclaration (parse : List Char) (uniforms : List Uniform) : List Uniform :=
  let typen0 := (nextWord parse).1
  let parse1 := (nextWord parse).2
  let typen := if isPrecisionWord typen0 then (nextWord parse1).1 else typen0
  let parse2 := if isPrecisionWord typen0 then (nextWord parse1).2 else parse1
  let uniformType := glUniformType typen
  let name := (nextWord parse2).1
  let parse3 := (nextWord parse2).2
  let array := parse3.take 1
  let num :=
    if strCmp array ['['] 1 = 0 then fromString (strLTrimSpace parse3.tail) % 256
    else 1
  let type := nameToUniformTypeEnum uniformType
  if type ≠ UniformType.Count then
    uniforms ++ [{ name := name, type := type, num := num, regIndex := 0,
                   regCount := glRegCount type num, texComponent := 0,
                   texDimension := 0, texFormat := 0 }]
  else uniforms

/-- One pass through the body of the `while` loop of lines 126-245, from the
cursor `parse0` and the table `uniforms` to the next cursor and table. -/
def glStep (parse0 : List Char) (uniforms : List Uniform) : List Char × List Uniform :=
  let parse := strLTrimSpace parse0
  let eol := strFindChar parse ';'
  if eol.isEmpty then (parse, uniforms)
  else
    let qualifier := (nextWord parse).1
    let parse1 := (nextWord parse).2
    if isSkipQualifier qualifier then (eol.tail, uniforms)
    else if strCmp parse1 ['t', 'm', 'p', 'v', 'a', 'r'] 6 = 0 then (eol.tail, uniforms)
    else if strCmp qualifier ['u', 'n', 'i', 'f', 'o', 'r', 'm'] 7 ≠ 0 then ([], uniforms)
    else (strLTrimSpace (strFindNl eol), glDeclaration parse1 uniforms)

/-- The `while (!parse.isEmpty())` loop of line 126 run for at most `fuel`
passes; `none` when the passes are used up before the cursor is empty. -/
def scanLoop : Nat → List Char → List Uniform → Option (List Uniform)
  | 0, _, _ => none
  | fuel + 1, parse, uniforms =>
    if parse.isEmpty then some uniforms
    else scanLoop fuel (glStep parse uniforms).1 (glStep parse uniforms).2

/-- The GL-style scan from a cursor and a table.  Every pass that changes the
cursor shortens it, so `parse.length + 1` passes reach the end whenever the
loop ends at all; `none` stands for a loop that never ends. -/
def scanFrom (parse : List Char) (uniforms : List Uniform) : Option (List Uniform) :=
  scanLoop (parse.length + 1) parse uniforms

/-- The GL-style scanner on a whole source text, from the empty table. -/
def scanGL (src : List Char) : Option (List Uniform) :=
  scanFrom src []

/-! ## The Metal scanner (lines 247-364) -/

/-- The marker of the uniform struct (line 250). -/
def structMarker : List Char := "struct xlatMtlShaderUniform \x7b".toList

/-- The end of the uniform struct (line 255). -/
def structEnd : List Char := "\x7d;".toList

/-- The signature of the entry function (line 311). -/
def mainEntry : List Char := "xlatMtlShaderOutput xlatMtlMain (".toList

/-- The annotation that binds a texture (line 324). -/
def textureNameMark : List Char := "[[texture(".toList

/-- One pass through the body of the struct loop (lines 261-308).  The local
buffers `uniformType[256]`, `uniformName[256]` and `arraySize[32]` are filled by
`bx::strCopy` with a size computed from the text: a copy writes the characters
copied and a terminating zero, and a pass in which a copy does not fit its
buffer has no result (`none`). -/
def mtlStructStep (parse0 : List Char) (uniforms : List Uniform) :
    Option (List Char × List Uniform) :=
  let parse := strLTrimSpace parse0
  let eol := strFindChar parse ';'
  if eol.isEmpty then some (parse, uniforms)
  else
    let word := strWord parse
    let uniformType := strCopy (word.length + 1) parse
    let name := strLTrimSpace (parse.drop word.length)
    let view := name.take (name.length - eol.length)
    let array := strFind view ['[']
    let arrayEnd := strFind array [']']
    let uniformName :=
      if array.isEmpty then strCopy (name.length - eol.length + 1) name
      else strCopy (view.length - array.length + 1) name
    let arraySize := strCopy (array.length - arrayEnd.length) array.tail
    if 256 < uniformType.length + 1 ∨ 256 < uniformName.length + 1
        ∨ (array.isEmpty = false ∧ 32 < arraySize.length + 1) then
      none
    else
      let num := if array.isEmpty then 1 else fromString arraySize % 256
      let type := nameToUniformTypeEnum uniformType
      let uniforms :=
        if type ≠ UniformType.Count then
          uniforms ++ [{ name := uniformName, type := type, num := num, regIndex := 0,
                         regCount := num, texComponent := 0, texDimension := 0,
                         texFormat := 0 }]
        else uniforms
      some (eol.tail, uniforms)

/-- The loop of lines 258-309 run for at most `fuel` passes: it goes on while
the cursor `parse` stands before `stop` (the text from the end of the struct
on) and is not empty. -/
def mtlStructLoop : Nat → List Char → List Char → List Uniform → Option (List Uniform)
  | 0, _, _, _ => none
  | fuel + 1, parse, stop, uniforms =>
    if stop.length < parse.length ∧ parse ≠ [] then
      match mtlStructStep parse uniforms with
      | some next => mtlStructLoop fuel next.1 stop next.2
      | none => none
    else some uniforms

/-- The struct pass (lines 249-309) on the whole text; `none` when the loop
does not end. -/
def mtlStructPass (text : List Char) (uniforms : List Uniform) : Option (List Uniform) :=
  let found := strFind text structMarker
  if found.isEmpty then some uniforms
  else
    let parse := found.drop structMarker.length
    mtlStructLoop (parse.length + 1) parse (strFind parse structEnd) uniforms

/-- The backward loop of lines 334-341: the index of the last blank of the view. -/
def lastBlank (view : List Char) : Option Nat :=
  let t := (view.reverse.takeWhile (fun c => c != ' ')).length
  if t < view.length then some (view.length - 1 - t) else none

/-- One pass through the body of the entry-parameter loop (lines 323-362);
`none` when the annotation stands less than two characters after the cursor,
where the view of line 332 has a negative length and `bx::strCopy` asserts,
and when the name and its terminating zero do not fit the local buffer
`uniformName[256]` of line 342. -/
def mtlEntryStep (parse0 : List Char) (uniforms : List Uniform) :
    Option (List Char × List Uniform) :=
  let parse := strLTrimSpace parse0
  let textureName := strFind parse textureNameMark
  if textureName.isEmpty then some ([], uniforms)
  else
    let pos := parse.length - textureName.length
    if pos < 2 then none
    else
      let view := parse.take (pos - 2)
      let name :=
        match lastBlank view with
        | some ii => (parse.take (pos - 1)).drop (ii + 1)
        | none => view
      if 256 < name.length + 1 then none
      else
        let regIndexBeg := textureName.drop textureNameMark.length
        let close := strFind regIndexBeg [')']
        let regIndex := regIndexBeg.take (regIndexBeg.length - close.length)
        some (regIndexBeg.tail,
          uniforms ++ [{ name := strCopy (name.length + 1) name
                         type := nameToUniformTypeEnum ['i', 'n', 't']
                         num := 1
                         regIndex := fromString regIndex % 65536
                         regCount := 1
                         texComponent := 0
                         texDimension := 0
                         texFormat := 0 }])

/-- The loop of lines 320-363 run for at most `fuel` passes. -/
def mtlEntryLoop : Nat → List Char → List Char → List Uniform → Option (List Uniform)
  | 0, _, _, _ => none
  | fuel + 1, parse, stop, uniforms =>
    if stop.length < parse.length ∧ parse ≠ [] then
      match mtlEntryStep parse uniforms with
      | some next => mtlEntryLoop fuel next.1 stop next.2
      | none => none
    else some uniforms

/-- The entry-parameter pass (lines 311-363) on the whole text. -/
def mtlEntryPass (text : List Char) (uniforms : List Uniform) : Option (List Uniform) :=
  let found := strFind text mainEntry
  if found.isEmpty then some uniforms
  else
    let parse := found.drop mainEntry.length
    mtlEntryLoop (parse.length + 1) parse (strFind parse ['\x7b']) uniforms

/-- The Metal scanner: the struct pass, then the entry-parameter pass, on the
same text. -/
def scanMetal (text : List Char) : Option (List Uniform) :=
  (mtlStructPass text []).bind (mtlEntryPass text)

/-! ## Vertex precision forcing (lines 108-120) -/

/-- The targets of the optimizer (`glslopt_target`). -/
inductive Target where
  | OpenGL
  | OpenGLES20
  | OpenGLES30
  | Metal
  deriving DecidableEq, Repr

/-- The call `std::regex_replace(s, std::regex(pat), rep)` for a pattern and a
replacement without special characters: every match, found from left to right
without overlap, is replaced.  `skip` counts the characters of a match still to
be passed over. -/
def regexReplace (pat rep : List Char) : Nat → List Char → List Char
  | _, [] => []
  | skip + 1, _ :: cs => regexReplace pat rep skip cs
  | 0, c :: cs =>
    if pat.isPrefixOf (c :: cs) then rep ++ regexReplace pat rep (pat.length - 1) cs
    else c :: regexReplace pat rep 0 cs

/-- The keyword `lowp`. -/
def kwLowp : List Char := ['l', 'o', 'w', 'p']

/-- The keyword `mediump`. -/
def kwMediump : List Char := ['m', 'e', 'd', 'i', 'u', 'm', 'p']

/-- The keyword `highp`. -/
def kwHighp : List Char := ['h', 'i', 'g', 'h', 'p']

/-- Lines 110-119: for a target other than Metal and the shader type `v`, first
every `lowp`, then every `mediump` is replaced by `highp`. -/
def forcePrecision (target : Target) (shaderType : Char) (code : List Char) : List Char :=
  if target ≠ Target.Metal then
    if shaderType = 'v' then
      regexReplace kwMediump kwHighp 0 (regexReplace kwLowp kwHighp 0 code)
    else code
  else code

/-- The rewriting as the specification words it: the text with every occurrence
of `lowp` and of `mediump`, met from left to right, replaced by `highp`. -/
def replacePrecisionSpec : Nat → List Char → List Char
  | _, [] => []
  | skip + 1, _ :: cs => replacePrecisionSpec skip cs
  | 0, c :: cs =>
    if kwLowp.isPrefixOf (c :: cs) then kwHighp ++ replacePrecisionSpec 3 cs
    else if kwMediump.isPrefixOf (c :: cs) then kwHighp ++ replacePrecisionSpec 6 cs
    else c :: replacePrecisionSpec 0 cs

/-! ## The serializer (lines 366-399) -/

/-- A 16-bit value as two bytes, low byte first. -/
def le16 (x : Nat) : List Nat := [x % 256, x / 256 % 256]

/-- A 32-bit value as four bytes, low byte first. -/
def le32 (x : Nat) : List Nat :=
  [x % 256, x / 256 % 256, x / 65536 % 256, x / 16777216 % 256]

/-- The bytes written for one descriptor (lines 373-384). -/
def writeUniform (un : Uniform) : List Nat :=
  let nameSize := un.name.length % 256
  nameSize :: ((un.name.take nameSize).map Char.toNat
    ++ (un.type.toNat % 256 :: un.num % 256
      :: (le16 (un.regIndex % 65536) ++ (le16 (un.regCount % 65536)
        ++ [un.texComponent % 256, un.texDimension % 256, un.texFormat % 256]))))

/-- The bytes written to the shader writer (lines 368-399). -/
def serialize (uniforms : List Uniform) (code : List Char) : List Nat :=
  le16 (uniforms.length % 65536)
    ++ ((uniforms.map writeUniform).flatten
      ++ (le32 (code.length % 2 ^ 32)
        ++ ((code.take (code.length % 2 ^ 32)).map Char.toNat ++ [0])))

/-- A descriptor within the data model of §3: a name of at most 255 bytes and
every field within the width of its C++ type. -/
def Uniform.WellFormed (un : Uniform) : Prop :=
  un.name.length ≤ 255 ∧ un.num < 256 ∧ un.regIndex < 65536 ∧ un.regCount < 65536
    ∧ un.texComponent < 256 ∧ un.texDimension < 256 ∧ un.texFormat < 256

/-- The record of one descriptor as §4.4 lays it out. -/
def recordLayout (un : Uniform) : List Nat :=
  [un.name.length] ++ un.name.map Char.toNat ++ [un.type.toNat] ++ [un.num]
    ++ le16 un.regIndex ++ le16 un.regCount
    ++ [un.texComponent, un.texDimension, un.texFormat]

/-- Modelled from the spec: the kind of a code read from the blob; the loader
is outside src/. -/
def UniformType.ofNat? : Nat → Option UniformType
  | 0 => some .Sampler
  | 1 => some .End
  | 2 => some .Vec4
  | 3 => some .Mat3
  | 4 => some .Mat4
  | 5 => some .Count
  | _ => none

/-- Modelled from the spec: the loader of §6 is outside src/; it reads one
record of the layout of §4.4: name length, name, kind, arraySize, registerIndex,
registerCount and three metadata bytes. -/
def readUniform : List Nat → Option (Uniform × List Nat)
  | [] => none
  | nameSize :: rest =>
    if rest.length < nameSize then none
    else
      match rest.drop nameSize with
      | kind :: num :: ri0 :: ri1 :: rc0 :: rc1 :: tc :: td :: tf :: rest1 =>
        (UniformType.ofNat? kind).map fun type =>
          ({ name := (rest.take nameSize).map Char.ofNat, type := type, num := num,
             regIndex := ri0 + 256 * ri1, regCount := rc0 + 256 * rc1,
             texComponent := tc, texDimension := td, texFormat := tf }, rest1)
      | _ => none

/-- Modelled from the spec: the loader of §6 reads `count` records in turn. -/
def readUniforms : Nat → List Nat → Option (List Uniform × List Nat)
  | 0, bytes => some ([], bytes)
  | count + 1, bytes =>
    match readUniform bytes with
    | none => none
    | some (un, rest) =>
      match readUniforms count rest with
      | none => none
      | some (uns, rest1) => some (un :: uns, rest1)

/-- Modelled from the spec: the loader of §6 is outside src/; it reads the
count-prefixed records, then the length-prefixed source, which one NUL byte
ends the blob after. -/
def parseBlob : List Nat → Option (List Uniform × List Char)
  | c0 :: c1 :: rest =>
    match readUniforms (c0 + 256 * c1) rest with
    | some (uns, l0 :: l1 :: l2 :: l3 :: rest1) =>
      if rest1.drop (l0 + 256 * l1 + 65536 * l2 + 16777216 * l3) = [0] then
        some (uns, (rest1.take (l0 + 256 * l1 + 65536 * l2 + 16777216 * l3)).map Char.ofNat)
      else none
    | _ => none
  | _ => none

/-! ## The legacy substitutions (lines 78-104) -/

/-- Modelled from the spec: `strReplace` of `shaderc.cpp` is not under src/; a
literal substring replacement (§4.1): every occurrence of `find`, met from left
to right without overlap, is replaced by `replace`. -/
def strReplace (str find replace : List Char) : List Char :=
  regexReplace find replace 0 str

/-- The table of lines 80-103, in the order of the calls. -/
def legacyTable : List (List Char × List Char) :=
  [("gl_FragDepthEXT".toList, "gl_FragDepth".toList),
   ("textureLodEXT".toList, "texture2DLod".toList),
   ("textureGradEXT".toList, "texture2DGrad".toList),
   ("texture2DLodARB".toList, "texture2DLod".toList),
   ("texture2DLodEXT".toList, "texture2DLod".toList),
   ("texture2DGradARB".toList, "texture2DGrad".toList),
   ("texture2DGradEXT".toList, "texture2DGrad".toList),
   ("textureCubeLodARB".toList, "textureCubeLod".toList),
   ("textureCubeLodEXT".toList, "textureCubeLod".toList),
   ("textureCubeGradARB".toList, "textureCubeGrad".toList),
   ("textureCubeGradEXT".toList, "textureCubeGrad".toList),
   ("texture2DProjLodARB".toList, "texture2DProjLod".toList),
   ("texture2DProjLodEXT".toList, "texture2DProjLod".toList),
   ("texture2DProjGradARB".toList, "texture2DProjGrad".toList),
   ("texture2DProjGradEXT".toList, "texture2DProjGrad".toList),
   ("shadow2DARB".toList, "shadow2D".toList),
   ("shadow2DEXT".toList, "shadow2D".toList),
   ("shadow2DProjARB".toList, "shadow2DProj".toList),
   ("shadow2DProjEXT".toList, "shadow2DProj".toList)]

/-- The block of lines 78-104: the calls of `strReplace` one after the other,
whatever the target. -/
def applyTable (code : List Char) : List Char :=
  legacyTable.foldl (fun acc entry => strReplace acc entry.1 entry.2) code

/-- The legacy rewrite of lines 78-120: the table, then the vertex precision
forcing. -/
def legacyRewrite (target : Target) (shaderType : Char) (code : List Char) : List Char :=
  forcePrecision target shaderType (applyTable code)

/-! ## The driver (lines 13-76 and 401-411) -/

/-- Modelled from the spec: the macro `BX_MAKEFOURCC` is not under src/; the
four characters are the four bytes of the code, the first one lowest.  This is
`BX_MAKEFOURCC('M', 'T', 'L', 0)`. -/
def fourccMTL : Nat :=
  'M'.toNat + 'T'.toNat * 2 ^ 8 + 'L'.toNat * 2 ^ 16 + 0 * 2 ^ 24

/-- Lines 22-32: the target chosen from the 32-bit version code. -/
def selectTarget (version : Nat) : Target :=
  if version = fourccMTL then Target.Metal
  else if version < 0x80000000 then Target.OpenGL
  else if 300 ≤ version &&& 0x7FFFFFFF then Target.OpenGLES30
  else Target.OpenGLES20

/-- The kinds of shader of the optimizer (`glslopt_shader_type`). -/
inductive ShaderKind where
  | Vertex
  | Fragment
  | Compute
  deriving DecidableEq, Repr

/-- Lines 17-20: the kind handed to the optimizer. -/
def shaderKind (shaderType : Char) : ShaderKind :=
  if shaderType = 'f' then ShaderKind.Fragment
  else if shaderType = 'c' then ShaderKind.Compute
  else ShaderKind.Vertex

/-- The loop of lines 70-73 run for at most `fuel` passes: while the text begins
with `#`, go to the text after the next line feed. -/
def trimDirectivesLoop : Nat → List Char → Option (List Char)
  | 0, _ => none
  | fuel + 1, s =>
    if s.head? = some '#' then trimDirectivesLoop fuel (strFindNl s) else some s

/-- Lines 66-76: the output of the optimizer without its leading directives.
Every pass shortens the text, so `s.length + 1` passes are enough. -/
def trimDirectives (s : List Char) : Option (List Char) :=
  trimDirectivesLoop (s.length + 1) s

/-- A 32-bit pattern read as `int32_t`. -/
def toInt32 (x : Nat) : Int :=
  if x % 2 ^ 32 < 2 ^ 31 then (x % 2 ^ 32 : Nat) else ((x % 2 ^ 32 : Nat) : Int) - 2 ^ 32

/-- Modelled from the spec: the conversion `%u` of the C library function
`sscanf`: leading white space, an optional sign, then at least one decimal
digit; the value is kept in 32 bits.  The result is the value and the text
that follows, `none` when there is no digit. -/
def scanUnsigned (s : List Char) : Option (Nat × List Char) :=
  let t := s.dropWhile isSpace
  let u := if t.head? = some '-' ∨ t.head? = some '+' then t.tail else t
  let digits := u.takeWhile isNumeric
  if digits.isEmpty then none
  else
    some (if t.head? = some '-' then (2 ^ 32 - digitsValue digits % 2 ^ 32) % 2 ^ 32
          else digitsValue digits % 2 ^ 32,
      u.drop digits.length)

/-- An ordinary character of a `sscanf` format: the text must go on with it. -/
def scanChar (c : Char) (s : List Char) : Option (List Char) :=
  if s.head? = some c then some s.tail else none

/-- The variables `source`, `line`, `column` of lines 41-43 and the number of
conversions a call of `sscanf` has stored. -/
structure ScanState where
  count : Nat
  source : Nat
  line : Nat
  column : Nat
  deriving DecidableEq, Repr

/-- The call `sscanf(log, "%u:%u(%u):", &source, &line, &column)` of line 48:
every conversion that succeeds is stored before the next part of the format is
tried. -/
def sscanfSourceLineColumn (log : List Char) (st : ScanState) : ScanState :=
  match scanUnsigned log with
  | none => { st with count := 0 }
  | some (a, r1) =>
    match (scanChar ':' r1).bind scanUnsigned with
    | none => { st with count := 1, source := a }
    | some (b, r2) =>
      match (scanChar '(' r2).bind scanUnsigned with
      | none => { st with count := 2, source := a, line := b }
      | some (c, _) => { count := 3, source := a, line := b, column := c }

/-- The call `sscanf(log, "(%u,%u):", &line, &column)` of line 49. -/
def sscanfLineColumn (log : List Char) (st : ScanState) : ScanState :=
  match (scanChar '(' log).bind scanUnsigned with
  | none => { st with count := 0 }
  | some (a, r1) =>
    match (scanChar ',' r1).bind scanUnsigned with
    | none => { st with count := 1, line := a }
    | some (b, _) => { st with count := 2, line := a, column := b }

/-- Modelled from the spec: `bx::uint32_imax` is not under src/; the larger of
two 32-bit values compared as signed numbers. -/
def uint32_imax (a b : Nat) : Nat :=
  if toInt32 a > toInt32 b then a % 2 ^ 32 else b % 2 ^ 32

/-- The arguments of the call of `printCode` of line 59. -/
structure PrintCodeArgs where
  line : Int
  start : Int
  stop : Int
  column : Int
  deriving DecidableEq, Repr

/-- Lines 40-59: the line, the column and the window of source lines computed
from the log of the optimizer.  The variables are `int32_t`; `stop` is the
variable `end`. -/
def errorWindow (log : List Char) : PrintCodeArgs :=
  let s1 := sscanfSourceLineColumn log { count := 0, source := 0, line := 0, column := 0 }
  let s2 := if s1.count = 3 then s1 else sscanfLineColumn log s1
  let found := decide (s1.count = 3) || decide (s2.count = 2)
  let line := toInt32 s2.line
  if found ∧ line ≠ 0 then
    let start := toInt32 (uint32_imax 1 ((line - 10) % 2 ^ 32).toNat)
    { line := line, start := start, stop := toInt32 ((start + 20) % 2 ^ 32).toNat,
      column := toInt32 s2.column }
  else
    { line := line, start := 0, stop := 2147483647, column := toInt32 s2.column }

/-- The fields of `Options` the function reads. -/
structure Options where
  shaderType : Char
  disasm : Bool
  outputFilePath : List Char
  deriving DecidableEq, Repr

/-- What `glslopt_optimize` hands back: the status, the log and the output. -/
structure OptShader where
  status : Bool
  log : List Char
  output : List Char
  deriving DecidableEq, Repr

/-- What one call of `compile` does: the value returned, the bytes written to
the shader writer, the text written to the message writer, the arguments of
`printCode` when it is called, and the file written for `disasm`. -/
structure CompileResult where
  ok : Bool
  shader : List Nat
  message : List Char
  printed : Option PrintCodeArgs
  disasm : Option (List Char × List Char)
  deriving DecidableEq, Repr

/-- The final text of a successful run: the output of the optimizer without its
leading directives, after the table and the precision forcing (lines 66-119). -/
def finalSource (target : Target) (shaderType : Char) (output : List Char) :
    Option (List Char) :=
  (trimDirectives output).map (legacyRewrite target shaderType)

/-- The scanner chosen by line 122, on the final text. -/
def scanUniforms (target : Target) (code : List Char) : Option (List Uniform) :=
  if target ≠ Target.Metal then scanGL code else scanMetal code

/-- The function `glsl::compile` (lines 13-411).  The optimizer is a parameter;
`none` stands for a run that does not return (a loop that never ends, or an
assertion of `bx::strCopy`). -/
def compile (glslopt : Target → ShaderKind → List Char → OptShader) (options : Options)
    (version : Nat) (code : List Char) : Option CompileResult :=
  let target := selectTarget version
  let shader := glslopt target (shaderKind options.shaderType) code
  if shader.status = false then
    some { ok := false
           shader := []
           message := "Error: ".toList ++ shader.log ++ ['\n']
           printed := some (errorWindow shader.log)
           disasm := none }
  else
    (finalSource target options.shaderType shader.output).bind fun optimizedShader =>
      (scanUniforms target optimizedShader).map fun uniforms =>
        { ok := true
          shader := serialize uniforms optimizedShader
          message := []
          printed := none
          disasm :=
            if options.disasm then
              some (options.outputFilePath ++ ".disasm".toList,
                optimizedShader.take (optimizedShader.length % 2 ^ 32))
            else none }

/-! ## Shapes of statements and declarations used by the theorems -/

/-- The text is empty or starts with a character on which `p` is false. -/
def HeadNot (p : Char → Bool) (r : List Char) : Prop :=
  ∀ c ∈ r.head?, p c = false

/-- The array size read after the binding name, from the text `z` that follows
the name up to the end of the statement. -/
def declNum (z : List Char) : Nat :=
  if z.head? = some '[' then fromString z.tail % 256 else 1

def skipKeywords : List (List Char) :=
  ["attribute".toList, "varying".toList, "in".toList, "out".toList, "flat".toList,
    "smooth".toList, "noperspective".toList, "centroid".toList, "precision".toList]

/-- The keyword `uniform`. -/
def kwUniform : List Char := "uniform".toList

/-- The marker `tmpvar` of the temporaries of the optimizer. -/
def kwTmpvar : List Char := "tmpvar".toList

/-- A statement at which the scan stops: up to its `;` it has no other `;`, its
leading identifier begins with none of the skipped keywords nor with `uniform`,
and the text after that identifier does not begin with `tmpvar`. -/
def StopStatement (a : List Char) : Prop :=
  ';' ∉ a ∧ (∀ kw ∈ skipKeywords, ¬ kw <+: strWord (strLTrimSpace a))
    ∧ ¬ kwUniform <+: strWord (strLTrimSpace a) ∧ ¬ kwTmpvar <+: (nextWord a).2

/-- A header: skipped statements, and `uniform` statements that each end their
line (only blanks between the `;` and the line feed). -/
inductive Header : List Char → Prop
  | nil : Header []
  | skip (a h : List Char) : ';' ∉ a → strWord (strLTrimSpace a) ∈ skipKeywords →
      Header h → Header (a ++ ';' :: h)
  | uniform (a t h : List Char) : ';' ∉ a → strWord (strLTrimSpace a) = kwUniform →
      (∀ c ∈ t, isSpace c = true ∧ c ≠ '\n') → Header h →
      Header (a ++ ';' :: (t ++ '\n' :: h))

/-- The table after a `uniform` statement `a` is read from the table `us`. -/
def lineTable (a : List Char) (us : List Uniform) : List Uniform :=
  (glStep (a ++ [';']) us).2

/-- Every character of the text is white space. -/
def Spaces (ws : List Char) : Prop := ∀ c ∈ ws, isSpace c = true

/-- A non-empty run of white space. -/
def Blank (ws : List Char) : Prop := ws ≠ [] ∧ Spaces ws

/-- A non-empty identifier: letters, digits and `_`. -/
def Ident (w : List Char) : Prop := w ≠ [] ∧ ∀ c ∈ w, isWordChar c = true

/-- The precision keywords. -/
def precisionKeywords : List (List Char) :=
  ["lowp".toList, "mediump".toList, "highp".toList]

/-- The parts of a GL-style declaration `uniform [precision] T name rest`, the
terminating `;` excluded. -/
structure UniformDecl where
  lead : List Char
  sep1 : List Char
  prec : List Char
  sep2 : List Char
  typen : List Char
  sep3 : List Char
  name : List Char
  rest : List Char

/-- The text of the declaration after the word `uniform` and its blanks. -/
def UniformDecl.afterUniform (d : UniformDecl) : List Char :=
  d.prec ++ (d.sep2 ++ (d.typen ++ (d.sep3 ++ (d.name ++ d.rest))))

/-- The text of the declaration, without its `;`. -/
def UniformDecl.text (d : UniformDecl) : List Char :=
  d.lead ++ (kwUniform ++ (d.sep1 ++ d.afterUniform))

/-- Well-formedness of the parts: blanks between the words, an optional
precision keyword, identifiers for the type and the name, and a rest without
`;` that does not continue the name. -/
def UniformDecl.WellFormed (d : UniformDecl) : Prop :=
  Spaces d.lead ∧ Blank d.sep1
    ∧ ((d.prec = [] ∧ d.sep2 = []) ∨ (d.prec ∈ precisionKeywords ∧ Blank d.sep2))
    ∧ Ident d.typen ∧ Blank d.sep3 ∧ Ident d.name
    ∧ HeadNot isWordChar d.rest ∧ ';' ∉ d.rest

/-- The descriptor the scanner builds for a declaration with type name `typen`,
binding name `name` and the text `rest` after the name. -/
def declUniform (typen name rest : List Char) : Uniform :=
  { name := name
    type := nameToUniformTypeEnum (glUniformType typen)
    num := declNum (strLTrimSpace rest)
    regIndex := 0
    regCount := glRegCount (nameToUniformTypeEnum (glUniformType typen))
      (declNum (strLTrimSpace rest))
    texComponent := 0
    texDimension := 0
    texFormat := 0 }

/-- The type names `nameToUniformTypeEnum` recognizes. -/
def typeNames : List (List Char) :=
  ["int".toList, "vec4".toList, "float4".toList, "mat3".toList, "float3x3".toList,
    "mat4".toList, "float4x4".toList]

/-- The type name begins with `sampler`, `isampler` or `usampler`. -/
def SamplerLike (typen : List Char) : Prop :=
  "sampler".toList <+: typen ∨ "isampler".toList <+: typen ∨ "usampler".toList <+: typen

/-- The first characters of the recognized type names. -/
def typeHeads : List Char := ['s', 'i', 'u', 'v', 'f', 'm']

/-- The text after the binding name of an array declaration: blanks, `[`, blanks,
the decimal literal of `n`, `]` and what follows up to the `;`. -/
def arraySuffix (sep4 sep5 : List Char) (n : Nat) (post : List Char) : List Char :=
  sep4 ++ '[' :: (sep5 ++ (Nat.toDigits 10 n ++ ']' :: post))

/-- The text at the cursor of the struct loop for a field `T name suffix;`
followed by the text `R`. -/
def mtlField (ws T sep name suffix R : List Char) : List Char :=
  ws ++ (T ++ (sep ++ (name ++ (suffix ++ ';' :: R))))

/-- The text at the cursor of the entry-parameter loop for a parameter
`type name [[texture(r)]]` followed by the text `R`. -/
def mtlTextureParam (type name : List Char) (r : Nat) (R : List Char) : List Char :=
  type ++ ' ' :: (name ++ ' ' :: (textureNameMark ++ (Nat.toDigits 10 r ++ ')' :: R)))

/-- Neither text begins with the other. -/
def clash (a b : List Char) : Bool :=
  !(a.isPrefixOf b) && !(b.isPrefixOf a)

/-- The non-empty ends of a text, the longest first. -/
def suffixes : List Char → List (List Char)
  | [] => []
  | c :: cs => (c :: cs) :: suffixes cs

/-- The text begins with a character of an identifier. -/
def wordCharNext (t : List Char) : Bool :=
  match t.head? with
  | some c => isWordChar c
  | none => false

/-- The text begins with `w`, and a character of an identifier follows. -/
def Follows (w t : List Char) : Prop :=
  w <+: t ∧ wordCharNext (t.drop w.length) = true

/-- A replacement `r` written into a text takes part in an occurrence of the
pattern `q` only as its beginning, with characters of an identifier after it:
no shorter end of `q` meets the beginning of `r`, `q` does not begin inside
`r`, and `q` and `r` clash unless `q` is `r` followed by a character of an
identifier. -/
def compatible (q r : List Char) : Bool :=
  (suffixes q.tail).all (fun u => clash u r)
    && (suffixes r.tail).all (fun v => clash q v)
    && (clash q r || (r.isPrefixOf q && wordCharNext (q.drop r.length)))

/-- A list of replacements made one after the other, each on the whole text. -/
def runSteps (steps : List (List Char × List Char)) (s : List Char) : List Char :=
  steps.foldl (fun acc step => regexReplace step.1 step.2 0 acc) s

/-- The text of an array size without a leading number: after its leading
blanks and an optional sign it does not begin with a decimal digit. -/
def NoLeadingDigit (z : List Char) : Prop :=
  HeadNot isNumeric
    (if (strLTrimSpace z).head? = some '-' ∨ (strLTrimSpace z).head? = some '+' then
      (strLTrimSpace z).tail
    else strLTrimSpace z)

/-- A line of the text that begins with `#` and ends with its line feed. -/
def DirectiveLine (l : List Char) : Prop :=
  l.head? = some '#' ∧ ∃ body, l = body ++ ['\n'] ∧ '\n' ∉ body

instance (p : Char → Bool) (r : List Char) : Decidable (HeadNot p r) := by
  unfold HeadNot; infer_instance

instance (ws : List Char) : Decidable (Spaces ws) := by
  unfold Spaces; infer_instance

instance (ws : List Char) : Decidable (Blank ws) := by
  unfold Blank; infer_instance

instance (w : List Char) : Decidable (Ident w) := by
  unfold Ident; infer_instance

instance (d : UniformDecl) : Decidable d.WellFormed := by
  unfold UniformDecl.WellFormed; infer_instance

instance (typen : List Char) : Decidable (SamplerLike typen) := by
  unfold SamplerLike; infer_instance

instance (a : List Char) : Decidable (StopStatement a) := by
  unfold StopStatement; infer_instance

instance (un : Uniform) : Decidable un.WellFormed := by
  unfold Uniform.WellFormed; infer_instance

instance (z : List Char) : Decidable (NoLeadingDigit z) := by
  unfold NoLeadingDigit; infer_instance

/-! ## Comparison, trimming and the progress of the scan loop -/

theorem char_toNat_inj {a b : Char} (h : a.toNat = b.toNat) : a = b := by
  apply Char.ext
  apply UInt32.ext
  simpa [Char.toNat, UInt32.toNat] using h

theorem strCmpAux_eq_zero (l r : List Char) : strCmpAux l r = 0 ↔ l = r := by
  induction l generalizing r with
  | nil => cases r <;> simp [strCmpAux]
  | cons a l ih =>
    cases r with
    | nil => simp [strCmpAux]
    | cons b r =>
      by_cases hab : a = b
      · simp [strCmpAux, hab, ih]
      · have : (a.toNat : Int) - (b.toNat : Int) ≠ 0 := by
          intro h
          apply hab
          apply char_toNat_inj
          omega
        simp [strCmpAux, hab, this]

theorem strCmp_eq_zero (l r : List Char) (n : Nat) :
    strCmp l r n = 0 ↔ l.take n = r.take n := by
  simp [strCmp, strCmpAux_eq_zero]

theorem dropWhile_append_all {p : Char → Bool} (ws r : List Char)
    (h : ∀ c ∈ ws, p c = true) : (ws ++ r).dropWhile p = r.dropWhile p := by
  induction ws with
  | nil => rfl
  | cons c ws ih =>
    have hc : p c = true := h c (List.mem_cons_self _ _)
    simp only [List.cons_append, List.dropWhile_cons, hc, if_true]
    exact ih (fun d hd => h d (List.mem_cons_of_mem _ hd))

theorem takeWhile_append_all {p : Char → Bool} (ws r : List Char)
    (h : ∀ c ∈ ws, p c = true) : (ws ++ r).takeWhile p = ws ++ r.takeWhile p := by
  induction ws with
  | nil => rfl
  | cons c ws ih =>
    have hc : p c = true := h c (List.mem_cons_self _ _)
    simp only [List.cons_append, List.takeWhile_cons, hc, if_true]
    rw [ih (fun d hd => h d (List.mem_cons_of_mem _ hd))]

theorem dropWhile_headNot {p : Char → Bool} {r : List Char} (h : HeadNot p r) :
    r.dropWhile p = r := by
  cases r with
  | nil => rfl
  | cons c r =>
    have hc : p c = false := h c (by simp)
    simp [List.dropWhile_cons, hc]

theorem takeWhile_headNot {p : Char → Bool} {r : List Char} (h : HeadNot p r) :
    r.takeWhile p = [] := by
  cases r with
  | nil => rfl
  | cons c r =>
    have hc : p c = false := h c (by simp)
    simp [List.takeWhile_cons, hc]

theorem dropWhile_append_stop {p : Char → Bool} (a b : List Char) (c : Char)
    (hc : p c = false) : (a ++ c :: b).dropWhile p = a.dropWhile p ++ c :: b := by
  induction a with
  | nil => simp [List.dropWhile_cons, hc]
  | cons x a ih =>
    by_cases hx : p x = true
    · simp [List.dropWhile_cons, hx, ih]
    · simp [List.dropWhile_cons, hx]

theorem takeWhile_append_stop {p : Char → Bool} (a b : List Char) (c : Char)
    (hc : p c = false) : (a ++ c :: b).takeWhile p = a.takeWhile p := by
  induction a with
  | nil => simp [List.takeWhile_cons, hc]
  | cons x a ih =>
    by_cases hx : p x = true
    · simp [List.takeWhile_cons, hx, ih]
    · simp [List.takeWhile_cons, hx]

theorem not_mem_dropWhile {p : Char → Bool} {a : List Char} {c : Char} (h : c ∉ a) :
    c ∉ a.dropWhile p :=
  fun hc => h ((List.dropWhile_suffix p).subset hc)

theorem strFindChar_append {a b : List Char} {c : Char} (h : c ∉ a) :
    strFindChar (a ++ c :: b) c = c :: b := by
  induction a with
  | nil => simp [strFindChar, List.dropWhile_cons]
  | cons x a ih =>
    have hx : x ≠ c := fun e => h (e ▸ List.mem_cons_self _ _)
    have ha : c ∉ a := fun e => h (List.mem_cons_of_mem _ e)
    have := ih ha
    simp only [strFindChar] at this ⊢
    simp [List.dropWhile_cons, hx, this]

theorem strFindChar_eq_nil {a : List Char} {c : Char} (h : c ∉ a) :
    strFindChar a c = [] := by
  induction a with
  | nil => rfl
  | cons x a ih =>
    have hx : x ≠ c := fun e => h (e ▸ List.mem_cons_self _ _)
    have ha : c ∉ a := fun e => h (List.mem_cons_of_mem _ e)
    have := ih ha
    simp only [strFindChar] at this ⊢
    simp [List.dropWhile_cons, hx, this]

theorem strLTrimSpace_semi (a b : List Char) :
    strLTrimSpace (a ++ ';' :: b) = strLTrimSpace a ++ ';' :: b :=
  dropWhile_append_stop a b ';' (by decide)

theorem eol_semi {a : List Char} (b : List Char) (h : ';' ∉ a) :
    strFindChar (strLTrimSpace (a ++ ';' :: b)) ';' = ';' :: b := by
  rw [strLTrimSpace_semi]
  exact strFindChar_append (not_mem_dropWhile h)

theorem nextWord_semi (a b : List Char) :
    nextWord (a ++ ';' :: b) = ((nextWord a).1, (nextWord a).2 ++ ';' :: b) := by
  simp only [nextWord, strLTrimSpace_semi, strWord]
  rw [takeWhile_append_stop _ _ _ (by decide), dropWhile_append_stop _ _ _ (by decide)]
  rw [strLTrimSpace_semi]

theorem glStep_length (p : List Char) (us : List Uniform) :
    (glStep p us).1.length < p.length ∨ glStep p us = (p, us) := by
  have htrim : (strLTrimSpace p).length ≤ p.length :=
    (List.dropWhile_suffix _).length_le
  have heol : (strFindChar (strLTrimSpace p) ';').length ≤ (strLTrimSpace p).length :=
    (List.dropWhile_suffix _).length_le
  unfold glStep
  by_cases he : (strFindChar (strLTrimSpace p) ';').isEmpty = true
  · simp only [he, if_true]
    by_cases hp : strLTrimSpace p = p
    · right; rw [hp]
    · left
      rcases Nat.lt_or_ge (strLTrimSpace p).length p.length with h | h
      · exact h
      · exact absurd ((List.dropWhile_suffix _).eq_of_length_le h) hp
  · left
    have hne : strFindChar (strLTrimSpace p) ';' ≠ [] := by
      simpa [List.isEmpty_iff] using he
    have hpos : 0 < (strFindChar (strLTrimSpace p) ';').length := List.length_pos.mpr hne
    have h1 : (strFindChar (strLTrimSpace p) ';').tail.length < p.length := by
      rw [List.length_tail]; omega
    have h2 : (strLTrimSpace (strFindNl (strFindChar (strLTrimSpace p) ';'))).length
        < p.length := by
      have a1 : (strLTrimSpace (strFindNl (strFindChar (strLTrimSpace p) ';'))).length
          ≤ (strFindNl (strFindChar (strLTrimSpace p) ';')).length :=
        (List.dropWhile_suffix _).length_le
      have a2 : (strFindNl (strFindChar (strLTrimSpace p) ';')).length
          ≤ (strFindChar (strLTrimSpace p) ';').length - 1 := by
        unfold strFindNl
        rw [List.length_tail]
        exact Nat.sub_le_sub_right (List.dropWhile_suffix _).length_le 1
      omega
    simp only [he]
    split_ifs <;> simp_all
    all_goals omega

theorem scanLoop_stuck {p : List Char} {us : List Uniform} (hp : p ≠ [])
    (h : glStep p us = (p, us)) : ∀ n, scanLoop n p us = none := by
  intro n
  induction n with
  | zero => rfl
  | succ n ih =>
    have : p.isEmpty = false := by cases p <;> simp_all
    simp only [scanLoop, this, h]
    simpa using ih

theorem scanLoop_fuel : ∀ (k : Nat) (p : List Char) (us : List Uniform) (n : Nat),
    p.length ≤ k → p.length + 1 ≤ n → scanLoop n p us = scanLoop (p.length + 1) p us := by
  intro k
  induction k with
  | zero =>
    intro p us n hk hn
    have hp : p = [] := List.length_eq_zero.mp (Nat.le_zero.mp hk)
    subst hp
    obtain ⟨m, rfl⟩ : ∃ m, n = m + 1 := ⟨n - 1, by omega⟩
    simp [scanLoop]
  | succ k ih =>
    intro p us n hk hn
    obtain ⟨m, rfl⟩ : ∃ m, n = m + 1 := ⟨n - 1, by omega⟩
    by_cases hp : p = []
    · subst hp; simp [scanLoop]
    · rcases glStep_length p us with hlt | hst
      · have he : p.isEmpty = false := by cases p <;> simp_all
        simp only [scanLoop, he]
        rw [ih _ _ m (by omega) (by omega), ih _ _ p.length (by omega) (by omega)]
      · rw [scanLoop_stuck hp hst, scanLoop_stuck hp hst]

theorem scanFrom_nil (us : List Uniform) : scanFrom [] us = some us := by
  simp [scanFrom, scanLoop]

theorem scanFrom_step {p : List Char} (us : List Uniform) (hp : p ≠ []) :
    scanFrom p us = scanFrom (glStep p us).1 (glStep p us).2 := by
  rcases glStep_length p us with hlt | hst
  · have he : p.isEmpty = false := by cases p <;> simp_all
    show scanLoop (p.length + 1) p us = scanLoop _ _ _
    simp only [scanLoop, he]
    exact scanLoop_fuel _ _ _ p.length (le_refl _) (by omega)
  · rw [hst]

theorem strLTrimSpace_idem (p : List Char) :
    strLTrimSpace (strLTrimSpace p) = strLTrimSpace p := by
  unfold strLTrimSpace
  cases h : List.dropWhile isSpace p with
  | nil => rfl
  | cons c r =>
    have := List.head_dropWhile_not isSpace p (by simp [h])
    simp only [h, List.head_cons] at this
    simp [List.dropWhile_cons, this]

theorem nextWord_trim (p : List Char) : nextWord (strLTrimSpace p) = nextWord p := by
  simp only [nextWord, strLTrimSpace_idem]

theorem glStep_trim (p : List Char) (us : List Uniform) :
    glStep (strLTrimSpace p) us = glStep p us := by
  simp only [glStep, strLTrimSpace_idem]

theorem scanFrom_trim (p : List Char) (us : List Uniform) :
    scanFrom (strLTrimSpace p) us = scanFrom p us := by
  by_cases hp : p = []
  · subst hp; rfl
  · by_cases ht : strLTrimSpace p = []
    · have h1 : glStep p us = ([], us) := by
        simp [glStep, ht, strFindChar]
      rw [scanFrom_step us hp, h1, ht]
    · rw [scanFrom_step us hp, scanFrom_step us ht, glStep_trim]

/-! ## Statements end at their `;` -/

theorem strCmp_eq_zero_iff_begins (l kw : List Char) :
    strCmp l kw kw.length = 0 ↔ kw <+: l := by
  rw [strCmp_eq_zero, List.take_length]
  constructor
  · intro h
    rw [← h]
    exact List.take_prefix _ _
  · rintro ⟨t, rfl⟩
    simp

theorem begins_append_stop {kw x : List Char} (c : Char) (R : List Char) (hc : c ∉ kw) :
    kw <+: x ++ c :: R ↔ kw <+: x := by
  constructor
  · intro h
    induction kw generalizing x with
    | nil => exact List.nil_prefix
    | cons k kw ih =>
      cases x with
      | nil =>
        rw [List.nil_append, List.cons_prefix_cons] at h
        exact absurd (h.1 ▸ List.mem_cons_self _ _) hc
      | cons y x =>
        rw [List.cons_append, List.cons_prefix_cons] at h
        rw [List.cons_prefix_cons]
        exact ⟨h.1, ih (fun e => hc (List.mem_cons_of_mem _ e)) h.2⟩
  · intro h
    exact h.trans (List.prefix_append _ _)

theorem fromString_semi (x b : List Char) : fromString (x ++ ';' :: b) = fromString x := by
  have hn : isNumeric ';' = false := by decide
  unfold fromString
  rw [strLTrimSpace_semi]
  cases h : strLTrimSpace x with
  | nil =>
    have e1 : ([] ++ ';' :: b : List Char).head? = some ';' := rfl
    have e2 : ([] : List Char).head? = none := rfl
    have e3 : (some ';' = some '-' ∨ some ';' = some '+') = False := by simp
    have e4 : (some ';' = some '-') = False := by simp
    have e5 : List.takeWhile isNumeric (';' :: b) = [] :=
      takeWhile_append_stop [] b ';' hn
    have e6 : (some ';' = some '+') = False := by simp
    simp only [List.nil_append, List.head?_cons, List.head?_nil, e6, e4, if_false, e5,
      reduceCtorEq, or_self, List.takeWhile_nil]
  | cons c r =>
    have e1 : (c :: r ++ ';' :: b).head? = (c :: r).head? := rfl
    have e2 : (c :: r ++ ';' :: b).tail = r ++ ';' :: b := rfl
    have e3 : (c :: r).tail = r := rfl
    have key : ∀ (C : Prop) [Decidable C],
        List.takeWhile isNumeric (if C then r ++ ';' :: b else c :: r ++ ';' :: b)
          = List.takeWhile isNumeric (if C then r else c :: r) := by
      intro C _
      split_ifs
      · exact takeWhile_append_stop r b ';' hn
      · exact takeWhile_append_stop (c :: r) b ';' hn
    simp only [e1, e2, e3, key]

theorem fromString_trim (x : List Char) : fromString (strLTrimSpace x) = fromString x := by
  simp only [fromString, strLTrimSpace_idem]

theorem num_semi (z b : List Char) :
    (if strCmp ((z ++ ';' :: b).take 1) ['['] 1 = 0
      then fromString (strLTrimSpace (z ++ ';' :: b).tail) % 256 else 1) = declNum z := by
  unfold declNum
  cases z with
  | nil =>
    have h : ¬ strCmp ((([] : List Char) ++ ';' :: b).take 1) ['['] 1 = 0 := by
      rw [strCmp_eq_zero]; simp
    rw [if_neg h]
    simp
  | cons c z =>
    have e : strCmp ((c :: z ++ ';' :: b).take 1) ['['] 1 = 0 ↔ c = '[' := by
      rw [strCmp_eq_zero]; simp
    have e2 : (c :: z ++ ';' :: b).tail = z ++ ';' :: b := rfl
    simp only [e, e2, List.head?_cons, Option.some.injEq, List.tail_cons]
    rw [fromString_trim, fromString_semi]

theorem ite_append_semi (c : Prop) [Decidable c] (u v b : List Char) :
    (if c then u ++ ';' :: b else v ++ ';' :: b) = (if c then u else v) ++ ';' :: b := by
  split_ifs <;> rfl

theorem glDeclaration_semi (x b : List Char) (us : List Uniform) :
    glDeclaration (x ++ ';' :: b) us = glDeclaration (x ++ [';']) us := by
  unfold glDeclaration
  simp only [nextWord_semi, ite_append_semi, num_semi]

/-! ## Skipped statements, the stop and headers -/

theorem glStep_semi {a : List Char} (b : List Char) (us : List Uniform) (h : ';' ∉ a) :
    glStep (a ++ ';' :: b) us =
      if isSkipQualifier (nextWord a).1 then (b, us)
      else if ['t', 'm', 'p', 'v', 'a', 'r'] <+: (nextWord a).2 then (b, us)
      else if ¬ ['u', 'n', 'i', 'f', 'o', 'r', 'm'] <+: (nextWord a).1 then ([], us)
      else (strLTrimSpace (strFindNl (';' :: b)),
            glDeclaration ((nextWord a).2 ++ [';']) us) := by
  have e1 : strCmp ((nextWord a).2 ++ ';' :: b) ['t', 'm', 'p', 'v', 'a', 'r'] 6 = 0
      ↔ ['t', 'm', 'p', 'v', 'a', 'r'] <+: (nextWord a).2 := by
    rw [show (6 : Nat) = ['t', 'm', 'p', 'v', 'a', 'r'].length from rfl,
      strCmp_eq_zero_iff_begins, begins_append_stop ';' b (by decide)]
  have e2 : strCmp (nextWord a).1 ['u', 'n', 'i', 'f', 'o', 'r', 'm'] 7 = 0
      ↔ ['u', 'n', 'i', 'f', 'o', 'r', 'm'] <+: (nextWord a).1 := by
    rw [show (7 : Nat) = ['u', 'n', 'i', 'f', 'o', 'r', 'm'].length from rfl,
      strCmp_eq_zero_iff_begins]
  unfold glStep
  simp only [eol_semi b h, nextWord_trim, nextWord_semi, e1, e2, glDeclaration_semi,
    List.isEmpty_cons, List.tail_cons, Bool.false_eq_true, if_false, ne_eq]

theorem isSkipQualifier_eq_false {q : List Char}
    (h : ∀ kw ∈ skipKeywords, ¬ kw <+: q) : isSkipQualifier q = false := by
  have n1 := h "precision".toList (by decide)
  have n2 := h "attribute".toList (by decide)
  have n3 := h "varying".toList (by decide)
  have n4 := h "in".toList (by decide)
  have n5 := h "out".toList (by decide)
  have n6 := h "flat".toList (by decide)
  have n7 := h "smooth".toList (by decide)
  have n8 := h "noperspective".toList (by decide)
  have n9 := h "centroid".toList (by decide)
  rw [← strCmp_eq_zero_iff_begins] at n1 n2 n3 n4 n5 n6 n7 n8 n9
  unfold isSkipQualifier
  simp only [Bool.or_eq_false_iff, decide_eq_false_iff_not, not_or]
  exact ⟨⟨n1, n2, n3, n4, n5⟩, n6, n7, n8, n9⟩

theorem isSkipQualifier_of_mem {kw : List Char} (h : kw ∈ skipKeywords) :
    isSkipQualifier kw = true := by
  simp only [skipKeywords, List.mem_cons, List.mem_singleton, List.not_mem_nil, or_false] at h
  rcases h with h | h | h | h | h | h | h | h | h <;> subst h <;> decide

theorem glStep_stop {a : List Char} (b : List Char) (us : List Uniform)
    (h : StopStatement a) : glStep (a ++ ';' :: b) us = ([], us) := by
  obtain ⟨hs, hk, hu, ht⟩ := h
  have hq : isSkipQualifier (nextWord a).1 = false := isSkipQualifier_eq_false hk
  have hu2 : ¬ ['u', 'n', 'i', 'f', 'o', 'r', 'm'] <+: (nextWord a).1 := hu
  have ht2 : ¬ ['t', 'm', 'p', 'v', 'a', 'r'] <+: (nextWord a).2 := ht
  rw [glStep_semi b us hs]
  simp [hq, hu2, ht2]

theorem strFindNl_line {t : List Char} (h : List Char) (ht : ∀ c ∈ t, isSpace c = true ∧ c ≠ '\n') :
    strFindNl (';' :: (t ++ '\n' :: h)) = h := by
  have : ∀ c ∈ ';' :: t, (fun x => x != '\n') c = true := by
    intro c hc
    rcases List.mem_cons.mp hc with rfl | hc
    · decide
    · simpa using (ht c hc).2
  unfold strFindNl
  rw [← List.cons_append, dropWhile_append_all _ _ this]
  simp [List.dropWhile_cons]

theorem strLTrimSpace_line {t : List Char} (h : List Char)
    (ht : ∀ c ∈ t, isSpace c = true ∧ c ≠ '\n') :
    strLTrimSpace (t ++ '\n' :: h) = strLTrimSpace h := by
  unfold strLTrimSpace
  rw [dropWhile_append_all _ _ (fun c hc => (ht c hc).1)]
  simp [List.dropWhile_cons, isSpace]

theorem scanFrom_uniform_line {a t : List Char} (h : List Char) (us : List Uniform)
    (hs : ';' ∉ a) (hu : strWord (strLTrimSpace a) = kwUniform)
    (ht : ∀ c ∈ t, isSpace c = true ∧ c ≠ '\n') :
    scanFrom (a ++ ';' :: (t ++ '\n' :: h)) us = scanFrom h (lineTable a us) := by
  have hq : isSkipQualifier (nextWord a).1 = false := by
    show isSkipQualifier (strWord (strLTrimSpace a)) = false
    rw [hu]; decide
  have hu2 : ['u', 'n', 'i', 'f', 'o', 'r', 'm'] <+: (nextWord a).1 := by
    show _ <+: strWord (strLTrimSpace a)
    rw [hu]; exact List.prefix_refl _
  rw [scanFrom_step us (by simp), lineTable, glStep_semi _ us hs, glStep_semi _ us hs]
  simp only [hq, hu2, Bool.false_eq_true, if_false, not_true_eq_false]
  by_cases htv : ['t', 'm', 'p', 'v', 'a', 'r'] <+: (nextWord a).2
  · simp only [htv, if_true]
    rw [← scanFrom_trim, strLTrimSpace_line h ht, scanFrom_trim]
  · simp only [htv, if_false]
    rw [strFindNl_line h ht, scanFrom_trim]

theorem glStep_skip {a : List Char} (R : List Char) (us : List Uniform) (hsemi : (Char.ofNat 59) ∉ a)
    (hq : isSkipQualifier (strWord (strLTrimSpace a)) = true) :
    glStep (a ++ (Char.ofNat 59) :: R) us = (R, us) := by
  rw [glStep_semi R us hsemi]
  have : isSkipQualifier (nextWord a).1 = true := hq
  simp [this]

theorem scanFrom_header {H : List Char} (hH : Header H) :
    ∀ us : List Uniform, (∃ table, scanFrom H us = some table) ∧
      ∀ (X R : List Char), StopStatement X →
        scanFrom (H ++ (X ++ ';' :: R)) us = scanFrom H us := by
  induction hH with
  | nil =>
    intro us
    refine ⟨⟨us, scanFrom_nil us⟩, fun X R hX => ?_⟩
    rw [List.nil_append, scanFrom_step us (by simp), glStep_stop R us hX]
  | skip a h hs hk _ ih =>
    intro us
    have e : ∀ r, scanFrom (a ++ ';' :: r) us = scanFrom r us := fun r => by
      rw [scanFrom_step us (by simp), glStep_skip r us hs (isSkipQualifier_of_mem hk)]
    refine ⟨?_, fun X R hX => ?_⟩
    · rw [e]; exact (ih us).1
    · rw [List.append_assoc, List.cons_append, e, e]; exact (ih us).2 X R hX
  | uniform a t h hs hu ht _ ih =>
    intro us
    refine ⟨?_, fun X R hX => ?_⟩
    · rw [scanFrom_uniform_line h us hs hu ht]; exact (ih _).1
    · rw [List.append_assoc, List.cons_append, List.append_assoc, List.cons_append,
        scanFrom_uniform_line _ us hs hu ht, scanFrom_uniform_line h us hs hu ht]
      exact (ih _).2 X R hX

/-! ## Reading a well-formed declaration -/

theorem isSpace_not_wordChar {c : Char} (h : isSpace c = true) : isWordChar c = false := by
  simp only [isSpace, Bool.or_eq_true, beq_iff_eq] at h
  rcases h with ((((h | h) | h) | h) | h) | h <;> subst h <;> decide

theorem wordChar_not_space {c : Char} (h : isWordChar c = true) : isSpace c = false := by
  cases hs : isSpace c with
  | false => rfl
  | true => rw [isSpace_not_wordChar hs] at h; exact absurd h (by decide)

theorem headNot_space_of_ident {w : List Char} (r : List Char) (hw : Ident w) :
    HeadNot isSpace (w ++ r) := by
  obtain ⟨hne, hall⟩ := hw
  cases w with
  | nil => exact absurd rfl hne
  | cons c w =>
    intro x hx
    simp only [List.cons_append, List.head?_cons, Option.mem_def, Option.some.injEq] at hx
    subst hx
    exact wordChar_not_space (hall _ (List.mem_cons_self _ _))

theorem headNot_word_of_blank {ws : List Char} (r : List Char) (hw : Blank ws) :
    HeadNot isWordChar (ws ++ r) := by
  obtain ⟨hne, hall⟩ := hw
  cases ws with
  | nil => exact absurd rfl hne
  | cons c w =>
    intro x hx
    simp only [List.cons_append, List.head?_cons, Option.mem_def, Option.some.injEq] at hx
    subst hx
    exact isSpace_not_wordChar (hall _ (List.mem_cons_self _ _))

theorem nextWord_ident (ws w r0 : List Char) (hws : Spaces ws) (hw : Ident w)
    (hr : HeadNot isWordChar r0) : nextWord (ws ++ (w ++ r0)) = (w, strLTrimSpace r0) := by
  simp only [nextWord, strLTrimSpace, strWord]
  rw [dropWhile_append_all _ _ hws, dropWhile_headNot (headNot_space_of_ident r0 hw),
    takeWhile_append_all _ _ hw.2, takeWhile_headNot hr, dropWhile_append_all _ _ hw.2,
    dropWhile_headNot hr, List.append_nil]

theorem nextWord_ident_blank (ws w sep r : List Char) (hws : Spaces ws)
    (hw : Ident w) (hsep : Blank sep) (hr : HeadNot isSpace r) :
    nextWord (ws ++ (w ++ (sep ++ r))) = (w, r) := by
  rw [nextWord_ident _ _ _ hws hw (headNot_word_of_blank r hsep)]
  unfold strLTrimSpace
  rw [dropWhile_append_all _ _ hsep.2, dropWhile_headNot hr]

theorem ident_of_precision {kw : List Char} (h : kw ∈ precisionKeywords) :
    Ident kw ∧ isPrecisionWord kw = true := by
  simp only [precisionKeywords, List.mem_cons, List.mem_singleton, List.not_mem_nil,
    or_false] at h
  rcases h with h | h | h <;> subst h <;> exact ⟨⟨by decide, by decide⟩, by decide⟩

theorem ident_kwUniform : Ident kwUniform := ⟨by decide, by decide⟩

theorem UniformDecl.headNot_afterUniform (d : UniformDecl) (hd : d.WellFormed) :
    HeadNot isSpace d.afterUniform := by
  obtain ⟨-, -, hp, hT, -, -, -, -⟩ := hd
  unfold UniformDecl.afterUniform
  rcases hp with ⟨h1, h2⟩ | ⟨h1, -⟩
  · rw [h1, h2, List.nil_append, List.nil_append]; exact headNot_space_of_ident _ hT
  · exact headNot_space_of_ident _ (ident_of_precision h1).1

theorem UniformDecl.nextWord_text (d : UniformDecl) (hd : d.WellFormed) :
    nextWord d.text = (kwUniform, d.afterUniform) :=
  nextWord_ident_blank _ _ _ _ hd.1 ident_kwUniform hd.2.1 (d.headNot_afterUniform hd)

theorem glDeclaration_typen {typen name rest : List Char} (us : List Uniform)
    (hn : Ident name) (hr : HeadNot isWordChar rest)
    (parse : List Char)
    (h : (if isPrecisionWord (nextWord parse).1 then nextWord (nextWord parse).2
          else nextWord parse) = (typen, name ++ (rest ++ [';']))) :
    glDeclaration parse us =
      if nameToUniformTypeEnum (glUniformType typen) ≠ UniformType.Count then
        us ++ [declUniform typen name rest]
      else us := by
  have hr2 : HeadNot isWordChar (rest ++ [';']) := by
    cases rest with
    | nil => intro c hc; simp at hc; subst hc; decide
    | cons x r => intro c hc; exact hr c (by simpa using hc)
  have hname : nextWord (name ++ (rest ++ [';'])) = (name, strLTrimSpace rest ++ [';']) := by
    have := nextWord_ident [] name (rest ++ [';']) (by intro c hc; simp at hc) hn hr2
    rw [List.nil_append, strLTrimSpace_semi] at this
    exact this
  have e1 : (if isPrecisionWord (nextWord parse).1 then (nextWord (nextWord parse).2).1
      else (nextWord parse).1) = typen := by
    have := congrArg Prod.fst h
    rw [apply_ite Prod.fst] at this
    exact this
  have e2 : (if isPrecisionWord (nextWord parse).1 then (nextWord (nextWord parse).2).2
      else (nextWord parse).2) = name ++ (rest ++ [';']) := by
    have := congrArg Prod.snd h
    rw [apply_ite Prod.snd] at this
    exact this
  unfold glDeclaration
  simp only [e1, e2, hname, num_semi, declUniform]

theorem UniformDecl.glDeclaration_text (d : UniformDecl) (hd : d.WellFormed)
    (us : List Uniform) (hprec : d.prec = [] → isPrecisionWord d.typen = false) :
    glDeclaration (d.afterUniform ++ [';']) us =
      if nameToUniformTypeEnum (glUniformType d.typen) ≠ UniformType.Count then
        us ++ [declUniform d.typen d.name d.rest]
      else us := by
  obtain ⟨-, -, hp, hT, h3, hn, hr, -⟩ := hd
  apply glDeclaration_typen us hn hr
  have hsp : HeadNot isSpace (d.name ++ (d.rest ++ [';'])) := headNot_space_of_ident _ hn
  have hnil : Spaces [] := by intro c hc; simp at hc
  have hw2 : nextWord (d.typen ++ (d.sep3 ++ (d.name ++ (d.rest ++ [';']))))
      = (d.typen, d.name ++ (d.rest ++ [';'])) := by
    have := nextWord_ident_blank [] _ _ _ hnil hT h3 hsp
    rwa [List.nil_append] at this
  unfold UniformDecl.afterUniform
  rcases hp with ⟨h1, h2⟩ | ⟨h1, h2⟩
  · simp only [h1, h2, List.nil_append, List.append_assoc, hw2, hprec h1,
      Bool.false_eq_true, if_false]
  · have hw1 : nextWord (d.prec ++ (d.sep2 ++ (d.typen ++ (d.sep3 ++ (d.name ++ (d.rest ++ [';']))))))
        = (d.prec, d.typen ++ (d.sep3 ++ (d.name ++ (d.rest ++ [';'])))) := by
      have := nextWord_ident_blank [] _ _ _ hnil (ident_of_precision h1).1 h2
        (headNot_space_of_ident (d.sep3 ++ (d.name ++ (d.rest ++ [';']))) hT)
      rwa [List.nil_append] at this
    simp only [List.append_assoc, hw1, (ident_of_precision h1).2, if_true, hw2]

/-! ## Decimal literals -/

theorem digitChar_spec (k : Nat) (h : k < 10) :
    (Nat.digitChar k).toNat - 48 = k ∧ isNumeric (Nat.digitChar k) = true := by
  interval_cases k <;> exact ⟨by decide, by decide⟩

theorem toDigitsCore_value : ∀ (fuel n : Nat) (ds : List Char), n < fuel →
    List.foldl (fun acc c => 10 * acc + (c.toNat - 48)) 0 (Nat.toDigitsCore 10 fuel n ds)
      = List.foldl (fun acc c => 10 * acc + (c.toNat - 48)) n ds := by
  intro fuel
  induction fuel with
  | zero => intro n ds h; omega
  | succ fuel ih =>
    intro n ds h
    have hd := (digitChar_spec (n % 10) (Nat.mod_lt _ (by decide))).1
    unfold Nat.toDigitsCore
    by_cases h0 : n / 10 = 0
    · simp only [h0, if_true, List.foldl_cons, hd]
      congr 1
      omega
    · simp only [h0, if_false]
      rw [ih (n / 10) _ (by omega)]
      simp only [List.foldl_cons, hd]
      congr 1
      omega

theorem toDigitsCore_numeric : ∀ (fuel n : Nat) (ds : List Char),
    (∀ c ∈ ds, isNumeric c = true) → ∀ c ∈ Nat.toDigitsCore 10 fuel n ds, isNumeric c = true := by
  intro fuel
  induction fuel with
  | zero => intro n ds h; simpa [Nat.toDigitsCore] using h
  | succ fuel ih =>
    intro n ds h
    have hd := (digitChar_spec (n % 10) (Nat.mod_lt _ (by decide))).2
    have hds : ∀ c ∈ Nat.digitChar (n % 10) :: ds, isNumeric c = true := by
      intro c hc
      rcases List.mem_cons.mp hc with rfl | hc
      · exact hd
      · exact h c hc
    unfold Nat.toDigitsCore
    by_cases h0 : n / 10 = 0
    · simpa only [h0, if_true] using hds
    · simp only [h0, if_false]
      exact ih _ _ hds

theorem digitsValue_toDigits (n : Nat) : digitsValue (Nat.toDigits 10 n) = n := by
  unfold digitsValue Nat.toDigits
  rw [toDigitsCore_value _ _ _ (Nat.lt_succ_self n)]
  rfl

theorem toDigits_numeric (n : Nat) : ∀ c ∈ Nat.toDigits 10 n, isNumeric c = true :=
  toDigitsCore_numeric _ _ _ (by intro c hc; simp at hc)

theorem isNumeric_facts {c : Char} (h : isNumeric c = true) :
    isSpace c = false ∧ c ≠ '-' ∧ c ≠ '+' ∧ c ≠ ';' ∧ isWordChar c = true := by
  refine ⟨?_, ?_, ?_, ?_, ?_⟩
  · cases hs : isSpace c with
    | false => rfl
    | true =>
      simp only [isSpace, Bool.or_eq_true, beq_iff_eq] at hs
      rcases hs with ((((hs | hs) | hs) | hs) | hs) | hs <;> subst hs <;>
        exact absurd h (by decide)
  · rintro rfl; exact absurd h (by decide)
  · rintro rfl; exact absurd h (by decide)
  · rintro rfl; exact absurd h (by decide)
  · simp [isWordChar, h]

/-- `fromString` on blanks, a decimal literal and a closing bracket. -/
theorem fromString_literal (ws post : List Char) (n : Nat) (hws : Spaces ws) :
    fromString (ws ++ (Nat.toDigits 10 n ++ ']' :: post)) = n % 2 ^ 32 := by
  have hhead : ∀ c ∈ (Nat.toDigits 10 n ++ ']' :: post).head?,
      isSpace c = false ∧ c ≠ '-' ∧ c ≠ '+' := by
    intro c hc
    cases hd : Nat.toDigits 10 n with
    | nil =>
      rw [hd] at hc
      simp only [List.nil_append, List.head?_cons, Option.mem_def, Option.some.injEq] at hc
      subst hc
      exact ⟨by decide, by decide, by decide⟩
    | cons x r =>
      rw [hd] at hc
      simp only [List.cons_append, List.head?_cons, Option.mem_def, Option.some.injEq] at hc
      subst hc
      have := isNumeric_facts (toDigits_numeric n x (by rw [hd]; exact List.mem_cons_self _ _))
      exact ⟨this.1, this.2.1, this.2.2.1⟩
  have htrim : strLTrimSpace (ws ++ (Nat.toDigits 10 n ++ ']' :: post))
      = Nat.toDigits 10 n ++ ']' :: post := by
    unfold strLTrimSpace
    rw [dropWhile_append_all _ _ hws]
    exact dropWhile_headNot (fun c hc => (hhead c hc).1)
  have h1 : ¬ (Nat.toDigits 10 n ++ ']' :: post).head? = some '-' :=
    fun e => (hhead _ e).2.1 rfl
  have h2 : ¬ (Nat.toDigits 10 n ++ ']' :: post).head? = some '+' :=
    fun e => (hhead _ e).2.2 rfl
  have htake : List.takeWhile isNumeric (Nat.toDigits 10 n ++ ']' :: post)
      = Nat.toDigits 10 n := by
    rw [takeWhile_append_all _ _ (toDigits_numeric n)]
    simp [List.takeWhile_cons, show isNumeric ']' = false by decide]
  unfold fromString
  simp only [htrim, h1, h2, or_self, if_false, htake, digitsValue_toDigits]

/-! ## Array declarations -/

theorem semi_not_mem_of_spaces {ws : List Char} (h : Spaces ws) : ';' ∉ ws :=
  fun hm => absurd (h _ hm) (by decide)

theorem semi_not_mem_of_ident {w : List Char} (h : Ident w) : ';' ∉ w :=
  fun hm => absurd (h.2 _ hm) (by decide)

theorem UniformDecl.semi_not_mem (d : UniformDecl) (hd : d.WellFormed) : ';' ∉ d.text := by
  obtain ⟨h0, h1, hp, hT, h3, hn, -, hr⟩ := hd
  have hprec : ';' ∉ d.prec ∧ ';' ∉ d.sep2 := by
    rcases hp with ⟨e1, e2⟩ | ⟨e1, e2⟩
    · rw [e1, e2]; simp
    · exact ⟨semi_not_mem_of_ident (ident_of_precision e1).1, semi_not_mem_of_spaces e2.2⟩
  have hu : ';' ∉ kwUniform := by decide
  simp only [UniformDecl.text, UniformDecl.afterUniform, List.mem_append, not_or]
  exact ⟨semi_not_mem_of_spaces h0, hu, semi_not_mem_of_spaces h1.2, hprec.1, hprec.2,
    semi_not_mem_of_ident hT, semi_not_mem_of_spaces h3.2, semi_not_mem_of_ident hn, hr⟩

theorem UniformDecl.glStep_text (d : UniformDecl) (hd : d.WellFormed) (R : List Char)
    (us : List Uniform) (hprec : d.prec = [] → isPrecisionWord d.typen = false) :
    glStep (d.text ++ ';' :: R) us =
      if kwTmpvar <+: d.afterUniform then (R, us)
      else (strLTrimSpace (strFindNl (';' :: R)),
        if nameToUniformTypeEnum (glUniformType d.typen) ≠ UniformType.Count then
          us ++ [declUniform d.typen d.name d.rest]
        else us) := by
  have hq : isSkipQualifier kwUniform = false := by decide
  have hu : ['u', 'n', 'i', 'f', 'o', 'r', 'm'] <+: kwUniform := List.prefix_refl _
  rw [glStep_semi R us (d.semi_not_mem hd), d.nextWord_text hd]
  simp only [hq, hu, d.glDeclaration_text hd us hprec, Bool.false_eq_true, if_false,
    not_true_eq_false]
  rfl

theorem mem_typeNames_of_recognized {x : List Char}
    (h : nameToUniformTypeEnum x ≠ UniformType.Count) : x ∈ typeNames := by
  unfold nameToUniformTypeEnum at h
  split_ifs at h with h1 h2 h3 h4 h5 h6 h7
  all_goals first
    | exact absurd rfl h
    | (subst_vars; decide)

theorem take_eq_short {T l : List Char} {k : Nat} (h : T.take k = l) (hl : l.length < k) :
    T = l := by
  have hlen : (T.take k).length = l.length := by rw [h]
  rw [List.length_take] at hlen
  have : T.length ≤ k := by omega
  rw [List.take_of_length_le this] at h
  exact h

theorem samplerLike_iff (typen : List Char) :
    (strCmp typen ['s', 'a', 'm', 'p', 'l', 'e', 'r'] 7 = 0
      ∨ strCmp typen ['i', 's', 'a', 'm', 'p', 'l', 'e', 'r'] 8 = 0
      ∨ strCmp typen ['u', 's', 'a', 'm', 'p', 'l', 'e', 'r'] 8 = 0) ↔ SamplerLike typen := by
  unfold SamplerLike
  rw [← strCmp_eq_zero_iff_begins, ← strCmp_eq_zero_iff_begins, ← strCmp_eq_zero_iff_begins]
  rfl

theorem glUniformType_sampler {typen : List Char} (h : SamplerLike typen) :
    glUniformType typen = ['i', 'n', 't'] := by
  unfold glUniformType
  rw [if_pos ((samplerLike_iff typen).mpr h)]
  rfl

theorem recognized_cases {typen : List Char}
    (h : nameToUniformTypeEnum (glUniformType typen) ≠ UniformType.Count) :
    SamplerLike typen ∨ typen ∈ typeNames := by
  by_cases hs : SamplerLike typen
  · exact Or.inl hs
  · right
    unfold glUniformType at h
    rw [if_neg (fun e => hs ((samplerLike_iff typen).mp e))] at h
    have hm := mem_typeNames_of_recognized h
    have hlen : (strCopy 256 typen).length < 255 := by
      have : ∀ l ∈ typeNames, l.length < 255 := by decide
      exact this _ hm
    have : typen = strCopy 256 typen := take_eq_short rfl hlen
    rw [this]; exact hm

theorem isPrecisionWord_iff (typen : List Char) :
    isPrecisionWord typen = true ↔
      ("lowp".toList <+: typen ∨ "mediump".toList <+: typen ∨ "highp".toList <+: typen) := by
  unfold isPrecisionWord
  rw [decide_eq_true_iff, ← strCmp_eq_zero_iff_begins, ← strCmp_eq_zero_iff_begins,
    ← strCmp_eq_zero_iff_begins]
  rfl

/-- The first character decides that none of the listed keywords begins the text. -/
theorem not_begins_of_head {kw l : List Char} (h : ∀ c ∈ l.head?, kw.head? ≠ some c)
    (hkw : kw ≠ []) : ¬ kw <+: l := by
  rintro ⟨t, rfl⟩
  cases kw with
  | nil => exact hkw rfl
  | cons k kw => exact h k (by simp) rfl

theorem recognized_head {typen : List Char}
    (h : nameToUniformTypeEnum (glUniformType typen) ≠ UniformType.Count) :
    ∃ c r, typen = c :: r ∧ c ∈ typeHeads ∧ isPrecisionWord typen = false := by
  rcases recognized_cases h with hs | hm
  · have hp : ∀ c r, (c = 's' ∨ c = 'i' ∨ c = 'u') → isPrecisionWord (c :: r) = false := by
      intro c r hc
      rw [← Bool.not_eq_true, isPrecisionWord_iff]
      rcases hc with rfl | rfl | rfl <;> simp [List.cons_prefix_cons]
    rcases hs with ⟨t, rfl⟩ | ⟨t, rfl⟩ | ⟨t, rfl⟩
    · exact ⟨'s', _, rfl, by decide, hp _ _ (Or.inl rfl)⟩
    · exact ⟨'i', _, rfl, by decide, hp _ _ (Or.inr (Or.inl rfl))⟩
    · exact ⟨'u', _, rfl, by decide, hp _ _ (Or.inr (Or.inr rfl))⟩
  · have : ∀ l ∈ typeNames, ∃ c r, l = c :: r ∧ c ∈ typeHeads ∧ isPrecisionWord l = false := by
      intro l hl
      simp only [typeNames, List.mem_cons, List.mem_singleton, List.not_mem_nil, or_false] at hl
      rcases hl with rfl | rfl | rfl | rfl | rfl | rfl | rfl <;>
        exact ⟨_, _, rfl, by decide, by decide⟩
    exact this _ hm

theorem UniformDecl.not_tmpvar (d : UniformDecl) (hd : d.WellFormed)
    (h : ∃ c r, d.typen = c :: r ∧ c ∈ typeHeads) : ¬ kwTmpvar <+: d.afterUniform := by
  obtain ⟨c, r, hc, hmem⟩ := h
  apply not_begins_of_head _ (by decide)
  intro x hx
  unfold UniformDecl.afterUniform at hx
  rcases hd.2.2.1 with ⟨e1, e2⟩ | ⟨e1, -⟩
  · rw [e1, e2, hc] at hx
    simp only [List.nil_append, List.cons_append, List.head?_cons, Option.mem_def,
      Option.some.injEq] at hx
    subst hx
    simp only [typeHeads, List.mem_cons, List.mem_singleton, List.not_mem_nil, or_false] at hmem
    rcases hmem with rfl | rfl | rfl | rfl | rfl | rfl <;> decide
  · simp only [precisionKeywords, List.mem_cons, List.mem_singleton, List.not_mem_nil,
      or_false] at e1
    rcases e1 with e | e | e <;> rw [e] at hx <;>
      simp only [String.toList, List.cons_append, List.head?_cons, Option.mem_def,
        Option.some.injEq] at hx <;> subst hx <;> decide

theorem declNum_arraySuffix (sep4 sep5 post : List Char) (n : Nat) (h4 : Spaces sep4)
    (h5 : Spaces sep5) : declNum (strLTrimSpace (arraySuffix sep4 sep5 n post)) = n % 256 := by
  have htrim : strLTrimSpace (arraySuffix sep4 sep5 n post)
      = '[' :: (sep5 ++ (Nat.toDigits 10 n ++ ']' :: post)) := by
    unfold strLTrimSpace arraySuffix
    rw [dropWhile_append_all _ _ h4]
    simp [List.dropWhile_cons, isSpace]
  rw [htrim]
  unfold declNum
  simp only [List.head?_cons, if_true, List.tail_cons]
  rw [fromString_literal _ _ _ h5]
  omega

/-- C1, as amended: for every well-formed GL-style declaration
`uniform [precision] T name[n];` with a recognized type `T`, the scanner appends
one descriptor with the declared name, `registerIndex` 0 and `arraySize` equal to
`n` modulo 256 (`n` itself for `n ≤ 255`, the field being 8 bits wide); its
`registerCount` is `arraySize * 3` for the 3x3 matrix kind, `arraySize * 4` for
the 4x4 matrix kind and `arraySize` for every other kind. -/
theorem gl_array_size (d : UniformDecl) (sep4 sep5 post R : List Char) (n : Nat)
    (us : List Uniform) (hd : d.WellFormed)
    (hrest : d.rest = arraySuffix sep4 sep5 n post) (h4 : Spaces sep4) (h5 : Spaces sep5)
    (hrec : nameToUniformTypeEnum (glUniformType d.typen) ≠ UniformType.Count) :
    (glStep (d.text ++ ';' :: R) us).2 =
      us ++ [{ name := d.name
               type := nameToUniformTypeEnum (glUniformType d.typen)
               num := n % 256
               regIndex := 0
               regCount :=
                 if nameToUniformTypeEnum (glUniformType d.typen) = UniformType.Mat3 then
                   n % 256 * 3
                 else if nameToUniformTypeEnum (glUniformType d.typen) = UniformType.Mat4 then
                   n % 256 * 4
                 else n % 256
               texComponent := 0
               texDimension := 0
               texFormat := 0 }] := by
  obtain ⟨c, r, hc, hmem, hprec⟩ := recognized_head hrec
  rw [d.glStep_text hd R us (fun _ => hprec),
    if_neg (d.not_tmpvar hd ⟨c, r, hc, hmem⟩)]
  simp only [if_pos hrec, declUniform, hrest, declNum_arraySuffix _ _ _ _ h4 h5]
  have hm : n % 256 < 256 := Nat.mod_lt _ (by decide)
  congr 2
  cases nameToUniformTypeEnum (glUniformType d.typen) <;> simp [glRegCount] <;> omega

/-- Witness for C1: the declaration `uniform highp mat4 u_model[32]` yields
`arraySize` 32 and `registerCount` 128. -/
theorem gl_array_size_witness :
    (glStep ("uniform highp mat4 u_model[32];\nvoid main () \x7b \x7d".toList) []).2
      = [{ name := "u_model".toList, type := UniformType.Mat4, num := 32, regIndex := 0,
           regCount := 128, texComponent := 0, texDimension := 0, texFormat := 0 }] :=
  gl_array_size
    { lead := [], sep1 := [' '], prec := "highp".toList, sep2 := [' '],
      typen := "mat4".toList, sep3 := [' '], name := "u_model".toList,
      rest := arraySuffix [] [] 32 [] }
    [] [] [] "\nvoid main () \x7b \x7d".toList 32 [] (by decide) rfl (by decide) (by decide)
    (by decide)

/-- C1 as stated fails for a declared size of 256: the `arraySize` and the
`registerCount` of the emitted descriptor are 0. -/
theorem gl_array_size_counterexample :
    scanGL "uniform vec4 u_data[256];\n".toList
        = some [{ name := "u_data".toList, type := UniformType.Vec4, num := 0, regIndex := 0,
                  regCount := 0, texComponent := 0, texDimension := 0, texFormat := 0 }]
      ∧ ∀ u ∈ (glStep "uniform vec4 u_data[256];\n".toList []).2,
          u.num ≠ 256 ∧ u.regCount ≠ 256 := by
  decide

/-! ## Sampler and unrecognized types -/

theorem UniformDecl.table_of_recognized (d : UniformDecl) (R : List Char) (us : List Uniform)
    (hd : d.WellFormed)
    (hrec : nameToUniformTypeEnum (glUniformType d.typen) ≠ UniformType.Count) :
    (glStep (d.text ++ ';' :: R) us).2 = us ++ [declUniform d.typen d.name d.rest] := by
  obtain ⟨c, r, hc, hmem, hprec⟩ := recognized_head hrec
  rw [d.glStep_text hd R us (fun _ => hprec), if_neg (d.not_tmpvar hd ⟨c, r, hc, hmem⟩)]
  simp only [if_pos hrec]

/-- C6: for every well-formed GL-style uniform declaration whose type name
begins with `sampler`, `isampler` or `usampler`, the scanner appends exactly the
descriptor it appends for the same declaration with the type name `int`: its
kind is the kind of `int` and its `registerCount` equals its `arraySize`. -/
theorem gl_sampler_kind (d : UniformDecl) (R : List Char) (us : List Uniform)
    (hd : d.WellFormed) (hs : SamplerLike d.typen) :
    ∃ u : Uniform,
      (glStep (d.text ++ ';' :: R) us).2 = us ++ [u]
      ∧ (glStep ({ d with typen := "int".toList }.text ++ ';' :: R) us).2 = us ++ [u]
      ∧ u.name = d.name
      ∧ u.type = nameToUniformTypeEnum "int".toList
      ∧ u.regIndex = 0
      ∧ u.regCount = u.num := by
  have hk : nameToUniformTypeEnum (glUniformType d.typen) = UniformType.Sampler := by
    rw [glUniformType_sampler hs]; decide
  have hki : nameToUniformTypeEnum (glUniformType "int".toList) = UniformType.Sampler := by
    decide
  have hd2 : ({ d with typen := "int".toList } : UniformDecl).WellFormed := by
    obtain ⟨h0, h1, hp, -, h3, hn, hr, hsemi⟩ := hd
    have hi : Ident "int".toList := by decide
    exact ⟨h0, h1, hp, hi, h3, hn, hr, hsemi⟩
  refine ⟨declUniform d.typen d.name d.rest, ?_, ?_, rfl, ?_, rfl, ?_⟩
  · exact d.table_of_recognized R us hd (by rw [hk]; decide)
  · rw [UniformDecl.table_of_recognized _ R us hd2 (by rw [hki]; decide)]
    simp only [declUniform, hk, hki]
  · simp only [declUniform, hk]; decide
  · simp only [declUniform, hk, glRegCount]

/-- Witness for C6: the declaration `uniform lowp usampler3D s_volume[4]`. -/
theorem gl_sampler_kind_witness :
    ∃ u : Uniform,
      (glStep ("uniform lowp usampler3D s_volume[4];\nuniform vec4 u;".toList) []).2 = [] ++ [u]
      ∧ (glStep ("uniform lowp int s_volume[4];\nuniform vec4 u;".toList) []).2 = [] ++ [u]
      ∧ u.name = "s_volume".toList
      ∧ u.type = nameToUniformTypeEnum "int".toList
      ∧ u.regIndex = 0
      ∧ u.regCount = u.num :=
  gl_sampler_kind
    { lead := [], sep1 := [' '], prec := "lowp".toList, sep2 := [' '],
      typen := "usampler3D".toList, sep3 := [' '], name := "s_volume".toList,
      rest := "[4]".toList }
    "\nuniform vec4 u;".toList [] (by decide) (by decide)

/-- C7, as amended: a well-formed GL-style `uniform` declaration whose type
name is unrecognized and, when no precision keyword precedes it, does not begin
with `lowp`, `mediump` or `highp`, adds no descriptor; when it ends its line,
scanning it followed by any text `R` yields exactly the table of scanning `R`
alone. -/
theorem gl_unknown_type (d : UniformDecl) (t R : List Char) (us : List Uniform)
    (hd : d.WellFormed)
    (hunk : nameToUniformTypeEnum (glUniformType d.typen) = UniformType.Count)
    (hprec : d.prec = [] → isPrecisionWord d.typen = false)
    (ht : ∀ c ∈ t, isSpace c = true ∧ c ≠ '\n') :
    (glStep (d.text ++ ';' :: (t ++ '\n' :: R)) us).2 = us
      ∧ scanFrom (d.text ++ ';' :: (t ++ '\n' :: R)) us = scanFrom R us
      ∧ scanGL (d.text ++ ';' :: (t ++ '\n' :: R)) = scanGL R := by
  have key : ∀ vs : List Uniform,
      (glStep (d.text ++ ';' :: (t ++ '\n' :: R)) vs).2 = vs
        ∧ scanFrom (d.text ++ ';' :: (t ++ '\n' :: R)) vs = scanFrom R vs := by
    intro vs
    have hstep := d.glStep_text hd (t ++ '\n' :: R) vs hprec
    rw [scanFrom_step vs (by simp)]
    by_cases htv : kwTmpvar <+: d.afterUniform
    · rw [if_pos htv] at hstep
      rw [hstep]
      refine ⟨rfl, ?_⟩
      show scanFrom (t ++ '\n' :: R) vs = scanFrom R vs
      rw [← scanFrom_trim, strLTrimSpace_line R ht, scanFrom_trim]
    · rw [if_neg htv] at hstep
      have hc : ¬ nameToUniformTypeEnum (glUniformType d.typen) ≠ UniformType.Count :=
        fun h => h hunk
      rw [if_neg hc] at hstep
      rw [hstep]
      refine ⟨rfl, ?_⟩
      show scanFrom (strLTrimSpace (strFindNl (';' :: (t ++ '\n' :: R)))) vs = scanFrom R vs
      rw [strFindNl_line R ht, scanFrom_trim]
  exact ⟨(key us).1, (key us).2, (key []).2⟩

/-- Witness for C7: the declaration `uniform float u_time[2]` on its own line. -/
theorem gl_unknown_type_witness :
    (glStep ("uniform float u_time[2]; \nuniform vec4 u_color;\n".toList) []).2 = []
      ∧ scanFrom ("uniform float u_time[2]; \nuniform vec4 u_color;\n".toList) []
          = scanFrom "uniform vec4 u_color;\n".toList []
      ∧ scanGL ("uniform float u_time[2]; \nuniform vec4 u_color;\n".toList)
          = scanGL "uniform vec4 u_color;\n".toList :=
  gl_unknown_type
    { lead := [], sep1 := [' '], prec := [], sep2 := [],
      typen := "float".toList, sep3 := [' '], name := "u_time".toList,
      rest := "[2]".toList }
    [' '] "uniform vec4 u_color;\n".toList [] (by decide) (by decide) (by decide) (by decide)

/-- C7 as stated fails for the unrecognized type name `highp_t`: the scanner
takes it for a precision keyword, reads `samplerState` as the type and appends
a descriptor with an empty name, while scanning the empty text that follows the
line gives the empty table. -/
theorem gl_unknown_type_counterexample :
    nameToUniformTypeEnum (glUniformType "highp_t".toList) = UniformType.Count
      ∧ scanGL ("uniform highp_t samplerState;".toList ++ '\n' :: [])
          = some [{ name := [], type := UniformType.Sampler, num := 1, regIndex := 0,
                    regCount := 1, texComponent := 0, texDimension := 0, texFormat := 0 }]
      ∧ scanGL [] = some []
      ∧ scanGL ("uniform highp_t samplerState;".toList ++ '\n' :: []) ≠ scanGL [] := by
  decide

/-! ## Skipping and stopping -/

/-- C4: when the cursor of the GL-style scanner is at a `;`-terminated statement
whose leading identifier is `attribute`, `varying`, `in`, `out`, `flat`,
`smooth`, `noperspective`, `centroid` or `precision`, the pass of the scan loop
adds no descriptor and leaves the cursor right after the `;`; scanning the
statement followed by any text `R` yields exactly the table of scanning `R`. -/
theorem gl_skip_statement (a R : List Char) (kw : List Char) (us : List Uniform)
    (hkw : kw ∈ skipKeywords) (hsemi : ';' ∉ a) (hword : strWord (strLTrimSpace a) = kw) :
    glStep (a ++ ';' :: R) us = (R, us)
      ∧ scanFrom (a ++ ';' :: R) us = scanFrom R us
      ∧ scanGL (a ++ ';' :: R) = scanGL R := by
  have hs : ∀ vs, glStep (a ++ ';' :: R) vs = (R, vs) := fun vs =>
    glStep_skip R vs hsemi (by rw [hword]; exact isSkipQualifier_of_mem hkw)
  refine ⟨hs us, ?_, ?_⟩
  · rw [scanFrom_step us (by simp), hs]
  · unfold scanGL
    rw [scanFrom_step [] (by simp), hs]

/-- Witness for C4: the statement `  varying highp vec2 v_uv;`. -/
theorem gl_skip_statement_witness :
    glStep ("  varying highp vec2 v_uv".toList ++ ';' :: "\nuniform vec4 u;\n".toList) []
        = ("\nuniform vec4 u;\n".toList, [])
      ∧ scanFrom ("  varying highp vec2 v_uv".toList ++ ';' :: "\nuniform vec4 u;\n".toList) []
        = scanFrom "\nuniform vec4 u;\n".toList []
      ∧ scanGL ("  varying highp vec2 v_uv".toList ++ ';' :: "\nuniform vec4 u;\n".toList)
        = scanGL "\nuniform vec4 u;\n".toList :=
  gl_skip_statement _ _ "varying".toList [] (by decide) (by decide) (by decide)

/-- C5, as amended: the GL-style scanner stops at a `;`-terminated statement `X`
at its cursor whose leading identifier begins with neither `uniform` nor a
skipped keyword and is not followed by `tmpvar`.  For every header `H` made of
skipped statements and of `uniform` statements that each end their line, and
for every text `R`, scanning `H ++ X ++ R` gives the table of scanning `H`
alone, whatever `R` is. -/
theorem gl_scan_stops (H X : List Char) (hH : Header H) (hX : StopStatement X) :
    ∃ table, scanGL H = some table
      ∧ ∀ R : List Char, scanGL (H ++ (X ++ ';' :: R)) = some table := by
  obtain ⟨⟨table, ht⟩, hstop⟩ := scanFrom_header hH []
  refine ⟨table, ht, fun R => ?_⟩
  unfold scanGL
  rw [hstop X R hX]
  exact ht

/-- Witness for C5: a header of one skipped statement and one `uniform` line,
followed by `void main () ...`. -/
theorem gl_scan_stops_witness :
    ∃ table, scanGL "attribute vec3 a_pos;uniform vec4 u_color;\n".toList = some table
      ∧ ∀ R : List Char,
          scanGL ("attribute vec3 a_pos;uniform vec4 u_color;\n".toList
            ++ ("void main () \x7b gl_Position = u_color".toList ++ ';' :: R)) = some table :=
  gl_scan_stops _ _
    (Header.skip "attribute vec3 a_pos".toList _ (by decide) (by decide)
      (Header.uniform "uniform vec4 u_color".toList [] [] (by decide) (by decide) (by decide)
        Header.nil))
    (by decide)

/-- C5 as stated fails twice.  The statement `int x;` is neither a `uniform`
declaration nor led by a skipped keyword, yet the scan goes on past it and
captures the uniform that follows.  And after the header `uniform vec4 a;` the
statement ` float x;` on the same line is never at the cursor: the scan goes on
with the next line. -/
theorem gl_scan_stops_counterexample :
    (strWord (strLTrimSpace "int x".toList) = "int".toList
      ∧ "int".toList ∉ skipKeywords ∧ "int".toList ≠ kwUniform
      ∧ scanGL ([] ++ ("int x".toList ++ ';' :: "\nuniform vec4 u;\n".toList))
          = some [{ name := "u".toList, type := UniformType.Vec4, num := 1, regIndex := 0,
                    regCount := 1, texComponent := 0, texDimension := 0, texFormat := 0 }]
      ∧ scanGL ([] ++ ("int x".toList ++ ';' :: [])) = some []
      ∧ scanGL ([] ++ ("int x".toList ++ ';' :: "\nuniform vec4 u;\n".toList))
          ≠ scanGL ([] ++ ("int x".toList ++ ';' :: [])))
    ∧ (StopStatement " float x".toList
      ∧ scanGL ("uniform vec4 a;".toList ++ (" float x".toList ++ ';' :: "\nuniform vec4 b;".toList))
          = some [{ name := "a".toList, type := UniformType.Vec4, num := 1, regIndex := 0,
                    regCount := 1, texComponent := 0, texDimension := 0, texFormat := 0 },
                  { name := "b".toList, type := UniformType.Vec4, num := 1, regIndex := 0,
                    regCount := 1, texComponent := 0, texDimension := 0, texFormat := 0 }]
      ∧ scanGL ("uniform vec4 a;".toList ++ (" float x".toList ++ ';' :: []))
          = some [{ name := "a".toList, type := UniformType.Vec4, num := 1, regIndex := 0,
                    regCount := 1, texComponent := 0, texDimension := 0, texFormat := 0 }]
      ∧ scanGL ("uniform vec4 a;".toList ++ (" float x".toList ++ ';' :: "\nuniform vec4 b;".toList))
          ≠ scanGL ("uniform vec4 a;".toList ++ (" float x".toList ++ ';' :: []))) := by
  decide

/-! ## The layout of the blob -/

theorem le16_mod (x : Nat) : le16 (x % 65536) = le16 x := by
  unfold le16
  congr 1
  · omega
  · congr 1; omega

theorem writeUniform_eq_layout {un : Uniform} (h : un.WellFormed) :
    writeUniform un = recordLayout un := by
  obtain ⟨hn, hnum, hri, hrc, htc, htd, htf⟩ := h
  have h1 : un.name.length % 256 = un.name.length := Nat.mod_eq_of_lt (by omega)
  have h2 : un.type.toNat % 256 = un.type.toNat := by
    cases un.type <;> rfl
  unfold writeUniform recordLayout
  simp only [h1, h2, List.take_length, Nat.mod_eq_of_lt hnum, Nat.mod_eq_of_lt hri,
    Nat.mod_eq_of_lt hrc, Nat.mod_eq_of_lt htc, Nat.mod_eq_of_lt htd, Nat.mod_eq_of_lt htf,
    List.singleton_append, List.cons_append, List.append_assoc, List.nil_append]

theorem map_writeUniform_eq {T : List Uniform} (h : ∀ u ∈ T, u.WellFormed) :
    T.map writeUniform = T.map recordLayout :=
  List.map_congr_left (fun u hu => writeUniform_eq_layout (h u hu))

theorem ofNat_toNat_type (t : UniformType) : UniformType.ofNat? t.toNat = some t := by
  cases t <;> rfl

theorem map_ofNat_toNat (l : List Char) : (l.map Char.toNat).map Char.ofNat = l := by
  induction l with
  | nil => rfl
  | cons c l ih => simp only [List.map_cons, Char.ofNat_toNat, ih]

theorem readUniform_layout (un : Uniform) (rest : List Nat) (h : un.WellFormed) :
    readUniform (recordLayout un ++ rest) = some (un, rest) := by
  obtain ⟨hn, hnum, hri, hrc, htc, htd, htf⟩ := h
  have e : recordLayout un ++ rest
      = un.name.length :: (un.name.map Char.toNat
          ++ (un.type.toNat :: un.num :: (un.regIndex % 256) :: (un.regIndex / 256 % 256)
            :: (un.regCount % 256) :: (un.regCount / 256 % 256)
            :: un.texComponent :: un.texDimension :: un.texFormat :: rest)) := by
    simp [recordLayout, le16]
  have hlen : (un.name.map Char.toNat).length = un.name.length := List.length_map _ _
  rw [e]
  simp only [readUniform]
  have h1 : ¬ (un.name.map Char.toNat
      ++ (un.type.toNat :: un.num :: (un.regIndex % 256) :: (un.regIndex / 256 % 256)
        :: (un.regCount % 256) :: (un.regCount / 256 % 256)
        :: un.texComponent :: un.texDimension :: un.texFormat :: rest)).length
      < un.name.length := by
    rw [List.length_append, hlen]; omega
  rw [if_neg h1, List.drop_left' hlen, List.take_left' hlen]
  simp only [ofNat_toNat_type, Option.map_some', map_ofNat_toNat]
  have e1 : un.regIndex % 256 + 256 * (un.regIndex / 256 % 256) = un.regIndex := by omega
  have e2 : un.regCount % 256 + 256 * (un.regCount / 256 % 256) = un.regCount := by omega
  rw [e1, e2]

theorem readUniforms_layout (T : List Uniform) (rest : List Nat)
    (h : ∀ u ∈ T, u.WellFormed) :
    readUniforms T.length ((T.map recordLayout).flatten ++ rest) = some (T, rest) := by
  induction T with
  | nil => rfl
  | cons u T ih =>
    have hu := h u (List.mem_cons_self _ _)
    have hT : ∀ v ∈ T, v.WellFormed := fun v hv => h v (List.mem_cons_of_mem _ hv)
    simp only [List.map_cons, List.flatten_cons, List.length_cons, List.append_assoc,
      readUniforms, readUniform_layout u _ hu, ih hT]

/-- C3, as amended: for every resource table of at most 65535 descriptors, each
within the data model (a name of at most 255 bytes, fields within their
widths), and every source text `S` shorter than `2 ^ 32` bytes, parsing the
bytes the serializer writes according to the blob layout recovers exactly the
descriptors, in the original order and with every field equal, and exactly
`S`. -/
theorem serialize_round_trip (T : List Uniform) (S : List Char)
    (hN : T.length < 65536) (hT : ∀ u ∈ T, u.WellFormed) (hS : S.length < 2 ^ 32) :
    parseBlob (serialize T S) = some (T, S) := by
  have e : serialize T S
      = (T.length % 256) :: (T.length / 256 % 256) :: ((T.map recordLayout).flatten
          ++ ((S.length % 256) :: (S.length / 256 % 256) :: (S.length / 65536 % 256)
            :: (S.length / 16777216 % 256) :: (S.map Char.toNat ++ [0]))) := by
    unfold serialize
    rw [le16_mod, map_writeUniform_eq hT, Nat.mod_eq_of_lt hS, List.take_length]
    rfl
  have e1 : T.length % 256 + 256 * (T.length / 256 % 256) = T.length := by omega
  have hS2 : S.length < 4294967296 := hS
  have e2 : S.length % 256 + 256 * (S.length / 256 % 256) + 65536 * (S.length / 65536 % 256)
      + 16777216 * (S.length / 16777216 % 256) = S.length := by omega
  have hlen : (S.map Char.toNat).length = S.length := List.length_map _ _
  rw [e]
  unfold parseBlob
  simp only [e1, readUniforms_layout T _ hT, e2, List.drop_left' hlen, List.take_left' hlen,
    if_true, map_ofNat_toNat]

/-- Witness for C3: a table of one descriptor and a short source are within the
bounds of the round trip. -/
theorem serialize_round_trip_witness :
    parseBlob (serialize
        [{ name := "u_color".toList, type := UniformType.Vec4, num := 1, regIndex := 0,
           regCount := 1, texComponent := 0, texDimension := 0, texFormat := 0 }]
        "void main;".toList)
      = some ([{ name := "u_color".toList, type := UniformType.Vec4, num := 1, regIndex := 0,
                 regCount := 1, texComponent := 0, texDimension := 0, texFormat := 0 }],
              "void main;".toList) :=
  serialize_round_trip _ _ (by decide) (by decide) (by decide)

theorem parseBlob_zero_count (rest : List Nat) (T : List Uniform) (S : List Char)
    (h : parseBlob (0 :: 0 :: rest) = some (T, S)) : T = [] := by
  unfold parseBlob at h
  simp only [Nat.mul_zero, Nat.add_zero, readUniforms] at h
  split at h
  · rename_i uns l0 l1 l2 l3 rest1 heq
    simp only [Option.some.injEq, Prod.mk.injEq] at heq
    split_ifs at h
    simp only [Option.some.injEq, Prod.mk.injEq] at h
    rw [← h.1, ← heq.1]
  · exact absurd h (by simp)

/-- C3 as stated fails for a table of 65536 descriptors: the 16-bit count
written is 0, so parsing the blob recovers no descriptor. -/
theorem serialize_round_trip_counterexample :
    parseBlob (serialize
        (List.replicate 65536
          { name := [], type := UniformType.Vec4, num := 1, regIndex := 0, regCount := 1,
            texComponent := 0, texDimension := 0, texFormat := 0 }) [])
      ≠ some (List.replicate 65536
          { name := [], type := UniformType.Vec4, num := 1, regIndex := 0, regCount := 1,
            texComponent := 0, texDimension := 0, texFormat := 0 }, []) := by
  intro h
  have e : ∀ T : List Uniform, T.length = 65536 → ∃ rest, serialize T [] = 0 :: 0 :: rest := by
    intro T hT
    refine ⟨(T.map writeUniform).flatten ++ [0, 0, 0, 0, 0], ?_⟩
    unfold serialize
    rw [hT]
    rfl
  obtain ⟨rest, hrest⟩ := e _ (List.length_replicate 65536 _)
  rw [hrest] at h
  have := parseBlob_zero_count rest _ _ h
  have hl := congrArg List.length this
  rw [List.length_replicate] at hl
  exact absurd hl (by decide)

/-! ## Precision forcing refines the specification -/

theorem regexReplace_skip (pat rep : List Char) :
    ∀ (k : Nat) (cs : List Char),
      regexReplace pat rep k cs = regexReplace pat rep 0 (cs.drop k) := by
  intro k
  induction k with
  | zero => intro cs; rfl
  | succ k ih =>
    intro cs
    cases cs with
    | nil => rfl
    | cons c cs => simp only [regexReplace, List.drop_succ_cons]; exact ih cs

theorem regexReplace_match (p : Char) (pat rep t : List Char) :
    regexReplace (p :: pat) rep 0 (p :: (pat ++ t))
      = rep ++ regexReplace (p :: pat) rep 0 t := by
  have h : (p :: pat).isPrefixOf (p :: (pat ++ t)) = true := by
    rw [List.isPrefixOf_iff_prefix]; exact List.prefix_append (p :: pat) t
  simp only [regexReplace, h, if_true, List.length_cons, Nat.add_sub_cancel]
  rw [regexReplace_skip, List.drop_left]

theorem regexReplace_cons (pat rep : List Char) (c : Char) (cs : List Char)
    (h : pat.isPrefixOf (c :: cs) = false) :
    regexReplace pat rep 0 (c :: cs) = c :: regexReplace pat rep 0 cs := by
  simp only [regexReplace, h, Bool.false_eq_true, if_false]

theorem isPrefixOf_head_ne {a c : Char} (q cs : List Char) (h : a ≠ c) :
    (a :: q).isPrefixOf (c :: cs) = false := by
  simp [List.isPrefixOf, h]

/-- A word without the first character of the pattern is passed over unchanged. -/
theorem regexReplace_pass (p : Char) (pat rep : List Char) (w x : List Char)
    (hw : ∀ c ∈ w, p ≠ c) :
    regexReplace (p :: pat) rep 0 (w ++ x) = w ++ regexReplace (p :: pat) rep 0 x := by
  induction w with
  | nil => rfl
  | cons c w ih =>
    rw [List.cons_append, regexReplace_cons _ _ _ _
      (isPrefixOf_head_ne _ _ (hw c (List.mem_cons_self _ _))),
      ih (fun d hd => hw d (List.mem_cons_of_mem _ hd))]
    rfl

theorem replacePrecisionSpec_skip :
    ∀ (k : Nat) (cs : List Char),
      replacePrecisionSpec k cs = replacePrecisionSpec 0 (cs.drop k) := by
  intro k
  induction k with
  | zero => intro cs; rfl
  | succ k ih =>
    intro cs
    cases cs with
    | nil => rfl
    | cons c cs => simp only [replacePrecisionSpec, List.drop_succ_cons]; exact ih cs

theorem replacePrecisionSpec_lowp (t : List Char) :
    replacePrecisionSpec 0 (kwLowp ++ t) = kwHighp ++ replacePrecisionSpec 0 t := by
  have h : kwLowp.isPrefixOf ('l' :: ('o' :: 'w' :: 'p' :: t)) = true := by
    rw [List.isPrefixOf_iff_prefix]; exact List.prefix_append kwLowp t
  show replacePrecisionSpec 0 ('l' :: ('o' :: 'w' :: 'p' :: t)) = _
  simp only [replacePrecisionSpec, h, if_true]

theorem replacePrecisionSpec_mediump (t : List Char) :
    replacePrecisionSpec 0 (kwMediump ++ t) = kwHighp ++ replacePrecisionSpec 0 t := by
  have h : kwMediump.isPrefixOf ('m' :: ('e' :: 'd' :: 'i' :: 'u' :: 'm' :: 'p' :: t))
      = true := by
    rw [List.isPrefixOf_iff_prefix]; exact List.prefix_append kwMediump t
  have h2 : kwLowp.isPrefixOf ('m' :: ('e' :: 'd' :: 'i' :: 'u' :: 'm' :: 'p' :: t))
      = false := isPrefixOf_head_ne _ _ (by decide)
  show replacePrecisionSpec 0 ('m' :: ('e' :: 'd' :: 'i' :: 'u' :: 'm' :: 'p' :: t)) = _
  simp only [replacePrecisionSpec, h, h2, if_true, Bool.false_eq_true, if_false]

theorem replacePrecisionSpec_cons (c : Char) (cs : List Char)
    (h1 : kwLowp.isPrefixOf (c :: cs) = false)
    (h2 : kwMediump.isPrefixOf (c :: cs) = false) :
    replacePrecisionSpec 0 (c :: cs) = c :: replacePrecisionSpec 0 cs := by
  simp only [replacePrecisionSpec, h1, h2, Bool.false_eq_true, if_false]

/-- Replacing `lowp` does not change whether a text free of `l` and `h` begins
the text. -/
theorem isPrefixOf_replace_lowp :
    ∀ (q : List Char), 'l' ∉ q → 'h' ∉ q → ∀ x : List Char,
      q.isPrefixOf (regexReplace kwLowp kwHighp 0 x) = q.isPrefixOf x := by
  intro q
  induction q with
  | nil => intro _ _ x; simp
  | cons a q ih =>
    intro hl hh x
    have hal : a ≠ 'l' := fun e => hl (e ▸ List.mem_cons_self _ _)
    have hah : a ≠ 'h' := fun e => hh (e ▸ List.mem_cons_self _ _)
    have hq1 : 'l' ∉ q := fun e => hl (List.mem_cons_of_mem _ e)
    have hq2 : 'h' ∉ q := fun e => hh (List.mem_cons_of_mem _ e)
    cases x with
    | nil => rfl
    | cons c cs =>
      cases hm : kwLowp.isPrefixOf (c :: cs) with
      | true =>
        obtain ⟨t, ht⟩ := List.isPrefixOf_iff_prefix.mp hm
        rw [← ht]
        show (a :: q).isPrefixOf (regexReplace ('l' :: ['o', 'w', 'p']) kwHighp 0
          ('l' :: (['o', 'w', 'p'] ++ t))) = (a :: q).isPrefixOf ('l' :: (['o', 'w', 'p'] ++ t))
        rw [regexReplace_match]
        show (a :: q).isPrefixOf ('h' :: _) = _
        rw [isPrefixOf_head_ne _ _ hah, isPrefixOf_head_ne _ _ hal]
      | false =>
        rw [regexReplace_cons _ _ _ _ hm]
        simp only [List.isPrefixOf_cons₂, ih hq1 hq2 cs]

theorem force_eq_spec : ∀ (n : Nat) (s : List Char), s.length ≤ n →
    regexReplace kwMediump kwHighp 0 (regexReplace kwLowp kwHighp 0 s)
      = replacePrecisionSpec 0 s := by
  intro n
  induction n with
  | zero =>
    intro s hs
    have : s = [] := List.length_eq_zero.mp (Nat.le_zero.mp hs)
    subst this; rfl
  | succ n ih =>
    intro s hs
    cases s with
    | nil => rfl
    | cons c cs =>
      cases hlow : kwLowp.isPrefixOf (c :: cs) with
      | true =>
        obtain ⟨t, ht⟩ := List.isPrefixOf_iff_prefix.mp hlow
        have hlen : t.length ≤ n := by
          have := congrArg List.length ht
          have h4 : kwLowp.length = 4 := rfl
          simp only [List.length_append, List.length_cons, h4] at this hs
          omega
        rw [← ht, replacePrecisionSpec_lowp, ← ih t hlen]
        show regexReplace kwMediump kwHighp 0 (regexReplace ('l' :: ['o', 'w', 'p']) kwHighp 0
          ('l' :: (['o', 'w', 'p'] ++ t))) = _
        rw [regexReplace_match]
        exact regexReplace_pass 'm' _ _ kwHighp _ (by decide)
      | false =>
        cases hmed : kwMediump.isPrefixOf (c :: cs) with
        | true =>
          obtain ⟨t, ht⟩ := List.isPrefixOf_iff_prefix.mp hmed
          have hlen : t.length ≤ n := by
            have := congrArg List.length ht
            have h7 : kwMediump.length = 7 := rfl
            simp only [List.length_append, List.length_cons, h7] at this hs
            omega
          rw [← ht, replacePrecisionSpec_mediump, ← ih t hlen]
          have e1 : regexReplace kwLowp kwHighp 0 (kwMediump ++ t)
              = kwMediump ++ regexReplace kwLowp kwHighp 0 t :=
            regexReplace_pass 'l' _ _ kwMediump t (by decide)
          rw [e1]
          exact regexReplace_match 'm' _ _ _
        | false =>
          have hlen : cs.length ≤ n := by
            simp only [List.length_cons] at hs; omega
          have hkeep : kwMediump.isPrefixOf (c :: regexReplace kwLowp kwHighp 0 cs) = false := by
            have := isPrefixOf_replace_lowp ['e', 'd', 'i', 'u', 'm', 'p']
              (by decide) (by decide) cs
            have e : kwMediump = 'm' :: ['e', 'd', 'i', 'u', 'm', 'p'] := rfl
            rw [e, List.isPrefixOf_cons₂, this, ← List.isPrefixOf_cons₂, ← e]
            exact hmed
          rw [regexReplace_cons _ _ _ _ hlow, regexReplace_cons _ _ _ _ hkeep,
            replacePrecisionSpec_cons _ _ hlow hmed, ih cs hlen]

/-! ## No precision keyword is left -/

/-- A text free of `h` that begins the rewritten text begins the input. -/
theorem isPrefixOf_of_spec :
    ∀ (q : List Char), 'h' ∉ q → ∀ x : List Char,
      q.isPrefixOf (replacePrecisionSpec 0 x) = true → q.isPrefixOf x = true := by
  intro q
  induction q with
  | nil => intro _ x _; simp
  | cons a q ih =>
    intro hh x hx
    have hah : a ≠ 'h' := fun e => hh (e ▸ List.mem_cons_self _ _)
    have hq : 'h' ∉ q := fun e => hh (List.mem_cons_of_mem _ e)
    cases x with
    | nil => exact absurd hx (by simp [replacePrecisionSpec])
    | cons c cs =>
      cases hlow : kwLowp.isPrefixOf (c :: cs) with
      | true =>
        obtain ⟨t, ht⟩ := List.isPrefixOf_iff_prefix.mp hlow
        rw [← ht, replacePrecisionSpec_lowp] at hx
        have : (a :: q).isPrefixOf (kwHighp ++ replacePrecisionSpec 0 t) = false :=
          isPrefixOf_head_ne _ _ hah
        rw [this] at hx
        exact absurd hx (by decide)
      | false =>
        cases hmed : kwMediump.isPrefixOf (c :: cs) with
        | true =>
          obtain ⟨t, ht⟩ := List.isPrefixOf_iff_prefix.mp hmed
          rw [← ht, replacePrecisionSpec_mediump] at hx
          have : (a :: q).isPrefixOf (kwHighp ++ replacePrecisionSpec 0 t) = false :=
            isPrefixOf_head_ne _ _ hah
          rw [this] at hx
          exact absurd hx (by decide)
        | false =>
          rw [replacePrecisionSpec_cons _ _ hlow hmed] at hx
          simp only [List.isPrefixOf_cons₂, Bool.and_eq_true] at hx ⊢
          exact ⟨hx.1, ih hq cs hx.2⟩

theorem not_infix_highp_append (a : Char) (q y : List Char)
    (ha : a ≠ 'h' ∧ a ≠ 'i' ∧ a ≠ 'g' ∧ a ≠ 'p') (hy : ¬ (a :: q) <:+: y) :
    ¬ (a :: q) <:+: kwHighp ++ y := by
  have hne : ∀ (c : Char) (l : List Char), a ≠ c → ¬ (a :: q) <+: c :: l := by
    intro c l hc hp
    rw [List.cons_prefix_cons] at hp
    exact hc hp.1
  show ¬ (a :: q) <:+: 'h' :: 'i' :: 'g' :: 'h' :: 'p' :: y
  simp only [List.infix_cons_iff, not_or]
  exact ⟨hne _ _ ha.1, hne _ _ ha.2.1, hne _ _ ha.2.2.1, hne _ _ ha.1, hne _ _ ha.2.2.2, hy⟩

theorem spec_no_occurrence (a : Char) (q : List Char)
    (ha : a ≠ 'h' ∧ a ≠ 'i' ∧ a ≠ 'g' ∧ a ≠ 'p') (hh : 'h' ∉ a :: q)
    (hq : ∀ x : List Char, (a :: q).isPrefixOf x = true →
      kwLowp.isPrefixOf x = true ∨ kwMediump.isPrefixOf x = true) :
    ∀ (n : Nat) (s : List Char), s.length ≤ n → ¬ (a :: q) <:+: replacePrecisionSpec 0 s := by
  intro n
  induction n with
  | zero =>
    intro s hs
    have : s = [] := List.length_eq_zero.mp (Nat.le_zero.mp hs)
    subst this
    intro h
    exact absurd (List.eq_nil_of_infix_nil h) (by simp)
  | succ n ih =>
    intro s hs
    cases s with
    | nil =>
      intro h
      exact absurd (List.eq_nil_of_infix_nil h) (by simp)
    | cons c cs =>
      cases hlow : kwLowp.isPrefixOf (c :: cs) with
      | true =>
        obtain ⟨t, ht⟩ := List.isPrefixOf_iff_prefix.mp hlow
        have hlen : t.length ≤ n := by
          have := congrArg List.length ht
          have h4 : kwLowp.length = 4 := rfl
          simp only [List.length_append, List.length_cons, h4] at this hs
          omega
        rw [← ht, replacePrecisionSpec_lowp]
        exact not_infix_highp_append a q _ ha (ih t hlen)
      | false =>
        cases hmed : kwMediump.isPrefixOf (c :: cs) with
        | true =>
          obtain ⟨t, ht⟩ := List.isPrefixOf_iff_prefix.mp hmed
          have hlen : t.length ≤ n := by
            have := congrArg List.length ht
            have h7 : kwMediump.length = 7 := rfl
            simp only [List.length_append, List.length_cons, h7] at this hs
            omega
          rw [← ht, replacePrecisionSpec_mediump]
          exact not_infix_highp_append a q _ ha (ih t hlen)
        | false =>
          have hlen : cs.length ≤ n := by
            simp only [List.length_cons] at hs; omega
          intro h
          have h2 := h
          rw [replacePrecisionSpec_cons _ _ hlow hmed, List.infix_cons_iff] at h2
          rcases h2 with h2 | h2
          · rw [← replacePrecisionSpec_cons _ _ hlow hmed, ← List.isPrefixOf_iff_prefix] at h2
            rcases hq _ (isPrefixOf_of_spec _ hh _ h2) with h3 | h3
            · rw [hlow] at h3; exact absurd h3 (by decide)
            · rw [hmed] at h3; exact absurd h3 (by decide)
          · exact ih cs hlen h2

/-- C10: precision forcing.  For every source text, when the shader type is `v`
(vertex) and the target is not Metal, the rewritten text is the input with
every occurrence of `lowp` and of `mediump` replaced by `highp`, and it
contains no occurrence of `lowp` or `mediump`; `mediump vec4 v;` becomes
`highp vec4 v;`.  When the target is Metal, or the shader type is not `v`, the
text is left unmodified. -/
theorem force_precision (code : List Char) :
    (∀ (target : Target) (shaderType : Char), target ≠ Target.Metal → shaderType = 'v' →
        forcePrecision target shaderType code = replacePrecisionSpec 0 code
          ∧ ¬ "lowp".toList <:+: forcePrecision target shaderType code
          ∧ ¬ "mediump".toList <:+: forcePrecision target shaderType code)
      ∧ (∀ shaderType : Char, forcePrecision Target.Metal shaderType code = code)
      ∧ (∀ (target : Target) (shaderType : Char), shaderType ≠ 'v' →
          forcePrecision target shaderType code = code)
      ∧ forcePrecision Target.OpenGL 'v' "mediump vec4 v;".toList = "highp vec4 v;".toList
      ∧ forcePrecision Target.Metal 'v' "mediump vec4 v;".toList
          = "mediump vec4 v;".toList := by
  refine ⟨?_, ?_, ?_, by decide, by decide⟩
  · intro target shaderType ht hv
    have e : forcePrecision target shaderType code = replacePrecisionSpec 0 code := by
      unfold forcePrecision
      rw [if_pos ht, if_pos hv]
      exact force_eq_spec _ _ (le_refl _)
    rw [e]
    refine ⟨rfl, ?_, ?_⟩
    · exact spec_no_occurrence 'l' ['o', 'w', 'p'] (by decide) (by decide)
        (fun x hx => Or.inl hx) _ _ (le_refl _)
    · exact spec_no_occurrence 'm' ['e', 'd', 'i', 'u', 'm', 'p'] (by decide) (by decide)
        (fun x hx => Or.inr hx) _ _ (le_refl _)
  · intro shaderType
    simp [forcePrecision]
  · intro target shaderType hv
    unfold forcePrecision
    rw [if_neg hv]
    simp

/-- Witness for C10: a vertex shader for the OpenGL target is rewritten. -/
theorem force_precision_witness :
    forcePrecision Target.OpenGL 'v' "lowp float a; mediump vec4 v;".toList
        = replacePrecisionSpec 0 "lowp float a; mediump vec4 v;".toList
      ∧ ¬ "lowp".toList <:+: forcePrecision Target.OpenGL 'v'
          "lowp float a; mediump vec4 v;".toList
      ∧ ¬ "mediump".toList <:+: forcePrecision Target.OpenGL 'v'
          "lowp float a; mediump vec4 v;".toList :=
  (force_precision "lowp float a; mediump vec4 v;".toList).1 Target.OpenGL 'v'
    (by decide) rfl

/-! ## Searching -/

theorem toDigitsCore_ne_nil : ∀ (fuel n : Nat) (ds : List Char), ds ≠ [] →
    Nat.toDigitsCore 10 fuel n ds ≠ [] := by
  intro fuel
  induction fuel with
  | zero => intro n ds h; simpa [Nat.toDigitsCore] using h
  | succ fuel ih =>
    intro n ds _
    unfold Nat.toDigitsCore
    by_cases h0 : n / 10 = 0
    · simp [h0]
    · simp only [h0, if_false]
      exact ih _ _ (by simp)

theorem toDigits_ne_nil (n : Nat) : Nat.toDigits 10 n ≠ [] := by
  unfold Nat.toDigits Nat.toDigitsCore
  by_cases h0 : n / 10 = 0
  · simp [h0]
  · simp only [h0, if_false]
    exact toDigitsCore_ne_nil _ _ _ (by simp)

/-- `fromString` on blanks and a decimal literal followed by a text that does
not begin with a digit. -/
theorem fromString_digits (ws tail : List Char) (n : Nat) (hws : Spaces ws)
    (ht : HeadNot isNumeric tail) :
    fromString (ws ++ (Nat.toDigits 10 n ++ tail)) = n % 2 ^ 32 := by
  obtain ⟨x, r, hd⟩ : ∃ x r, Nat.toDigits 10 n = x :: r := by
    cases h : Nat.toDigits 10 n with
    | nil => exact absurd h (toDigits_ne_nil n)
    | cons x r => exact ⟨x, r, rfl⟩
  have hx := isNumeric_facts (toDigits_numeric n x (by rw [hd]; exact List.mem_cons_self _ _))
  have htrim : strLTrimSpace (ws ++ (Nat.toDigits 10 n ++ tail))
      = Nat.toDigits 10 n ++ tail := by
    unfold strLTrimSpace
    rw [dropWhile_append_all _ _ hws]
    apply dropWhile_headNot
    intro c hc
    rw [hd] at hc
    simp only [List.cons_append, List.head?_cons, Option.mem_def, Option.some.injEq] at hc
    subst hc
    exact hx.1
  have h1 : ¬ (Nat.toDigits 10 n ++ tail).head? = some '-' := by
    rw [hd]; simp only [List.cons_append, List.head?_cons, Option.some.injEq]; exact hx.2.1
  have h2 : ¬ (Nat.toDigits 10 n ++ tail).head? = some '+' := by
    rw [hd]; simp only [List.cons_append, List.head?_cons, Option.some.injEq]; exact hx.2.2.1
  have htake : List.takeWhile isNumeric (Nat.toDigits 10 n ++ tail) = Nat.toDigits 10 n := by
    rw [takeWhile_append_all _ _ (toDigits_numeric n), takeWhile_headNot ht, List.append_nil]
  unfold fromString
  simp only [htrim, h1, h2, or_self, if_false, htake, digitsValue_toDigits]

theorem strFind_cons (c : Char) (cs pat : List Char) :
    strFind (c :: cs) pat = if pat.isPrefixOf (c :: cs) then c :: cs else strFind cs pat := by
  rw [strFind]

theorem strFind_skip (p : Char) (pat w x : List Char) (hw : ∀ c ∈ w, p ≠ c) :
    strFind (w ++ x) (p :: pat) = strFind x (p :: pat) := by
  induction w with
  | nil => rfl
  | cons c w ih =>
    have hc : (p :: pat).isPrefixOf (c :: (w ++ x)) = false := by
      simp [List.isPrefixOf, hw c (List.mem_cons_self _ _)]
    rw [List.cons_append, strFind_cons, hc]
    exact ih (fun d hd => hw d (List.mem_cons_of_mem _ hd))

theorem strFind_hit (p : Char) (pat y : List Char) :
    strFind (p :: (pat ++ y)) (p :: pat) = p :: (pat ++ y) := by
  have h : (p :: pat).isPrefixOf (p :: (pat ++ y)) = true := by
    rw [List.isPrefixOf_iff_prefix]; exact List.prefix_append (p :: pat) y
  rw [strFind_cons, h]
  rfl

theorem strFind_none (p : Char) (pat w : List Char) (hw : ∀ c ∈ w, p ≠ c) :
    strFind w (p :: pat) = [] := by
  have := strFind_skip p pat w [] hw
  rw [List.append_nil] at this
  rw [this]; rfl

/-! ## A field of the uniform struct -/

theorem ident_not_mem {w : List Char} (hw : Ident w) (c : Char) (hc : isWordChar c = false) :
    ∀ x ∈ w, c ≠ x := by
  intro x hx e
  have := hw.2 c (e ▸ hx)
  rw [hc] at this
  exact absurd this (by decide)

/-- The common part of a pass of the struct loop on a field `T name suffix;`:
the cursor after the pass, the type token and the view of the name, when the
copies fit their buffers. -/
theorem mtlStructStep_field (ws T sep name suffix R : List Char) (us : List Uniform)
    (hws : Spaces ws) (hT : Ident T) (hsep : Blank sep) (hname : Ident name)
    (hsuf : ';' ∉ suffix) :
    mtlStructStep (ws ++ (T ++ (sep ++ (name ++ (suffix ++ ';' :: R))))) us =
      if 256 < T.length + 1
          ∨ 256 < (if (strFind (name ++ suffix) ['[']).isEmpty then
                     (name ++ (suffix ++ ';' :: R)).take (name ++ suffix).length
                   else (name ++ (suffix ++ ';' :: R)).take
                     ((name ++ suffix).length - (strFind (name ++ suffix) ['[']).length)).length
                + 1
          ∨ ((strFind (name ++ suffix) ['[']).isEmpty = false
              ∧ 32 < (((strFind (name ++ suffix) ['[']).tail).take
                         ((strFind (name ++ suffix) ['[']).length
                           - (strFind (strFind (name ++ suffix) ['[']) [']']).length - 1)).length
                  + 1) then
        none
      else
      some (R,
        if nameToUniformTypeEnum T ≠ UniformType.Count then
          us ++ [{ name :=
                     if (strFind (name ++ suffix) ['[']).isEmpty then
                       (name ++ (suffix ++ ';' :: R)).take (name ++ suffix).length
                     else (name ++ (suffix ++ ';' :: R)).take
                       ((name ++ suffix).length - (strFind (name ++ suffix) ['[']).length)
                   type := nameToUniformTypeEnum T
                   num :=
                     if (strFind (name ++ suffix) ['[']).isEmpty then 1
                     else fromString
                       (((strFind (name ++ suffix) ['[']).tail).take
                         ((strFind (name ++ suffix) ['[']).length
                           - (strFind (strFind (name ++ suffix) ['[']) [']']).length - 1)) % 256
                   regIndex := 0
                   regCount :=
                     if (strFind (name ++ suffix) ['[']).isEmpty then 1
                     else fromString
                       (((strFind (name ++ suffix) ['[']).tail).take
                         ((strFind (name ++ suffix) ['[']).length
                           - (strFind (strFind (name ++ suffix) ['[']) [']']).length - 1)) % 256
                   texComponent := 0
                   texDimension := 0
                   texFormat := 0 }]
        else us) := by
  have htrim : strLTrimSpace (ws ++ (T ++ (sep ++ (name ++ (suffix ++ ';' :: R)))))
      = T ++ (sep ++ (name ++ (suffix ++ ';' :: R))) := by
    unfold strLTrimSpace
    rw [dropWhile_append_all _ _ hws, dropWhile_headNot (headNot_space_of_ident _ hT)]
  have hfree : ';' ∉ T ++ (sep ++ (name ++ suffix)) := by
    simp only [List.mem_append, not_or]
    exact ⟨semi_not_mem_of_ident hT, semi_not_mem_of_spaces hsep.2,
      semi_not_mem_of_ident hname, hsuf⟩
  have hassoc : T ++ (sep ++ (name ++ (suffix ++ ';' :: R)))
      = (T ++ (sep ++ (name ++ suffix))) ++ ';' :: R := by
    simp only [List.append_assoc]
  have heol : strFindChar (T ++ (sep ++ (name ++ (suffix ++ ';' :: R)))) ';' = ';' :: R := by
    rw [hassoc]; exact strFindChar_append hfree
  have hword : strWord (T ++ (sep ++ (name ++ (suffix ++ ';' :: R)))) = T := by
    unfold strWord
    rw [takeWhile_append_all _ _ hT.2, takeWhile_headNot (headNot_word_of_blank _ hsep),
      List.append_nil]
  have hname2 : strLTrimSpace (sep ++ (name ++ (suffix ++ ';' :: R)))
      = name ++ (suffix ++ ';' :: R) := by
    unfold strLTrimSpace
    rw [dropWhile_append_all _ _ hsep.2, dropWhile_headNot (headNot_space_of_ident _ hname)]
  have hlen : (name ++ (suffix ++ ';' :: R)).length - (';' :: R).length
      = (name ++ suffix).length := by
    simp only [List.length_append, List.length_cons]; omega
  have hview : (name ++ (suffix ++ ';' :: R)).take (name ++ suffix).length = name ++ suffix := by
    rw [← List.append_assoc, List.take_left]
  unfold mtlStructStep
  simp only [htrim, heol, hword, List.isEmpty_cons, Bool.false_eq_true, if_false,
    List.drop_left, hname2, hlen, hview, strCopy, Nat.add_sub_cancel, List.take_left,
    List.tail_cons]

theorem typeNames_ident : ∀ l ∈ typeNames, Ident l := by decide

theorem typeNames_short : ∀ l ∈ typeNames, l.length ≤ 255 := by decide

theorem mtlStructStep_plain (ws T sep name R : List Char) (us : List Uniform)
    (hws : Spaces ws) (hT : nameToUniformTypeEnum T ≠ UniformType.Count) (hsep : Blank sep)
    (hname : Ident name) (hlen : name.length ≤ 255) :
    mtlStructStep (mtlField ws T sep name [] R) us = some
      (R, us ++ [{ name := name, type := nameToUniformTypeEnum T, num := 1, regIndex := 0,
                   regCount := 1, texComponent := 0, texDimension := 0, texFormat := 0 }]) := by
  have hTi : Ident T := typeNames_ident T (mem_typeNames_of_recognized hT)
  have hfind : strFind (name ++ []) ['['] = [] :=
    strFind_none _ _ _ (by rw [List.append_nil]; exact ident_not_mem hname '[' (by decide))
  unfold mtlField
  rw [mtlStructStep_field ws T sep name [] R us hws hTi hsep hname (by simp), if_pos hT,
    hfind]
  simp only [List.isEmpty_nil, if_true, List.append_nil, List.nil_append, List.take_left]
  have hTl := typeNames_short T (mem_typeNames_of_recognized hT)
  rw [if_neg]
  rintro (h | h | h)
  · omega
  · omega
  · exact absurd h.1 (by decide)

theorem mtlStructStep_array (ws T sep name sep5 post R : List Char) (k : Nat)
    (us : List Uniform) (hws : Spaces ws)
    (hT : nameToUniformTypeEnum T ≠ UniformType.Count) (hsep : Blank sep)
    (hname : Ident name) (h5 : Spaces sep5) (hpost : ';' ∉ post) (hlen : name.length ≤ 255)
    (hsize : sep5.length + (Nat.toDigits 10 k).length ≤ 31) :
    mtlStructStep (mtlField ws T sep name (arraySuffix [] sep5 k post) R) us = some
      (R, us ++ [{ name := name, type := nameToUniformTypeEnum T, num := k % 256,
                   regIndex := 0, regCount := k % 256, texComponent := 0,
                   texDimension := 0, texFormat := 0 }]) := by
  have hTi : Ident T := typeNames_ident T (mem_typeNames_of_recognized hT)
  have hsuf : arraySuffix [] sep5 k post = '[' :: (sep5 ++ (Nat.toDigits 10 k ++ ']' :: post)) :=
    rfl
  have hsemi : ';' ∉ arraySuffix [] sep5 k post := by
    rw [hsuf]
    simp only [List.mem_cons, List.mem_append, not_or]
    refine ⟨by decide, semi_not_mem_of_spaces h5, ?_, by decide, hpost⟩
    intro hm
    exact (isNumeric_facts (toDigits_numeric k _ hm)).2.2.2.1 rfl
  have hfind : strFind (name ++ arraySuffix [] sep5 k post) ['[']
      = '[' :: (sep5 ++ (Nat.toDigits 10 k ++ ']' :: post)) := by
    rw [hsuf, strFind_skip _ _ _ _ (ident_not_mem hname '[' (by decide))]
    exact strFind_hit '[' [] _
  have hclose : strFind ('[' :: (sep5 ++ (Nat.toDigits 10 k ++ ']' :: post))) [']']
      = ']' :: post := by
    have hw : ∀ c ∈ '[' :: (sep5 ++ Nat.toDigits 10 k), ']' ≠ c := by
      intro c hc e
      subst e
      rcases List.mem_cons.mp hc with h | h
      · exact absurd h (by decide)
      · rcases List.mem_append.mp h with h | h
        · exact absurd (h5 _ h) (by decide)
        · exact absurd (toDigits_numeric k _ h) (by decide)
    have e : '[' :: (sep5 ++ (Nat.toDigits 10 k ++ ']' :: post))
        = ('[' :: (sep5 ++ Nat.toDigits 10 k)) ++ ']' :: post := by
      simp only [List.cons_append, List.append_assoc]
    rw [e, strFind_skip _ _ _ _ hw]
    exact strFind_hit ']' [] post
  have htake : (sep5 ++ (Nat.toDigits 10 k ++ ']' :: post)).take
      (('[' :: (sep5 ++ (Nat.toDigits 10 k ++ ']' :: post))).length - (']' :: post).length - 1)
      = sep5 ++ Nat.toDigits 10 k := by
    have e1 : ('[' :: (sep5 ++ (Nat.toDigits 10 k ++ ']' :: post))).length
        - (']' :: post).length - 1 = (sep5 ++ Nat.toDigits 10 k).length := by
      simp only [List.length_append, List.length_cons]; omega
    have e2 : sep5 ++ (Nat.toDigits 10 k ++ ']' :: post)
        = (sep5 ++ Nat.toDigits 10 k) ++ ']' :: post := by
      simp only [List.append_assoc]
    rw [e1, e2, List.take_left]
  have hnum : fromString (sep5 ++ Nat.toDigits 10 k) = k % 2 ^ 32 := by
    have := fromString_digits sep5 [] k h5 (by intro c hc; simp at hc)
    rwa [List.append_nil] at this
  have hname2 : (name ++ (arraySuffix [] sep5 k post ++ ';' :: R)).take
      ((name ++ arraySuffix [] sep5 k post).length
        - ('[' :: (sep5 ++ (Nat.toDigits 10 k ++ ']' :: post))).length) = name := by
    have e1 : (name ++ arraySuffix [] sep5 k post).length
        - ('[' :: (sep5 ++ (Nat.toDigits 10 k ++ ']' :: post))).length = name.length := by
      rw [hsuf]; simp only [List.length_append, List.length_cons]; omega
    rw [e1, List.take_left]
  unfold mtlField
  rw [mtlStructStep_field ws T sep name _ R us hws hTi hsep hname hsemi, if_pos hT, hfind]
  simp only [List.isEmpty_cons, Bool.false_eq_true, if_false, List.tail_cons, hclose, htake,
    hnum, hname2]
  have : k % 2 ^ 32 % 256 = k % 256 := by omega
  rw [this]
  have hTl := typeNames_short T (mem_typeNames_of_recognized hT)
  rw [if_neg]
  rintro (h | h | h)
  · omega
  · omega
  · rw [List.length_append] at h
    omega

/-! ## Struct fields -/

theorem mtlStructLoop_step (fuel : Nat) (parse stop : List Char) (us : List Uniform)
    (next : List Char × List Uniform) (h : stop.length < parse.length)
    (hs : mtlStructStep parse us = some next) :
    mtlStructLoop (fuel + 1) parse stop us = mtlStructLoop fuel next.1 stop next.2 := by
  have hne : parse ≠ [] := by
    intro e; rw [e] at h; exact absurd h (by simp)
  rw [mtlStructLoop, if_pos ⟨h, hne⟩, hs]

/-- C8, as amended: in the Metal dialect, for every recognized type token `T`,
identifier `name` of at most 255 bytes and array size `k` whose text between
the brackets (blanks and digits) is at most 31 characters long, a field
`T name[k];` at the cursor of the struct loop, before the end of
`struct xlatMtlShaderUniform`, yields exactly one descriptor with that name
(without the bracket), the kind of `T`, `registerIndex` 0 and `arraySize` and
`registerCount` both equal to `k` modulo 256 (`k` itself for `k ≤ 255`), with
no matrix multiplier, and the loop goes on after the `;`; a field without
brackets yields `arraySize` 1 and `registerCount` 1.  The field
`float4x4 viewProj[2];` yields one descriptor of the 4x4 matrix kind with
`arraySize` 2 and `registerCount` 2.  (The bounds are those of the local
buffers `uniformName[256]` and `arraySize[32]`.) -/
theorem mtl_struct_field (ws T sep name sep5 post R stop : List Char) (k fuel : Nat)
    (us : List Uniform) (hws : Spaces ws)
    (hT : nameToUniformTypeEnum T ≠ UniformType.Count) (hsep : Blank sep)
    (hname : Ident name) (hlen : name.length ≤ 255) (h5 : Spaces sep5) (hpost : ';' ∉ post) :
    (stop.length < (mtlField ws T sep name (arraySuffix [] sep5 k post) R).length →
        sep5.length + (Nat.toDigits 10 k).length ≤ 31 →
        mtlStructLoop (fuel + 1) (mtlField ws T sep name (arraySuffix [] sep5 k post) R) stop us
          = mtlStructLoop fuel R stop
              (us ++ [{ name := name, type := nameToUniformTypeEnum T, num := k % 256,
                        regIndex := 0, regCount := k % 256, texComponent := 0,
                        texDimension := 0, texFormat := 0 }]))
      ∧ (stop.length < (mtlField ws T sep name [] R).length →
        mtlStructLoop (fuel + 1) (mtlField ws T sep name [] R) stop us
          = mtlStructLoop fuel R stop
              (us ++ [{ name := name, type := nameToUniformTypeEnum T, num := 1,
                        regIndex := 0, regCount := 1, texComponent := 0,
                        texDimension := 0, texFormat := 0 }]))
      ∧ scanMetal "struct xlatMtlShaderUniform \x7b\n  float4x4 viewProj[2];\n\x7d;\n".toList
          = some [{ name := "viewProj".toList, type := UniformType.Mat4, num := 2,
                    regIndex := 0, regCount := 2, texComponent := 0, texDimension := 0,
                    texFormat := 0 }] := by
  refine ⟨fun h hsize => ?_, fun h => ?_, by decide⟩
  · exact mtlStructLoop_step _ _ _ _ _ h
      (mtlStructStep_array ws T sep name sep5 post R k us hws hT hsep hname h5 hpost hlen hsize)
  · exact mtlStructLoop_step _ _ _ _ _ h
      (mtlStructStep_plain ws T sep name R us hws hT hsep hname hlen)

/-- Witness for C8: the fields `float4 u_light[4];` and `float4 u_light;`
inside the struct. -/
theorem mtl_struct_field_witness :
    (mtlStructLoop (7 + 1) "\n  float4 u_light[4];\n\x7d;\n".toList "\x7d;\n".toList []
        = mtlStructLoop 7 "\n\x7d;\n".toList "\x7d;\n".toList
            ([] ++ [{ name := "u_light".toList, type := UniformType.Vec4, num := 4,
                      regIndex := 0, regCount := 4, texComponent := 0, texDimension := 0,
                      texFormat := 0 }]))
      ∧ (mtlStructLoop (7 + 1) "\n  float4 u_light;\n\x7d;\n".toList "\x7d;\n".toList []
        = mtlStructLoop 7 "\n\x7d;\n".toList "\x7d;\n".toList
            ([] ++ [{ name := "u_light".toList, type := UniformType.Vec4, num := 1,
                      regIndex := 0, regCount := 1, texComponent := 0, texDimension := 0,
                      texFormat := 0 }])) :=
  ⟨(mtl_struct_field "\n  ".toList "float4".toList [' '] "u_light".toList [] []
      "\n\x7d;\n".toList "\x7d;\n".toList 4 7 [] (by decide) (by decide) (by decide)
      (by decide) (by decide) (by decide) (by decide)).1 (by decide) (by decide),
   (mtl_struct_field "\n  ".toList "float4".toList [' '] "u_light".toList [] []
      "\n\x7d;\n".toList "\x7d;\n".toList 4 7 [] (by decide) (by decide) (by decide)
      (by decide) (by decide) (by decide) (by decide)).2.1 (by decide)⟩

/-- C8 as stated fails for an array size of 256: the `arraySize` and the
`registerCount` of the descriptor are 0. -/
theorem mtl_struct_field_counterexample :
    scanMetal "struct xlatMtlShaderUniform \x7b\n  float4 u_data[256];\n\x7d;\n".toList
        = some [{ name := "u_data".toList, type := UniformType.Vec4, num := 0, regIndex := 0,
                  regCount := 0, texComponent := 0, texDimension := 0, texFormat := 0 }]
      ∧ ∀ next ∈ mtlStructStep "\n  float4 u_data[256];\n\x7d;\n".toList [],
          ∀ u ∈ next.2, u.num ≠ 256 ∧ u.regCount ≠ 256 := by
  decide

/-! ## A texture parameter -/

theorem strFind_skip_blank (m pre z : List Char) (hm : ¬ m <:+: pre) (hb : ' ' ∉ m)
    (hne : m ≠ []) : strFind (pre ++ ' ' :: z) m = strFind z m := by
  induction pre with
  | nil =>
    cases m with
    | nil => exact absurd rfl hne
    | cons a m =>
      have ha : a ≠ ' ' := fun e => hb (e ▸ List.mem_cons_self _ _)
      have : (a :: m).isPrefixOf (' ' :: z) = false := by simp [List.isPrefixOf, ha]
      rw [List.nil_append, strFind_cons, this]
      rfl
  | cons p pre ih =>
    have hp : m.isPrefixOf (p :: (pre ++ ' ' :: z)) = false := by
      cases h : m.isPrefixOf (p :: (pre ++ ' ' :: z)) with
      | false => rfl
      | true =>
        rw [List.isPrefixOf_iff_prefix, ← List.cons_append, begins_append_stop ' ' z hb] at h
        exact absurd h.isInfix hm
    rw [List.cons_append, strFind_cons, hp]
    exact ih (fun h => hm (h.trans (List.suffix_cons p pre).isInfix))

theorem strFind_absent (m x : List Char) (hm : ¬ m <:+: x) : strFind x m = [] := by
  induction x with
  | nil => rfl
  | cons c cs ih =>
    have hp : m.isPrefixOf (c :: cs) = false := by
      cases h : m.isPrefixOf (c :: cs) with
      | false => rfl
      | true =>
        rw [List.isPrefixOf_iff_prefix] at h
        exact absurd h.isInfix hm
    rw [strFind_cons, hp]
    exact ih (fun h => hm (h.trans (List.suffix_cons c cs).isInfix))

theorem lastBlank_spec (pre w : List Char) (hw : ' ' ∉ w) :
    lastBlank (pre ++ ' ' :: w) = some pre.length := by
  have hrev : (pre ++ ' ' :: w).reverse = w.reverse ++ ' ' :: pre.reverse := by
    simp only [List.reverse_append, List.reverse_cons, List.append_assoc, List.singleton_append]
  have hall : ∀ c ∈ w.reverse, (fun c => c != ' ') c = true := by
    intro c hc
    have : c ≠ ' ' := fun e => hw (e ▸ List.mem_reverse.mp hc)
    simpa using this
  have htake : List.takeWhile (fun c => c != ' ') (w.reverse ++ ' ' :: pre.reverse)
      = w.reverse := by
    rw [takeWhile_append_all _ _ hall]
    simp [List.takeWhile_cons]
  unfold lastBlank
  simp only [hrev, htake, List.length_reverse, List.length_append, List.length_cons]
  rw [if_pos (by omega)]
  congr 1
  omega

theorem mtlEntryStep_texture (type name R : List Char) (r : Nat) (us : List Uniform)
    (htype : type ≠ [] ∧ HeadNot isSpace type) (hmark : ¬ textureNameMark <:+: type)
    (hname : Ident name) (hlen : name.length ≤ 255) :
    mtlEntryStep (mtlTextureParam type name r R) us =
      some ((Nat.toDigits 10 r ++ ')' :: R).tail,
        us ++ [{ name := name, type := nameToUniformTypeEnum ['i', 'n', 't'], num := 1,
                 regIndex := r % 65536, regCount := 1, texComponent := 0,
                 texDimension := 0, texFormat := 0 }]) := by
  have htrim : strLTrimSpace (mtlTextureParam type name r R) = mtlTextureParam type name r R := by
    unfold strLTrimSpace mtlTextureParam
    apply dropWhile_headNot
    obtain ⟨hne, hh⟩ := htype
    cases type with
    | nil => exact absurd rfl hne
    | cons c t => intro x hx; exact hh x (by simpa using hx)
  have hfind : strFind (mtlTextureParam type name r R) textureNameMark
      = textureNameMark ++ (Nat.toDigits 10 r ++ ')' :: R) := by
    unfold mtlTextureParam
    rw [strFind_skip_blank _ _ _ hmark (by decide) (by decide)]
    show strFind _ ('[' :: ['[', 't', 'e', 'x', 't', 'u', 'r', 'e', '(']) = _
    rw [strFind_skip _ _ _ _ (ident_not_mem hname '[' (by decide)), strFind_cons,
      show List.isPrefixOf ('[' :: ['[', 't', 'e', 'x', 't', 'u', 'r', 'e', '('])
        (' ' :: (textureNameMark ++ (Nat.toDigits 10 r ++ ')' :: R))) = false from by
          simp [List.isPrefixOf]]
    exact strFind_hit '[' _ _
  have hpos : (mtlTextureParam type name r R).length
      - (textureNameMark ++ (Nat.toDigits 10 r ++ ')' :: R)).length
      = type.length + name.length + 2 := by
    unfold mtlTextureParam
    simp only [List.length_append, List.length_cons]
    omega
  obtain ⟨hn0, hnw⟩ := hname
  have hnlen : 0 < name.length := List.length_pos.mpr hn0
  have hblank : ' ' ∉ name := fun h => absurd (hnw _ h) (by decide)
  have hview : (mtlTextureParam type name r R).take (type.length + name.length)
      = type ++ ' ' :: name.take (name.length - 1) := by
    have e : mtlTextureParam type name r R
        = type ++ (' ' :: name ++ ' ' :: (textureNameMark ++ (Nat.toDigits 10 r ++ ')' :: R))) := by
      unfold mtlTextureParam; simp only [List.cons_append]
    rw [e, List.take_append_eq_append_take, List.take_of_length_le (by omega)]
    congr 1
    have e2 : type.length + name.length - type.length = (name.length - 1) + 1 := by
      omega
    rw [e2, List.cons_append, List.take_succ_cons, List.take_append_of_le_length (by omega)]
  have hlast : lastBlank (type ++ ' ' :: name.take (name.length - 1)) = some type.length :=
    lastBlank_spec _ _ (fun h => hblank (List.mem_of_mem_take h))
  have hnm : ((mtlTextureParam type name r R).take (type.length + name.length + 2 - 1)).drop
      (type.length + 1) = name := by
    have e : mtlTextureParam type name r R
        = (type ++ ' ' :: name) ++ ' ' :: (textureNameMark ++ (Nat.toDigits 10 r ++ ')' :: R)) := by
      unfold mtlTextureParam; simp only [List.append_assoc, List.cons_append]
    have e2 : type.length + name.length + 2 - 1 = (type ++ ' ' :: name).length := by
      simp only [List.length_append, List.length_cons]; omega
    rw [e, e2, List.take_left]
    have e3 : type.length + 1 = (type ++ [' ']).length := by simp
    have e4 : type ++ ' ' :: name = (type ++ [' ']) ++ name := by simp
    rw [e3, e4, List.drop_left]
  have hbeg : (textureNameMark ++ (Nat.toDigits 10 r ++ ')' :: R)).drop textureNameMark.length
      = Nat.toDigits 10 r ++ ')' :: R := List.drop_left _ _
  have hclose : strFind (Nat.toDigits 10 r ++ ')' :: R) [')'] = ')' :: R := by
    rw [strFind_skip _ _ _ _ (fun c hc e => absurd (toDigits_numeric r c hc) (by rw [← e]; decide))]
    exact strFind_hit ')' [] R
  have hreg : (Nat.toDigits 10 r ++ ')' :: R).take
      ((Nat.toDigits 10 r ++ ')' :: R).length - (')' :: R).length) = Nat.toDigits 10 r := by
    have : (Nat.toDigits 10 r ++ ')' :: R).length - (')' :: R).length
        = (Nat.toDigits 10 r).length := by
      simp only [List.length_append, List.length_cons]; omega
    rw [this, List.take_left]
  have hval : fromString (Nat.toDigits 10 r) = r % 2 ^ 32 := by
    have := fromString_digits [] [] r (by intro c hc; simp at hc) (by intro c hc; simp at hc)
    rwa [List.nil_append, List.append_nil] at this
  have hne : (textureNameMark ++ (Nat.toDigits 10 r ++ ')' :: R)).isEmpty = false := rfl
  unfold mtlEntryStep
  simp only [htrim, hfind, hne, Bool.false_eq_true, if_false, hpos, hview, hlast, hnm, hbeg,
    hclose, hreg, hval, strCopy, Nat.add_sub_cancel, List.take_length]
  rw [if_neg (by omega), if_neg (by omega)]
  have : r % 2 ^ 32 % 65536 = r % 65536 := by omega
  rw [this]

/-! ## Entry parameters -/

theorem mtlEntryLoop_none_left (fuel : Nat) (params stop : List Char) (us : List Uniform)
    (h : ¬ textureNameMark <:+: params) : mtlEntryLoop (fuel + 2) params stop us = some us := by
  have hsuf : ¬ textureNameMark <:+: strLTrimSpace params :=
    fun hi => h (hi.trans (List.dropWhile_suffix _).isInfix)
  have hstep : mtlEntryStep params us = some ([], us) := by
    unfold mtlEntryStep
    simp only [strFind_absent _ _ hsuf, List.isEmpty_nil, if_true]
  rw [mtlEntryLoop]
  split_ifs with hc
  · rw [hstep]
    simp [mtlEntryLoop]
  · rfl

/-- C9, as amended: in the Metal dialect, for every identifier `name` of at
most 255 bytes (the local buffer `uniformName[256]`) and decimal literal `r`,
a parameter `type name [[texture(r)]]` at the cursor of the
entry-parameter loop, before the first `\x7b` and with no earlier texture
annotation, yields exactly one descriptor with exactly that name, the kind of
`int`, `arraySize` 1, `registerCount` 1 and `registerIndex` equal to `r` modulo
65536 (`r` itself for `r ≤ 65535`); for `diffuseTex [[texture(3)]]` the
descriptor has name `diffuseTex`, `registerIndex` 3 and `registerCount` 1.
Parameters without the `[[texture(` annotation yield no descriptor. -/
theorem mtl_texture_param (type name R stop : List Char) (r fuel : Nat) (us : List Uniform)
    (htype : type ≠ [] ∧ HeadNot isSpace type) (hmark : ¬ textureNameMark <:+: type)
    (hname : Ident name) (hlen : name.length ≤ 255) :
    (stop.length < (mtlTextureParam type name r R).length →
        mtlEntryLoop (fuel + 1) (mtlTextureParam type name r R) stop us
          = mtlEntryLoop fuel (Nat.toDigits 10 r ++ ')' :: R).tail stop
              (us ++ [{ name := name, type := nameToUniformTypeEnum "int".toList, num := 1,
                        regIndex := r % 65536, regCount := 1, texComponent := 0,
                        texDimension := 0, texFormat := 0 }]))
      ∧ (∀ params : List Char, ¬ textureNameMark <:+: params →
          mtlEntryLoop (fuel + 2) params stop us = some us)
      ∧ scanMetal ("xlatMtlShaderOutput xlatMtlMain (xlatMtlShaderInput _mtl_i [[stage_in]], "
            ++ "texture2d<float> diffuseTex [[texture(3)]])\n\x7b\n\x7d\n").toList
          = some [{ name := "diffuseTex".toList, type := nameToUniformTypeEnum "int".toList,
                    num := 1, regIndex := 3, regCount := 1, texComponent := 0,
                    texDimension := 0, texFormat := 0 }] := by
  refine ⟨fun h => ?_, fun params hp => mtlEntryLoop_none_left fuel params stop us hp,
    by decide⟩
  have hne : mtlTextureParam type name r R ≠ [] := by
    intro e; rw [e] at h; exact absurd h (by simp)
  rw [mtlEntryLoop, if_pos ⟨h, hne⟩, mtlEntryStep_texture type name R r us htype hmark hname hlen]
  rfl

/-- Witness for C9: the parameter `texture2d<float> s_albedo [[texture(7)]]`
after an unannotated parameter. -/
theorem mtl_texture_param_witness :
    mtlEntryLoop (5 + 1)
        "constant U& _mtl_u [[buffer(0)]], texture2d<float> s_albedo [[texture(7)]])\n\x7b".toList
        "\x7b".toList []
      = mtlEntryLoop 5 ")]])\n\x7b".toList "\x7b".toList
          ([] ++ [{ name := "s_albedo".toList, type := nameToUniformTypeEnum "int".toList,
                    num := 1, regIndex := 7, regCount := 1, texComponent := 0,
                    texDimension := 0, texFormat := 0 }]) :=
  (mtl_texture_param "constant U& _mtl_u [[buffer(0)]], texture2d<float>".toList
    "s_albedo".toList "]])\n\x7b".toList "\x7b".toList 7 5 [] (by decide) (by decide)
    (by decide) (by decide)).1 (by decide)

/-- C9 as stated fails for the literal 65536: the `registerIndex` of the
descriptor is 0. -/
theorem mtl_texture_param_counterexample :
    scanMetal
        "xlatMtlShaderOutput xlatMtlMain (texture2d<float> tex [[texture(65536)]])\n\x7b".toList
        = some [{ name := "tex".toList, type := nameToUniformTypeEnum "int".toList, num := 1,
                  regIndex := 0, regCount := 1, texComponent := 0, texDimension := 0,
                  texFormat := 0 }]
      ∧ ∀ next ∈ mtlEntryStep "texture2d<float> tex [[texture(65536)]])\n\x7b".toList [],
          ∀ u ∈ next.2, u.regIndex ≠ 65536 := by
  decide

/-! ## Target selection and the failure of the optimizer -/

theorem fourccMTL_lt : fourccMTL < 0x80000000 := by decide

/-- C15: dialect selection is a total function of the 32-bit version code.  The
code equal to the four-character code `'M','T','L',0` selects Metal; any other
code below `0x80000000` selects the desktop GL target; any code at or above
`0x80000000` selects GLES 3.0 when the code with the top bit masked off is at
least 300 and GLES 2.0 otherwise.  Every code selects exactly one target. -/
theorem select_target_total (version : Nat) (hv : version < 2 ^ 32) :
    (version = fourccMTL → selectTarget version = Target.Metal)
      ∧ (version ≠ fourccMTL → version < 0x80000000 →
          selectTarget version = Target.OpenGL)
      ∧ (0x80000000 ≤ version → 300 ≤ version - 0x80000000 →
          selectTarget version = Target.OpenGLES30)
      ∧ (0x80000000 ≤ version → version - 0x80000000 < 300 →
          selectTarget version = Target.OpenGLES20)
      ∧ (∃! target, selectTarget version = target)
      ∧ fourccMTL = 'M'.toNat + 256 * ('T'.toNat + 256 * ('L'.toNat + 256 * 0)) := by
  have hmask : 0x80000000 ≤ version → version &&& 0x7FFFFFFF = version - 0x80000000 := by
    intro h
    have e : (0x7FFFFFFF : Nat) = 2 ^ 31 - 1 := by norm_num
    rw [e, Nat.and_pow_two_sub_one_eq_mod]
    have h32 : (2 : Nat) ^ 32 = 4294967296 := by norm_num
    have h31 : (2 : Nat) ^ 31 = 2147483648 := by norm_num
    rw [h32] at hv
    rw [h31]
    omega
  have hm := fourccMTL_lt
  refine ⟨?_, ?_, ?_, ?_, ⟨selectTarget version, rfl, fun t ht => ht.symm⟩, by decide⟩
  · intro h
    simp [selectTarget, h]
  · intro h1 h2
    simp [selectTarget, h1, h2]
  · intro h1 h2
    have hne : version ≠ fourccMTL := by omega
    have hlt : ¬ version < 0x80000000 := by omega
    unfold selectTarget
    rw [if_neg hne, if_neg hlt, hmask h1, if_pos h2]
  · intro h1 h2
    have hne : version ≠ fourccMTL := by omega
    have hlt : ¬ version < 0x80000000 := by omega
    have h3 : ¬ 300 ≤ version - 0x80000000 := by omega
    unfold selectTarget
    rw [if_neg hne, if_neg hlt, hmask h1, if_neg h3]

/-- Witness for C15: the code `0x80000000 + 300` selects GLES 3.0. -/
theorem select_target_total_witness :
    selectTarget (0x80000000 + 300) = Target.OpenGLES30 :=
  (select_target_total (0x80000000 + 300) (by decide)).2.2.1 (by decide) (by decide)

/-- C14: when the optimizer reports failure, the compilation returns failure,
nothing is written to the shader writer and the only text written to the
message writer is the line `Error: ` followed by the log of the optimizer. -/
theorem compile_optimizer_failure
    (glslopt : Target → ShaderKind → List Char → OptShader) (options : Options)
    (version : Nat) (code : List Char)
    (h : (glslopt (selectTarget version) (shaderKind options.shaderType) code).status = false) :
    ∃ r, compile glslopt options version code = some r
      ∧ r.ok = false
      ∧ r.shader = []
      ∧ r.message = "Error: ".toList
          ++ (glslopt (selectTarget version) (shaderKind options.shaderType) code).log ++ ['\n']
      ∧ r.disasm = none := by
  refine ⟨{ ok := false
            shader := []
            message := "Error: ".toList
              ++ (glslopt (selectTarget version) (shaderKind options.shaderType) code).log
              ++ ['\n']
            printed := some (errorWindow
              (glslopt (selectTarget version) (shaderKind options.shaderType) code).log)
            disasm := none }, ?_, rfl, rfl, rfl, rfl⟩
  unfold compile
  simp only [h, if_true]

/-- Witness for C14: an optimizer that fails with the log `0:12(4): error`. -/
theorem compile_optimizer_failure_witness :
    ∃ r, compile (fun _ _ _ => { status := false, log := "0:12(4): error".toList, output := [] })
          { shaderType := 'f', disasm := true, outputFilePath := "out.bin".toList }
          120 "void main () \x7b".toList = some r
      ∧ r.ok = false
      ∧ r.shader = []
      ∧ r.message = "Error: ".toList ++ "0:12(4): error".toList ++ ['\n']
      ∧ r.disasm = none :=
  compile_optimizer_failure
    (fun _ _ _ => { status := false, log := "0:12(4): error".toList, output := [] })
    { shaderType := 'f', disasm := true, outputFilePath := "out.bin".toList }
    120 "void main () \x7b".toList rfl

/-! ## Directive stripping -/

theorem strFindNl_length_le (s : List Char) : (strFindNl s).length ≤ s.length - 1 := by
  unfold strFindNl
  rw [List.length_tail]
  exact Nat.sub_le_sub_right (List.dropWhile_suffix _).length_le 1

/-- The text splits at its first line feed, when it has one. -/
theorem strFindNl_split (s : List Char) :
    (strFindNl s = [] ∧ ('\n' ∉ s ∨ ∃ body, s = body ++ ['\n'] ∧ '\n' ∉ body))
      ∨ ∃ body, s = body ++ '\n' :: strFindNl s ∧ '\n' ∉ body := by
  have hsplit := List.takeWhile_append_dropWhile (fun x => x != '\n') s
  have hbody : '\n' ∉ s.takeWhile (fun x => x != '\n') := by
    intro h
    have := List.mem_takeWhile_imp h
    simp at this
  cases hd : s.dropWhile (fun x => x != '\n') with
  | nil =>
    left
    refine ⟨by simp [strFindNl, hd], Or.inl ?_⟩
    rw [hd, List.append_nil] at hsplit
    rw [← hsplit]; exact hbody
  | cons c rest =>
    right
    have hc : c = '\n' := by
      have := List.head_dropWhile_not (fun x => x != '\n') s (by simp [hd])
      simp only [hd, List.head_cons] at this
      simpa using this
    refine ⟨s.takeWhile (fun x => x != '\n'), ?_, hbody⟩
    have e : strFindNl s = rest := by simp [strFindNl, hd]
    subst hc
    rw [e, ← hd, hsplit]

theorem trimDirectivesLoop_spec : ∀ (n : Nat) (s : List Char), s.length < n →
    ∃ (r : List Char) (lines : List (List Char)) (last : List Char), trimDirectivesLoop n s = some r
      ∧ (∀ l ∈ lines, DirectiveLine l)
      ∧ s = lines.flatten ++ (last ++ r)
      ∧ (last = [] ∨ (last.head? = some '#' ∧ '\n' ∉ last ∧ r = []))
      ∧ r.head? ≠ some '#' := by
  intro n
  induction n with
  | zero => intro s h; omega
  | succ n ih =>
    intro s hs
    by_cases hh : s.head? = some '#'
    · have hne : s ≠ [] := by intro e; rw [e] at hh; simp at hh
      have hpos : 0 < s.length := List.length_pos.mpr hne
      have hlen : (strFindNl s).length < n := by
        have := strFindNl_length_le s
        omega
      obtain ⟨r, lines, last, hr, hl, hs2, hlast, hhead⟩ := ih (strFindNl s) hlen
      have hloop : trimDirectivesLoop (n + 1) s = trimDirectivesLoop n (strFindNl s) := by
        rw [trimDirectivesLoop, if_pos hh]
      rcases strFindNl_split s with ⟨hnil, hno⟩ | ⟨body, hb, hnb⟩
      · -- the text has no line feed: it is one unfinished directive
        have hr0 : r = [] := by
          rw [hnil] at hs2
          have := congrArg List.length hs2
          simp only [List.length_nil, List.length_append] at this
          exact List.length_eq_zero.mp (by omega)
        rcases hno with hno | ⟨body, hb, hnb⟩
        · refine ⟨r, [], s, by rw [hloop]; exact hr, by simp, by simp [hr0],
            Or.inr ⟨hh, hno, hr0⟩, hhead⟩
        · refine ⟨r, [s], [], by rw [hloop]; exact hr, ?_, by simp [hr0], Or.inl rfl, hhead⟩
          intro l hl2
          rw [List.mem_singleton] at hl2
          subst hl2
          exact ⟨hh, body, hb, hnb⟩
      · refine ⟨r, (body ++ ['\n']) :: lines, last, by rw [hloop]; exact hr, ?_, ?_, hlast,
          hhead⟩
        · intro l hl2
          rcases List.mem_cons.mp hl2 with h1 | h1
          · subst h1
            refine ⟨?_, body, rfl, hnb⟩
            cases body with
            | nil =>
              rw [hb] at hh
              simp at hh
            | cons c body =>
              rw [hb] at hh
              simpa using hh
          · exact hl l h1
        · rw [List.flatten_cons, List.append_assoc, List.append_assoc, ← hs2]
          simpa using hb
    · refine ⟨s, [], [], ?_, by simp, by simp, Or.inl rfl, hh⟩
      rw [trimDirectivesLoop, if_neg hh]

/-- C16: directive stripping.  For every output text of the optimizer the loop
ends and returns the rest of the text after its leading lines that begin with
`#`, taken off one line at a time; the returned text is empty or does not
begin with `#`, and a text that does not begin with `#` is returned
unchanged. -/
theorem trim_directives_spec (s : List Char) :
    ∃ (r : List Char) (lines : List (List Char)) (last : List Char), trimDirectives s = some r
      ∧ (∀ l ∈ lines, DirectiveLine l)
      ∧ s = lines.flatten ++ (last ++ r)
      ∧ (last = [] ∨ (last.head? = some '#' ∧ '\n' ∉ last ∧ r = []))
      ∧ (r = [] ∨ r.head? ≠ some '#')
      ∧ (s.head? ≠ some '#' → r = s) := by
  obtain ⟨r, lines, last, hr, hl, hs, hlast, hhead⟩ :=
    trimDirectivesLoop_spec (s.length + 1) s (Nat.lt_succ_self _)
  refine ⟨r, lines, last, hr, hl, hs, hlast, Or.inr hhead, fun h => ?_⟩
  have : trimDirectivesLoop (s.length + 1) s = some s := by
    rw [trimDirectivesLoop, if_neg h]
  rw [this] at hr
  exact (Option.some.inj hr).symm

/-! ## The window of source lines printed on failure -/

/-- The conversion `%u` on a decimal literal followed by a text that does not
begin with a digit. -/
theorem scanUnsigned_digits (n : Nat) (tail : List Char) (ht : HeadNot isNumeric tail) :
    scanUnsigned (Nat.toDigits 10 n ++ tail) = some (n % 2 ^ 32, tail) := by
  obtain ⟨x, r, hd⟩ : ∃ x r, Nat.toDigits 10 n = x :: r := by
    cases h : Nat.toDigits 10 n with
    | nil => exact absurd h (toDigits_ne_nil n)
    | cons x r => exact ⟨x, r, rfl⟩
  have hx := isNumeric_facts (toDigits_numeric n x (by rw [hd]; exact List.mem_cons_self _ _))
  have hdrop : (Nat.toDigits 10 n ++ tail).dropWhile isSpace = Nat.toDigits 10 n ++ tail := by
    rw [hd]
    simp [List.dropWhile_cons, hx.1]
  have hhead : (Nat.toDigits 10 n ++ tail).head? = some x := by rw [hd]; rfl
  have htake : (Nat.toDigits 10 n ++ tail).takeWhile isNumeric = Nat.toDigits 10 n := by
    rw [takeWhile_append_all _ _ (toDigits_numeric n), takeWhile_headNot ht, List.append_nil]
  have h1 : ¬ (some x = some '+') := fun h => hx.2.2.1 (Option.some.inj h)
  have h2 : ¬ (some x = some '-') := fun h => hx.2.1 (Option.some.inj h)
  have hne : (Nat.toDigits 10 n).isEmpty = false := by rw [hd]; rfl
  unfold scanUnsigned
  simp only [hdrop, hhead, h1, h2, or_self, if_false, htake, hne, Bool.false_eq_true,
    digitsValue_toDigits, List.drop_left]

theorem scanUnsigned_paren (s : List Char) : scanUnsigned ('(' :: s) = none := by
  unfold scanUnsigned
  simp [List.dropWhile_cons, isSpace, List.takeWhile_cons, isNumeric]

theorem headNot_cons {p : Char → Bool} {c : Char} (s : List Char) (h : p c = false) :
    HeadNot p (c :: s) := by
  intro d hd
  simp only [List.head?_cons, Option.mem_def, Option.some.injEq] at hd
  rw [← hd]; exact h

/-- The first call of `sscanf` on a log `S:L(C)...`. -/
theorem sscanfSourceLineColumn_log (S L C : Nat) (rest : List Char) (st : ScanState)
    (hrest : HeadNot isNumeric rest) :
    sscanfSourceLineColumn
        (Nat.toDigits 10 S ++ ':' :: (Nat.toDigits 10 L ++ '(' :: (Nat.toDigits 10 C ++ rest)))
        st
      = { count := 3, source := S % 2 ^ 32, line := L % 2 ^ 32, column := C % 2 ^ 32 } := by
  unfold sscanfSourceLineColumn
  rw [scanUnsigned_digits S _ (headNot_cons _ (by decide))]
  simp only [scanChar, List.head?_cons, if_true, List.tail_cons, Option.some_bind]
  rw [scanUnsigned_digits L _ (headNot_cons _ (by decide))]
  simp only [List.head?_cons, if_true, List.tail_cons, Option.some_bind]
  rw [scanUnsigned_digits C _ hrest]

/-- The second call of `sscanf` on a log `(L,C...`. -/
theorem sscanfLineColumn_log (L C : Nat) (rest : List Char) (st : ScanState)
    (hrest : HeadNot isNumeric rest) :
    sscanfLineColumn ('(' :: (Nat.toDigits 10 L ++ ',' :: (Nat.toDigits 10 C ++ rest))) st
      = { st with count := 2, line := L % 2 ^ 32, column := C % 2 ^ 32 } := by
  unfold sscanfLineColumn
  simp only [scanChar, List.head?_cons, if_true, List.tail_cons, Option.some_bind]
  rw [scanUnsigned_digits L _ (headNot_cons _ (by decide))]
  simp only [List.head?_cons, if_true, List.tail_cons, Option.some_bind]
  rw [scanUnsigned_digits C _ hrest]

theorem toInt32_small (x : Nat) (h : x < 2 ^ 31) : toInt32 (x % 2 ^ 32) = x := by
  have e : x % 2 ^ 32 = x := Nat.mod_eq_of_lt (by omega)
  unfold toInt32
  rw [e, e, if_pos h]

theorem window_start (L : Nat) (h1 : 1 ≤ L) (h2 : L + 10 < 2 ^ 31) :
    toInt32 (uint32_imax 1 (((L : Int) - 10) % 2 ^ 32).toNat) = max 1 ((L : Int) - 10) := by
  by_cases h : L ≤ 10
  · have e : (((L : Int) - 10) % 2 ^ 32).toNat = 2 ^ 32 - (10 - L) ∨ (L = 10 ∧
        (((L : Int) - 10) % 2 ^ 32).toNat = 0) := by
      norm_num
      omega
    have hmax : max 1 ((L : Int) - 10) = 1 := by omega
    rw [hmax]
    rcases e with e | ⟨_, e⟩
    · rw [e]
      unfold uint32_imax toInt32
      norm_num
      split_ifs <;> omega
    · rw [e]
      decide
  · have e : (((L : Int) - 10) % 2 ^ 32).toNat = L - 10 := by
      norm_num
      omega
    have hmax : max 1 ((L : Int) - 10) = ((L - 10 : Nat) : Int) := by omega
    rw [e, hmax]
    unfold uint32_imax toInt32
    norm_num
    split_ifs <;> omega

theorem window_stop (L : Nat) (h1 : 1 ≤ L) (h2 : L + 10 < 2 ^ 31) :
    toInt32 ((max 1 ((L : Int) - 10) + 20) % 2 ^ 32).toNat
      = if 11 ≤ L then (L : Int) + 10 else 21 := by
  by_cases h : 11 ≤ L
  · have hmax : max 1 ((L : Int) - 10) + 20 = ((L + 10 : Nat) : Int) := by
      push_cast
      omega
    rw [hmax, if_pos h]
    have e : (((L + 10 : Nat) : Int) % 2 ^ 32).toNat = L + 10 := by
      norm_num
      omega
    rw [e]
    have e2 : (L + 10) % 2 ^ 32 = L + 10 := Nat.mod_eq_of_lt (by omega)
    rw [← e2, toInt32_small _ h2]
    push_cast
    rfl
  · have hmax : max 1 ((L : Int) - 10) + 20 = 21 := by omega
    rw [hmax, if_neg h]
    decide

/-- The window computed by lines 52-57 from a stored line `L` and column `C`. -/
theorem errorWindow_found (log : List Char) (S L C : Nat) (hL : 1 ≤ L)
    (hL2 : L + 10 < 2 ^ 31) (hC : C < 2 ^ 31)
    (h : (sscanfSourceLineColumn log { count := 0, source := 0, line := 0, column := 0 }
            = { count := 3, source := S, line := L % 2 ^ 32, column := C % 2 ^ 32 })
          ∨ (sscanfSourceLineColumn log { count := 0, source := 0, line := 0, column := 0 }
              = { count := 0, source := 0, line := 0, column := 0 }
            ∧ sscanfLineColumn log { count := 0, source := 0, line := 0, column := 0 }
              = { count := 2, source := 0, line := L % 2 ^ 32, column := C % 2 ^ 32 })) :
    errorWindow log
      = { line := L, start := max 1 ((L : Int) - 10),
          stop := if 11 ≤ L then (L : Int) + 10 else 21, column := C } := by
  have hline : toInt32 (L % 2 ^ 32) = L := toInt32_small L (by omega)
  have hcol : toInt32 (C % 2 ^ 32) = C := toInt32_small C hC
  have hne : ¬ ((L : Int) = 0) := by omega
  unfold errorWindow
  rcases h with h | ⟨h1, h2⟩
  · simp only [h, if_true, decide_True, Bool.true_or, hline, hcol, ne_eq, hne,
      not_false_eq_true, and_self, window_start L hL hL2, window_stop L hL hL2]
  · simp only [h1, h2, OfNat.zero_ne_ofNat, if_false, decide_False, decide_True, Bool.false_or,
      hline, hcol, ne_eq, hne, not_false_eq_true, and_self, if_true,
      window_start L hL hL2, window_stop L hL hL2]

theorem sscanfSourceLineColumn_paren (s : List Char) (st : ScanState) :
    sscanfSourceLineColumn ('(' :: s) st = { st with count := 0 } := by
  unfold sscanfSourceLineColumn
  rw [scanUnsigned_paren]

/-- The window for a log of the form `S:L(C)...`. -/
theorem errorWindow_source_line_column (S L C : Nat) (rest : List Char) (hL : 1 ≤ L)
    (hL2 : L + 10 < 2 ^ 31) (hC : C < 2 ^ 31) (hrest : HeadNot isNumeric rest) :
    errorWindow
        (Nat.toDigits 10 S ++ ':' :: (Nat.toDigits 10 L ++ '(' :: (Nat.toDigits 10 C ++ rest)))
      = { line := L, start := max 1 ((L : Int) - 10),
          stop := if 11 ≤ L then (L : Int) + 10 else 21, column := C } :=
  errorWindow_found _ (S % 2 ^ 32) L C hL hL2 hC
    (Or.inl (sscanfSourceLineColumn_log S L C rest _ hrest))

/-- The window for a log of the form `(L,C...`. -/
theorem errorWindow_line_column (L C : Nat) (rest : List Char) (hL : 1 ≤ L)
    (hL2 : L + 10 < 2 ^ 31) (hC : C < 2 ^ 31) (hrest : HeadNot isNumeric rest) :
    errorWindow ('(' :: (Nat.toDigits 10 L ++ ',' :: (Nat.toDigits 10 C ++ rest)))
      = { line := L, start := max 1 ((L : Int) - 10),
          stop := if 11 ≤ L then (L : Int) + 10 else 21, column := C } :=
  errorWindow_found _ 0 L C hL hL2 hC
    (Or.inr ⟨sscanfSourceLineColumn_paren _ _, sscanfLineColumn_log L C rest _ hrest⟩)

/-- C17 (amended): for a log `S:L(C)...` or `(L,C...` with a line `L ≥ 1`,
`L + 10 < 2^31` and a column `C < 2^31`, the line handed to `printCode` is
`L`, the column is `C`, the window starts at line `max(1, L-10)` and its end
is the start plus 20: line `L+10` when `L ≥ 11`, line 21 when `L ≤ 10`. -/
theorem error_window (S L C : Nat) (rest : List Char) (hL : 1 ≤ L)
    (hL2 : L + 10 < 2 ^ 31) (hC : C < 2 ^ 31) (hrest : HeadNot isNumeric rest) :
    errorWindow
        (Nat.toDigits 10 S ++ ':' :: (Nat.toDigits 10 L ++ '(' :: (Nat.toDigits 10 C ++ rest)))
      = { line := L, start := max 1 ((L : Int) - 10),
          stop := if 11 ≤ L then (L : Int) + 10 else 21, column := C }
    ∧ errorWindow ('(' :: (Nat.toDigits 10 L ++ ',' :: (Nat.toDigits 10 C ++ rest)))
      = { line := L, start := max 1 ((L : Int) - 10),
          stop := if 11 ≤ L then (L : Int) + 10 else 21, column := C } :=
  ⟨errorWindow_source_line_column S L C rest hL hL2 hC hrest,
    errorWindow_line_column L C rest hL hL2 hC hrest⟩

/-- Witness for C17: for the log `0:12(4): error` the line is 12, the column 4
and the window runs from line 2 to line 22; the same for `(12,4): error`. -/
theorem error_window_witness :
    errorWindow "0:12(4): error".toList = { line := 12, start := 2, stop := 22, column := 4 }
    ∧ errorWindow "(12,4): error".toList
      = { line := 12, start := 2, stop := 22, column := 4 } :=
  error_window 0 12 4 "): error".toList (by decide) (by decide) (by decide) (by decide)

/-- C17 as stated fails for a line below 11: for the log `0:5(4): error` the
window starts at line 1 and ends at line 21, not at line 15. -/
theorem error_window_counterexample :
    errorWindow "0:5(4): error".toList = { line := 5, start := 1, stop := 21, column := 4 }
    ∧ (errorWindow "0:5(4): error".toList).stop ≠ 5 + 10 := by
  have h : errorWindow "0:5(4): error".toList
      = { line := 5, start := 1, stop := 21, column := 4 } :=
    errorWindow_source_line_column 0 5 4 "): error".toList (by decide) (by decide)
      (by decide) (by decide)
  refine ⟨h, ?_⟩
  rw [h]
  decide

/-! ## Classification of statements and the end of the scan -/

/-- A pass on a cursor that, without its leading blanks, is not empty and holds
no `;` only trims the cursor. -/
theorem glStep_no_semi (p : List Char) (us : List Uniform)
    (h : ';' ∉ strLTrimSpace p) : glStep p us = (strLTrimSpace p, us) := by
  have e : strFindChar (strLTrimSpace p) ';' = [] := by
    unfold strFindChar
    rw [List.dropWhile_eq_nil_iff]
    intro c hc
    have : c ≠ ';' := fun hcs => h (hcs ▸ hc)
    simpa using this
  unfold glStep
  simp only [e, List.isEmpty_nil, if_true]

/-- The loop of line 126 never ends from a cursor that, without its leading
blanks, is not empty and holds no `;`. -/
theorem scanLoop_no_semi (p : List Char) (us : List Uniform)
    (hne : strLTrimSpace p ≠ []) (h : ';' ∉ strLTrimSpace p) :
    ∀ fuel, scanLoop fuel p us = none := by
  have hstuck : ∀ n, scanLoop n (strLTrimSpace p) us = none :=
    scanLoop_stuck hne (by rw [glStep_trim]; exact glStep_no_semi p us h)
  have hp : p.isEmpty = false := by
    cases p with
    | nil => exact absurd rfl hne
    | cons c p => rfl
  intro fuel
  cases fuel with
  | zero => rfl
  | succ n =>
    simp only [scanLoop, hp, Bool.false_eq_true, if_false, glStep_no_semi p us h]
    exact hstuck n

/-- C18 fails on the code: on the text `uniform vec4 u;` followed by the line
`void main () { }` the first pass of the loop of line 126 reads the
declaration, every later pass leaves the cursor `void main () { }` where it
is, and the loop ends for no number of passes. -/
theorem gl_scan_stuck :
    glStep "uniform vec4 u;\nvoid main () \x7b \x7d".toList []
        = ("void main () \x7b \x7d".toList,
           [{ name := "u".toList, type := UniformType.Vec4, num := 1, regIndex := 0,
              regCount := 1, texComponent := 0, texDimension := 0, texFormat := 0 }])
      ∧ (∀ us, glStep "void main () \x7b \x7d".toList us
          = ("void main () \x7b \x7d".toList, us))
      ∧ (∀ fuel, scanLoop fuel "uniform vec4 u;\nvoid main () \x7b \x7d".toList [] = none)
      ∧ scanGL "uniform vec4 u;\nvoid main () \x7b \x7d".toList = none := by
  have h1 : glStep "uniform vec4 u;\nvoid main () \x7b \x7d".toList []
        = ("void main () \x7b \x7d".toList,
           [{ name := "u".toList, type := UniformType.Vec4, num := 1, regIndex := 0,
              regCount := 1, texComponent := 0, texDimension := 0, texFormat := 0 }]) := by
    decide
  have h2 : ∀ us, glStep "void main () \x7b \x7d".toList us
      = ("void main () \x7b \x7d".toList, us) := fun us =>
    glStep_no_semi "void main () \x7b \x7d".toList us (by decide)
  have h3 : ∀ fuel, scanLoop fuel "uniform vec4 u;\nvoid main () \x7b \x7d".toList [] = none := by
    intro fuel
    cases fuel with
    | zero => rfl
    | succ n =>
      have hp : ("uniform vec4 u;\nvoid main () \x7b \x7d".toList).isEmpty = false := by decide
      simp only [scanLoop, hp, Bool.false_eq_true, if_false, h1]
      exact scanLoop_no_semi _ _ (by decide) (by decide) n
  exact ⟨h1, h2, h3, h3 _⟩

theorem isSkipQualifier_of_begins {q : List Char}
    (h : ∃ kw ∈ skipKeywords, kw <+: q) : isSkipQualifier q = true := by
  obtain ⟨kw, hmem, hp⟩ := h
  rw [← strCmp_eq_zero_iff_begins] at hp
  simp only [skipKeywords, List.mem_cons, List.mem_singleton, List.not_mem_nil, or_false]
    at hmem
  unfold isSkipQualifier
  simp only [Bool.or_eq_true, decide_eq_true_eq]
  rcases hmem with h | h | h | h | h | h | h | h | h <;> subst h
  · exact Or.inl (Or.inr (Or.inl hp))
  · exact Or.inl (Or.inr (Or.inr (Or.inl hp)))
  · exact Or.inl (Or.inr (Or.inr (Or.inr (Or.inl hp))))
  · exact Or.inl (Or.inr (Or.inr (Or.inr (Or.inr hp))))
  · exact Or.inr (Or.inl hp)
  · exact Or.inr (Or.inr (Or.inl hp))
  · exact Or.inr (Or.inr (Or.inr (Or.inl hp)))
  · exact Or.inr (Or.inr (Or.inr (Or.inr hp)))
  · exact Or.inl (Or.inl hp)

/-- C19 (amended): the scanner classifies a statement by the first characters
of its leading identifier.  A statement whose leading identifier begins with
one of the skip keywords is skipped; one whose leading identifier begins with
none of them but with `uniform` is read as a uniform declaration; at one
whose leading identifier begins with none of these words the scan ends at
once, with the table as it is.  (In the last two cases the text after the
leading identifier does not begin with `tmpvar`.) -/
theorem gl_classify_leading (a R : List Char) (us : List Uniform) (hs : ';' ∉ a) :
    ((∃ kw ∈ skipKeywords, kw <+: strWord (strLTrimSpace a)) →
        glStep (a ++ ';' :: R) us = (R, us))
    ∧ ((∀ kw ∈ skipKeywords, ¬ kw <+: strWord (strLTrimSpace a)) →
        ¬ kwTmpvar <+: (nextWord a).2 → kwUniform <+: strWord (strLTrimSpace a) →
        glStep (a ++ ';' :: R) us
          = (strLTrimSpace (strFindNl (';' :: R)),
             glDeclaration ((nextWord a).2 ++ [';']) us))
    ∧ ((∀ kw ∈ skipKeywords, ¬ kw <+: strWord (strLTrimSpace a)) →
        ¬ kwTmpvar <+: (nextWord a).2 → ¬ kwUniform <+: strWord (strLTrimSpace a) →
        glStep (a ++ ';' :: R) us = ([], us) ∧ scanFrom (a ++ ';' :: R) us = some us) := by
  refine ⟨fun h => glStep_skip R us hs (isSkipQualifier_of_begins h), ?_, ?_⟩
  · intro hk ht hu
    have hq : isSkipQualifier (nextWord a).1 = false := isSkipQualifier_eq_false hk
    have hu2 : ['u', 'n', 'i', 'f', 'o', 'r', 'm'] <+: (nextWord a).1 := hu
    have ht2 : ¬ ['t', 'm', 'p', 'v', 'a', 'r'] <+: (nextWord a).2 := ht
    rw [glStep_semi R us hs]
    simp [hq, hu2, ht2]
  · intro hk ht hu
    have hstop : glStep (a ++ ';' :: R) us = ([], us) := glStep_stop R us ⟨hs, hk, hu, ht⟩
    refine ⟨hstop, ?_⟩
    rw [scanFrom_step us (by simp), hstop]
    exact scanFrom_nil us

/-- Witness for C19: at the statement `float x` the scan ends at once and a
uniform declared after it is not read. -/
theorem gl_classify_leading_witness :
    glStep "float x;\nuniform vec4 u;\n".toList [] = ([], [])
      ∧ scanFrom "float x;\nuniform vec4 u;\n".toList [] = some [] :=
  (gl_classify_leading "float x".toList "\nuniform vec4 u;\n".toList [] (by decide)).2.2
    (by decide) (by decide) (by decide)

/-- C19 as stated fails: the statement `int x;`, whose leading identifier only
begins with `in`, is skipped and the uniform after it is read; the statement
`uniformity vec4 x;` is read as a uniform declaration. -/
theorem gl_classify_leading_counterexample :
    scanGL "int x;\nuniform vec4 u;\n".toList
        = some [{ name := "u".toList, type := UniformType.Vec4, num := 1, regIndex := 0,
                  regCount := 1, texComponent := 0, texDimension := 0, texFormat := 0 }]
      ∧ scanGL "uniformity vec4 x;\n".toList
        = some [{ name := "x".toList, type := UniformType.Vec4, num := 1, regIndex := 0,
                  regCount := 1, texComponent := 0, texDimension := 0, texFormat := 0 }] := by
  decide

theorem fromString_no_digit {z : List Char} (h : NoLeadingDigit z) : fromString z = 0 := by
  unfold NoLeadingDigit at h
  unfold fromString
  simp only [takeWhile_headNot h, digitsValue, List.foldl_nil]
  split_ifs <;> rfl

theorem glRegCount_zero (t : UniformType) : glRegCount t 0 = 0 := by
  cases t <;> rfl

/-- A run of `compile` that returns after the optimizer succeeded: the final
text is scanned and the table and that text are serialized. -/
theorem compile_success (glslopt : Target → ShaderKind → List Char → OptShader)
    (options : Options) (version : Nat) (code : List Char) (r : CompileResult)
    (hst : (glslopt (selectTarget version) (shaderKind options.shaderType) code).status = true)
    (hr : compile glslopt options version code = some r) :
    ∃ src us,
      finalSource (selectTarget version) options.shaderType
          (glslopt (selectTarget version) (shaderKind options.shaderType) code).output
        = some src
      ∧ scanUniforms (selectTarget version) src = some us
      ∧ r = { ok := true
              shader := serialize us src
              message := []
              printed := none
              disasm :=
                if options.disasm then
                  some (options.outputFilePath ++ ".disasm".toList,
                    src.take (src.length % 2 ^ 32))
                else none } := by
  unfold compile at hr
  simp only [hst, Bool.true_eq_false, if_false] at hr
  cases hf : finalSource (selectTarget version) options.shaderType
      (glslopt (selectTarget version) (shaderKind options.shaderType) code).output with
  | none =>
    rw [hf] at hr
    exact absurd hr (by simp)
  | some src =>
    rw [hf, Option.some_bind] at hr
    cases hu : scanUniforms (selectTarget version) src with
    | none =>
      rw [hu] at hr
      exact absurd hr (by simp)
    | some us =>
      rw [hu, Option.map_some'] at hr
      exact ⟨src, us, rfl, hu, (Option.some.inj hr).symm⟩

/-- C13 (amended): a GL-style declaration of a recognized type whose bracketed
array-size text does not begin, after blanks and an optional sign, with a
decimal digit (as in `uniform vec4 u[N];`) is not an error.  The scanner
appends its descriptor with `arraySize` 0 and `registerCount` 0 and goes on
with the next line; and a run of `compile` in which the optimizer succeeds,
when it returns, returns success with nothing written to the message
writer. -/
theorem gl_malformed_array_size (d : UniformDecl) (sep4 z R : List Char) (us : List Uniform)
    (hd : d.WellFormed) (hrest : d.rest = sep4 ++ '[' :: z) (h4 : Spaces sep4)
    (hz : NoLeadingDigit z)
    (hrec : nameToUniformTypeEnum (glUniformType d.typen) ≠ UniformType.Count) :
    glStep (d.text ++ ';' :: R) us
        = (strLTrimSpace (strFindNl (';' :: R)),
           us ++ [{ name := d.name
                    type := nameToUniformTypeEnum (glUniformType d.typen)
                    num := 0
                    regIndex := 0
                    regCount := 0
                    texComponent := 0
                    texDimension := 0
                    texFormat := 0 }])
      ∧ ∀ (glslopt : Target → ShaderKind → List Char → OptShader) (options : Options)
          (version : Nat) (code : List Char) (r : CompileResult),
          (glslopt (selectTarget version) (shaderKind options.shaderType) code).status = true →
          compile glslopt options version code = some r →
          r.ok = true ∧ r.message = [] ∧ r.printed = none := by
  constructor
  · obtain ⟨c, r, hc, hmem, hprec⟩ := recognized_head hrec
    rw [d.glStep_text hd R us (fun _ => hprec),
      if_neg (d.not_tmpvar hd ⟨c, r, hc, hmem⟩)]
    have htrim : strLTrimSpace (sep4 ++ '[' :: z) = '[' :: z := by
      unfold strLTrimSpace
      rw [dropWhile_append_all _ _ h4]
      simp [List.dropWhile_cons, isSpace]
    simp only [if_pos hrec, declUniform, hrest, htrim, declNum, List.head?_cons, if_true,
      List.tail_cons, fromString_no_digit hz, Nat.zero_mod, glRegCount_zero]
  · intro glslopt options version code r hst hr
    obtain ⟨src, us2, _, _, hr2⟩ := compile_success glslopt options version code r hst hr
    rw [hr2]
    exact ⟨rfl, rfl, rfl⟩

/-- Witness for C13: the declaration `uniform vec4 u[N]` yields a descriptor
with `arraySize` 0 and `registerCount` 0. -/
theorem gl_malformed_array_size_witness :
    glStep "uniform vec4 u[N];\nvoid main () \x7b \x7d".toList []
      = ("void main () \x7b \x7d".toList,
         [{ name := "u".toList, type := UniformType.Vec4, num := 0, regIndex := 0,
            regCount := 0, texComponent := 0, texDimension := 0, texFormat := 0 }]) :=
  (gl_malformed_array_size
    { lead := [], sep1 := [' '], prec := [], sep2 := [], typen := "vec4".toList,
      sep3 := [' '], name := "u".toList, rest := "[N]".toList }
    [] "N]".toList "\nvoid main () \x7b \x7d".toList [] (by decide) rfl (by decide)
    (by decide) (by decide)).1

/-- C13 as stated fails: with an optimizer that succeeds and hands back the
text `uniform vec4 u[N];`, `compile` returns success, writes a blob with the
descriptor of `u` (array size 0) and reports no error. -/
theorem gl_malformed_array_size_counterexample :
    compile (fun _ _ code => { status := true, log := [], output := code })
        { shaderType := 'f', disasm := false, outputFilePath := [] } 120
        "uniform vec4 u[N];\n".toList
      = some { ok := true
               shader := serialize
                 [{ name := "u".toList, type := UniformType.Vec4, num := 0, regIndex := 0,
                    regCount := 0, texComponent := 0, texDimension := 0, texFormat := 0 }]
                 "uniform vec4 u[N];\n".toList
               message := []
               printed := none
               disasm := none } := by
  decide

/-! ## The legacy rewrite -/

theorem clash_spec {a b : List Char} (h : clash a b = true) (y : List Char) :
    ¬ a <+: b ++ y := by
  intro hp
  unfold clash at h
  simp only [Bool.and_eq_true, Bool.not_eq_true', ← Bool.not_eq_true,
    List.isPrefixOf_iff_prefix] at h
  rcases List.prefix_or_prefix_of_prefix hp (List.prefix_append b y) with h1 | h1
  · exact h.1 h1
  · exact h.2 h1

theorem mem_suffixes : ∀ (r a : List Char), a ≠ [] → a <:+ r → a ∈ suffixes r := by
  intro r
  induction r with
  | nil =>
    intro a ha hs
    exact absurd (List.suffix_nil.mp hs) ha
  | cons x r ih =>
    intro a ha hs
    rcases List.suffix_cons_iff.mp hs with h | h
    · rw [h]; exact List.mem_cons_self _ _
    · exact List.mem_cons_of_mem _ (ih a ha h)

theorem suffix_append_cases : ∀ (a b t : List Char), t <:+ a ++ b →
    (∃ a2, a2 ≠ [] ∧ a2 <:+ a ∧ t = a2 ++ b) ∨ t <:+ b := by
  intro a
  induction a with
  | nil => intro b t h; exact Or.inr h
  | cons x a ih =>
    intro b t h
    rcases List.suffix_cons_iff.mp h with h1 | h1
    · exact Or.inl ⟨x :: a, by simp, List.suffix_refl _, h1⟩
    · rcases ih b t h1 with ⟨a2, hne, hs, ht⟩ | h2
      · exact Or.inl ⟨a2, hne, hs.trans (List.suffix_cons _ _), ht⟩
      · exact Or.inr h2

/-- A text without the pattern is left as it is. -/
theorem regexReplace_absent (p r : List Char) :
    ∀ s : List Char, ¬ p <:+: s → regexReplace p r 0 s = s := by
  intro s
  induction s with
  | nil => intro _; rfl
  | cons c cs ih =>
    intro h
    have hpre : p.isPrefixOf (c :: cs) = false := by
      rw [← Bool.not_eq_true, List.isPrefixOf_iff_prefix]
      exact fun hp => h hp.isInfix
    rw [regexReplace_cons _ _ _ _ hpre,
      ih (fun hi => h (hi.trans (List.suffix_cons c cs).isInfix))]

theorem follows_nil (t : List Char) : Follows [] t ↔ wordCharNext t = true := by
  unfold Follows
  simp

theorem follows_cons (e : Char) (w : List Char) (d : Char) (t : List Char) :
    Follows (e :: w) (d :: t) ↔ e = d ∧ Follows w t := by
  unfold Follows
  simp only [List.cons_prefix_cons, List.length_cons, List.drop_succ_cons, and_assoc]

theorem not_follows_nil (w : List Char) : ¬ Follows w [] := by
  intro h
  unfold Follows at h
  rw [List.drop_nil] at h
  exact absurd h.2 (by decide)

theorem wordCharNext_of_begins {tail y : List Char} (h : tail <+: y)
    (ht : wordCharNext tail = true) : wordCharNext y = true := by
  cases tail with
  | nil => exact absurd ht (by decide)
  | cons c tail =>
    cases y with
    | nil => exact absurd (List.prefix_nil.mp h) (by simp)
    | cons d y =>
      obtain ⟨hx, _⟩ := List.cons_prefix_cons.mp h
      rw [← hx]
      exact ht

/-- A text all of whose ends clash with the replacement, and that in the
rewritten text is followed by a character of an identifier, is so in the text
itself. -/
theorem follows_of_replace (p r : List Char) (hp : wordCharNext p = true) :
    ∀ (s w : List Char), (suffixes w).all (fun x => clash x r) = true →
      Follows w (regexReplace p r 0 s) → Follows w s := by
  intro s
  induction s with
  | nil => intro w _ h; exact absurd h (not_follows_nil w)
  | cons d ds ih =>
    intro w hw h
    by_cases hpre : p.isPrefixOf (d :: ds) = true
    · cases w with
      | nil =>
        rw [follows_nil]
        exact wordCharNext_of_begins (List.isPrefixOf_iff_prefix.mp hpre) hp
      | cons e w =>
        simp only [suffixes, List.all_cons, Bool.and_eq_true] at hw
        simp only [regexReplace, hpre, if_true] at h
        exact absurd h.1 (clash_spec hw.1 _)
    · have hpre2 : p.isPrefixOf (d :: ds) = false := Bool.eq_false_iff.mpr hpre
      rw [regexReplace_cons _ _ _ _ hpre2] at h
      cases w with
      | nil =>
        rw [follows_nil] at h ⊢
        exact h
      | cons e w =>
        simp only [suffixes, List.all_cons, Bool.and_eq_true] at hw
        rw [follows_cons] at h ⊢
        exact ⟨h.1, ih w hw.2 h.2⟩

/-- The replacement `r`, written where `p` stood before a character that is
not of an identifier, does not begin an occurrence of a compatible `q`. -/
theorem not_begins_at_replacement (p r q s2 : List Char) (hp : wordCharNext p = true)
    (hc3 : (clash q r || (r.isPrefixOf q && wordCharNext (q.drop r.length))) = true)
    (hnext : wordCharNext s2 = false) : ¬ q <+: r ++ regexReplace p r 0 s2 := by
  intro hq2
  rw [Bool.or_eq_true, Bool.and_eq_true] at hc3
  rcases hc3 with h | ⟨h1, h2⟩
  · exact clash_spec h _ hq2
  · have hrq : r <+: q := List.isPrefixOf_iff_prefix.mp h1
    have e : r ++ q.drop r.length = q := List.prefix_iff_eq_append.mp hrq
    rw [← e] at hq2
    have htail : q.drop r.length <+: regexReplace p r 0 s2 :=
      (List.prefix_append_right_inj r).mp hq2
    have h3 : Follows [] (regexReplace p r 0 s2) :=
      (follows_nil _).mpr (wordCharNext_of_begins htail h2)
    have h4 := (follows_nil _).mp (follows_of_replace p r hp s2 [] rfl h3)
    rw [hnext] at h4
    exact absurd h4 (by decide)

/-- The core of the replacement theory, for a property `P` of texts that
implies that the text begins with `q` and that comes from the text before the
replacement wherever the replacement copies a character: `P` holds at no
place of the rewritten text when, in the text, `p` is never followed by a
character of an identifier and `P` holds only where `p` stands. -/
theorem occurrence_replace (p r q : List Char) (P : List Char → Prop)
    (hP : ∀ t, P t → q <+: t)
    (hstep : ∀ d ds, p.isPrefixOf (d :: ds) = false →
      P (d :: regexReplace p r 0 ds) → P (d :: ds))
    (hp : wordCharNext p = true) (hq : q ≠ []) (hc : compatible q r = true) :
    ∀ (n : Nat) (s : List Char), s.length ≤ n →
      (∀ t, t <:+ s → p <+: t → wordCharNext (t.drop p.length) = false) →
      (∀ t, t <:+ s → P t → p <+: t) →
      ∀ t2, t2 <:+ regexReplace p r 0 s → ¬ P t2 := by
  unfold compatible at hc
  rw [Bool.and_eq_true, Bool.and_eq_true] at hc
  obtain ⟨⟨_, hc2⟩, hc3⟩ := hc
  have hnil : ¬ P [] := fun h => hq (List.prefix_nil.mp (hP [] h))
  intro n
  induction n with
  | zero =>
    intro s hs _ _ t2 ht2 h2
    have : s = [] := List.length_eq_zero.mp (Nat.le_zero.mp hs)
    subst this
    rw [List.suffix_nil.mp ht2] at h2
    exact hnil h2
  | succ n ih =>
    intro s hs Hp H t2 ht2 h2
    cases s with
    | nil =>
      rw [List.suffix_nil.mp ht2] at h2
      exact hnil h2
    | cons c cs =>
      by_cases hpre : p.isPrefixOf (c :: cs) = true
      · obtain ⟨s2, hs2⟩ := List.isPrefixOf_iff_prefix.mp hpre
        cases p with
        | nil => exact absurd hp (by decide)
        | cons ph pt =>
          have hnext : wordCharNext s2 = false := by
            have := Hp (c :: cs) (List.suffix_refl _) ⟨s2, hs2⟩
            rw [← hs2, List.drop_left] at this
            exact this
          rw [← hs2, List.cons_append, regexReplace_match] at ht2
          have hlen : s2.length ≤ n := by
            have := congrArg List.length hs2
            simp only [List.length_append, List.length_cons] at this hs
            omega
          have hsuf : s2 <:+ c :: cs := ⟨ph :: pt, hs2⟩
          rcases suffix_append_cases _ _ _ ht2 with ⟨a2, hne, ha2, e⟩ | h3
          · have hq2 := hP _ h2
            rw [e] at hq2
            cases r with
            | nil => exact hne (List.suffix_nil.mp ha2)
            | cons x r2 =>
              rcases List.suffix_cons_iff.mp ha2 with h4 | h4
              · rw [h4] at hq2
                exact not_begins_at_replacement (ph :: pt) (x :: r2) q s2 hp hc3 hnext hq2
              · have hm := mem_suffixes r2 a2 hne h4
                have hcl : clash q a2 = true := by
                  rw [List.all_eq_true] at hc2
                  exact hc2 a2 hm
                exact clash_spec hcl _ hq2
          · exact ih s2 hlen (fun t ht => Hp t (ht.trans hsuf))
              (fun t ht => H t (ht.trans hsuf)) t2 h3 h2
      · have hpre2 : p.isPrefixOf (c :: cs) = false := Bool.eq_false_iff.mpr hpre
        rw [regexReplace_cons _ _ _ _ hpre2] at ht2
        rcases List.suffix_cons_iff.mp ht2 with h1 | h1
        · rw [h1] at h2
          have := hstep c cs hpre2 h2
          exact hpre (List.isPrefixOf_iff_prefix.mpr (H _ (List.suffix_refl _) this))
        · exact ih cs (by simpa using hs)
            (fun t ht => Hp t (ht.trans (List.suffix_cons c cs)))
            (fun t ht => H t (ht.trans (List.suffix_cons c cs))) t2 h1 h2

theorem compatible_tail {q r : List Char} (hc : compatible q r = true) :
    (suffixes q.tail).all (fun x => clash x r) = true := by
  unfold compatible at hc
  rw [Bool.and_eq_true, Bool.and_eq_true] at hc
  exact hc.1.1

/-- The replacement of `p` by `r` brings no character of an identifier after an
occurrence of a compatible `q`, when in the text neither `p` nor `q` is
followed by one. -/
theorem follows_replace (p r q : List Char) (hp : wordCharNext p = true) (hq : q ≠ [])
    (hc : compatible q r = true) (s : List Char)
    (Hp : ∀ t, t <:+ s → ¬ Follows p t) (Hq : ∀ t, t <:+ s → ¬ Follows q t) :
    ∀ t2, t2 <:+ regexReplace p r 0 s → ¬ Follows q t2 := by
  refine occurrence_replace p r q (Follows q) (fun _ h => h.1) ?_ hp hq hc s.length s
    (le_refl _) ?_ (fun t ht h => absurd h (Hq t ht))
  · intro d ds _ h
    cases q with
    | nil => exact absurd rfl hq
    | cons e q2 =>
      rw [follows_cons] at h ⊢
      exact ⟨h.1, follows_of_replace p r hp ds q2 (compatible_tail hc) h.2⟩
  · intro t ht hpt
    cases hw : wordCharNext (t.drop p.length) with
    | false => rfl
    | true => exact absurd ⟨hpt, hw⟩ (Hp t ht)

theorem runSteps_cons (e : List Char × List Char) (L : List (List Char × List Char))
    (s : List Char) : runSteps (e :: L) s = runSteps L (regexReplace e.1 e.2 0 s) := rfl

theorem runSteps_legacyTable (s : List Char) : runSteps legacyTable s = applyTable s := rfl

/-- A text with none of the patterns is left as it is. -/
theorem runSteps_absent :
    ∀ (L : List (List Char × List Char)) (s : List Char),
      (∀ e ∈ L, ¬ e.1 <:+: s) → runSteps L s = s := by
  intro L
  induction L with
  | nil => intro s _; rfl
  | cons e L ih =>
    intro s h
    rw [runSteps_cons, regexReplace_absent _ _ _ (h e (List.mem_cons_self _ _))]
    exact ih s (fun x hx => h x (List.mem_cons_of_mem _ hx))

theorem wordCharNext_ne_nil {p : List Char} (h : wordCharNext p = true) : p ≠ [] := by
  intro e
  rw [e] at h
  exact absurd h (by decide)

/-- One replacement of the list keeps every name of the list free of a
following character of an identifier. -/
theorem step_ends (L : List (List Char × List Char))
    (hL : ∀ e1 ∈ L, wordCharNext e1.1 = true ∧ ∀ e2 ∈ L, compatible e1.1 e2.2 = true)
    (e0 : List Char × List Char) (h0 : e0 ∈ L) (s : List Char)
    (hs : ∀ e ∈ L, ∀ t, t <:+ s → ¬ Follows e.1 t) :
    ∀ e ∈ L, ∀ t, t <:+ regexReplace e0.1 e0.2 0 s → ¬ Follows e.1 t := by
  intro e he
  exact follows_replace e0.1 e0.2 e.1 (hL e0 h0).1 (wordCharNext_ne_nil (hL e he).1)
    ((hL e he).2 e0 h0) s (hs e0 h0) (hs e he)

theorem runSteps_ends (L : List (List Char × List Char))
    (hL : ∀ e1 ∈ L, wordCharNext e1.1 = true ∧ ∀ e2 ∈ L, compatible e1.1 e2.2 = true) :
    ∀ (L2 : List (List Char × List Char)) (s : List Char), (∀ e ∈ L2, e ∈ L) →
      (∀ e ∈ L, ∀ t, t <:+ s → ¬ Follows e.1 t) →
      ∀ e ∈ L, ∀ t, t <:+ runSteps L2 s → ¬ Follows e.1 t := by
  intro L2
  induction L2 with
  | nil => intro s _ hs; exact hs
  | cons e0 L2 ih =>
    intro s hsub hs
    rw [runSteps_cons]
    exact ih _ (fun x hx => hsub x (List.mem_cons_of_mem _ hx))
      (step_ends L hL e0 (hsub e0 (List.mem_cons_self _ _)) s hs)

theorem regexReplace_length_le (p r : List Char) (hp : p ≠ []) (hr : r.length ≤ p.length) :
    ∀ (n : Nat) (s : List Char), s.length ≤ n →
      (regexReplace p r 0 s).length ≤ s.length := by
  intro n
  induction n with
  | zero =>
    intro s hs
    have : s = [] := List.length_eq_zero.mp (Nat.le_zero.mp hs)
    subst this
    exact le_refl _
  | succ n ih =>
    intro s hs
    cases s with
    | nil => exact le_refl _
    | cons c cs =>
      by_cases hpre : p.isPrefixOf (c :: cs) = true
      · obtain ⟨s2, hs2⟩ := List.isPrefixOf_iff_prefix.mp hpre
        cases p with
        | nil => exact absurd rfl hp
        | cons ph pt =>
          have hl := congrArg List.length hs2
          rw [← hs2, List.cons_append, regexReplace_match]
          simp only [List.length_append, List.length_cons] at hl hs hr ⊢
          have := ih s2 (by omega)
          omega
      · have hpre2 : p.isPrefixOf (c :: cs) = false := Bool.eq_false_iff.mpr hpre
        rw [regexReplace_cons _ _ _ _ hpre2]
        have := ih cs (by simpa using hs)
        simp only [List.length_cons]
        omega

theorem regexReplace_length_lt (p r : List Char) (hr : r.length < p.length) :
    ∀ s : List Char, p <:+: s → (regexReplace p r 0 s).length < s.length := by
  have hp : p ≠ [] := by
    intro e
    rw [e] at hr
    exact absurd hr (by simp)
  intro s
  induction s with
  | nil =>
    intro h
    exact absurd (List.infix_nil.mp h) hp
  | cons c cs ih =>
    intro h
    by_cases hpre : p.isPrefixOf (c :: cs) = true
    · obtain ⟨s2, hs2⟩ := List.isPrefixOf_iff_prefix.mp hpre
      cases p with
      | nil => exact absurd rfl hp
      | cons ph pt =>
        have hl := congrArg List.length hs2
        rw [← hs2, List.cons_append, regexReplace_match]
        have := regexReplace_length_le (ph :: pt) r hp (le_of_lt hr) s2.length s2 (le_refl _)
        simp only [List.length_append, List.length_cons] at hl hr this ⊢
        omega
    · have hpre2 : p.isPrefixOf (c :: cs) = false := Bool.eq_false_iff.mpr hpre
      rw [regexReplace_cons _ _ _ _ hpre2]
      rcases List.infix_cons_iff.mp h with h1 | h1
      · exact absurd (List.isPrefixOf_iff_prefix.mpr h1) hpre
      · have := ih h1
        simp only [List.length_cons]
        omega

theorem runSteps_length_le :
    ∀ (L : List (List Char × List Char)) (s : List Char),
      (∀ e ∈ L, e.2.length < e.1.length) → (runSteps L s).length ≤ s.length := by
  intro L
  induction L with
  | nil => intro s _; exact le_refl _
  | cons e L ih =>
    intro s h
    have he := h e (List.mem_cons_self _ _)
    have hp : e.1 ≠ [] := by
      intro e0
      rw [e0] at he
      exact absurd he (by simp)
    rw [runSteps_cons]
    exact le_trans (ih _ (fun x hx => h x (List.mem_cons_of_mem _ hx)))
      (regexReplace_length_le e.1 e.2 hp (le_of_lt he) s.length s (le_refl _))

/-- A text that the replacements leave as it is holds none of their patterns,
when every replacement is shorter than its pattern. -/
theorem runSteps_fixed :
    ∀ (L : List (List Char × List Char)) (s : List Char),
      (∀ e ∈ L, e.2.length < e.1.length) → runSteps L s = s → ∀ e ∈ L, ¬ e.1 <:+: s := by
  intro L
  induction L with
  | nil => intro s _ _ e he; exact absurd he (List.not_mem_nil e)
  | cons e0 L ih =>
    intro s h hfix e he
    have h0 := h e0 (List.mem_cons_self _ _)
    have hL : ∀ x ∈ L, x.2.length < x.1.length := fun x hx => h x (List.mem_cons_of_mem _ hx)
    rw [runSteps_cons] at hfix
    have hno : ¬ e0.1 <:+: s := by
      intro hi
      have h1 := regexReplace_length_lt e0.1 e0.2 h0 s hi
      have h2 := runSteps_length_le L (regexReplace e0.1 e0.2 0 s) hL
      rw [hfix] at h2
      omega
    rw [regexReplace_absent _ _ _ hno] at hfix
    rcases List.mem_cons.mp he with h1 | h1
    · rw [h1]; exact hno
    · exact ih s hL hfix e h1

theorem legacyTable_shorter : ∀ e ∈ legacyTable, e.2.length < e.1.length := by decide

theorem legacyRewrite_metal (shaderType : Char) (code : List Char) :
    legacyRewrite Target.Metal shaderType code = applyTable code := by
  unfold legacyRewrite forcePrecision
  simp

/-- C12 (amended): the table of lines 80-103 is applied for every target, the
Metal target included.  For the Metal target the rewrite returns the text
with the table applied, and it returns the text unchanged exactly when the
text holds none of the deprecated names. -/
theorem legacy_table_every_target (shaderType : Char) (code : List Char) :
    legacyRewrite Target.Metal shaderType code = applyTable code
      ∧ (legacyRewrite Target.Metal shaderType code = code
          ↔ ∀ e ∈ legacyTable, ¬ e.1 <:+: code) := by
  refine ⟨legacyRewrite_metal shaderType code, ⟨fun h => ?_, fun h => ?_⟩⟩
  · rw [legacyRewrite_metal, ← runSteps_legacyTable] at h
    exact runSteps_fixed legacyTable code legacyTable_shorter h
  · rw [legacyRewrite_metal, ← runSteps_legacyTable]
    exact runSteps_absent legacyTable code h

/-- Witness for C12: for the Metal target and a fragment shader the text
`gl_FragColor = c;`, which holds none of the deprecated names, is returned
unchanged. -/
theorem legacy_table_every_target_witness :
    legacyRewrite Target.Metal 'f' "gl_FragColor = c;".toList = "gl_FragColor = c;".toList :=
  (legacy_table_every_target 'f' "gl_FragColor = c;".toList).2.mpr (by decide)

/-- C12 as stated fails: for the Metal target the text `gl_FragDepthEXT = 1.0;`
with the deprecated name `gl_FragDepthEXT` is not returned unchanged, and
the name is not left in the result. -/
theorem legacy_table_every_target_counterexample :
    legacyRewrite Target.Metal 'f' "gl_FragDepthEXT = 1.0;".toList
        ≠ "gl_FragDepthEXT = 1.0;".toList
      ∧ ¬ "gl_FragDepthEXT".toList
          <:+: legacyRewrite Target.Metal 'f' "gl_FragDepthEXT = 1.0;".toList := by
  decide

/-! ## The table and the stored source -/

theorem strLTrimSpace_suffix (s : List Char) : strLTrimSpace s <:+ s :=
  List.dropWhile_suffix _

theorem strFindChar_suffix (s : List Char) (c : Char) : strFindChar s c <:+ s :=
  List.dropWhile_suffix _

theorem strFind_suffix (pat : List Char) : ∀ s : List Char, strFind s pat <:+ s := by
  intro s
  induction s with
  | nil => exact List.suffix_refl _
  | cons c cs ih =>
    unfold strFind
    split_ifs
    · exact List.suffix_refl _
    · exact ih.trans (List.suffix_cons c cs)

theorem strFindNl_suffix (s : List Char) : strFindNl s <:+ s :=
  (List.tail_suffix _).trans (List.dropWhile_suffix _)

theorem strCopy_begins (k : Nat) (s : List Char) : strCopy k s <+: s :=
  List.take_prefix _ _

theorem nextWord_fst_part (s : List Char) : (nextWord s).1 <:+: s :=
  (List.takeWhile_prefix _).isInfix.trans (strLTrimSpace_suffix s).isInfix

theorem nextWord_snd_suffix (s : List Char) : (nextWord s).2 <:+ s :=
  (strLTrimSpace_suffix _).trans ((List.dropWhile_suffix _).trans (strLTrimSpace_suffix s))

/-- A declaration adds at most one descriptor, named by a part of the text at
the cursor. -/
theorem glDeclaration_names (parse : List Char) (us : List Uniform) :
    ∀ u ∈ glDeclaration parse us, u ∈ us ∨ u.name <:+: parse := by
  intro u hu
  unfold glDeclaration at hu
  dsimp only at hu
  split_ifs at hu
  all_goals first
    | exact Or.inl hu
    | (rcases List.mem_append.mp hu with h | h
       · exact Or.inl h
       · right
         rw [List.mem_singleton] at h
         rw [h]
         first
           | exact (nextWord_fst_part _).trans
               ((nextWord_snd_suffix _).trans (nextWord_snd_suffix _)).isInfix
           | exact (nextWord_fst_part _).trans (nextWord_snd_suffix _).isInfix)

/-- A pass of the GL-style loop moves the cursor forward in the text and names
what it adds by a part of the text at the cursor. -/
theorem glStep_names (p : List Char) (us : List Uniform) :
    (glStep p us).1 <:+ p ∧ ∀ u ∈ (glStep p us).2, u ∈ us ∨ u.name <:+: p := by
  have heol : strFindChar (strLTrimSpace p) ';' <:+ p :=
    (strFindChar_suffix _ _).trans (strLTrimSpace_suffix p)
  unfold glStep
  dsimp only
  split_ifs
  · exact ⟨strLTrimSpace_suffix p, fun u hu => Or.inl hu⟩
  · exact ⟨(List.tail_suffix _).trans heol, fun u hu => Or.inl hu⟩
  · exact ⟨(List.tail_suffix _).trans heol, fun u hu => Or.inl hu⟩
  · exact ⟨List.nil_suffix, fun u hu => Or.inl hu⟩
  · refine ⟨(strLTrimSpace_suffix _).trans ((strFindNl_suffix _).trans heol), fun u hu => ?_⟩
    rcases glDeclaration_names _ _ u hu with h | h
    · exact Or.inl h
    · exact Or.inr (h.trans
        ((nextWord_snd_suffix _).trans (strLTrimSpace_suffix p)).isInfix)

theorem scanLoop_names : ∀ (fuel : Nat) (p : List Char) (us r : List Uniform),
    scanLoop fuel p us = some r → ∀ u ∈ r, u ∈ us ∨ u.name <:+: p := by
  intro fuel
  induction fuel with
  | zero => intro p us r h; exact absurd h (by simp [scanLoop])
  | succ n ih =>
    intro p us r h u hu
    unfold scanLoop at h
    split_ifs at h
    · rw [← Option.some.inj h] at hu
      exact Or.inl hu
    · rcases ih _ _ r h u hu with h1 | h1
      · exact (glStep_names p us).2 u h1
      · exact Or.inr (h1.trans (glStep_names p us).1.isInfix)

/-- Every name in the table of the GL-style scanner is a part of the text. -/
theorem scanGL_names (src : List Char) (us : List Uniform) (h : scanGL src = some us) :
    ∀ u ∈ us, u.name <:+: src := by
  intro u hu
  rcases scanLoop_names _ _ _ _ h u hu with h1 | h1
  · exact absurd h1 (List.not_mem_nil u)
  · exact h1

theorem mtlStructStep_names (p : List Char) (us : List Uniform)
    (next : List Char × List Uniform) (h : mtlStructStep p us = some next) :
    next.1 <:+ p ∧ ∀ u ∈ next.2, u ∈ us ∨ u.name <:+: p := by
  have heol : strFindChar (strLTrimSpace p) ';' <:+ p :=
    (strFindChar_suffix _ _).trans (strLTrimSpace_suffix p)
  have hname : strLTrimSpace ((strLTrimSpace p).drop (strWord (strLTrimSpace p)).length) <:+ p :=
    (strLTrimSpace_suffix _).trans ((List.drop_suffix _ _).trans (strLTrimSpace_suffix p))
  unfold mtlStructStep at h
  dsimp only at h
  split_ifs at h
  all_goals first
    | (rw [← Option.some.inj h]
       exact ⟨strLTrimSpace_suffix p, fun u hu => Or.inl hu⟩)
    | (rw [← Option.some.inj h]
       refine ⟨(List.tail_suffix _).trans heol, fun u hu => ?_⟩
       first
         | exact Or.inl hu
         | (rcases List.mem_append.mp hu with h1 | h1
            · exact Or.inl h1
            · right
              rw [List.mem_singleton] at h1
              rw [h1]
              exact (strCopy_begins _ _).isInfix.trans hname.isInfix))

theorem mtlStructLoop_names : ∀ (fuel : Nat) (p stop : List Char) (us r : List Uniform),
    mtlStructLoop fuel p stop us = some r → ∀ u ∈ r, u ∈ us ∨ u.name <:+: p := by
  intro fuel
  induction fuel with
  | zero => intro p stop us r h; exact absurd h (by simp [mtlStructLoop])
  | succ n ih =>
    intro p stop us r h u hu
    unfold mtlStructLoop at h
    split_ifs at h
    · cases hs : mtlStructStep p us with
      | none =>
        rw [hs] at h
        exact absurd h (by simp)
      | some next =>
        rw [hs] at h
        rcases ih _ _ _ r h u hu with h1 | h1
        · exact (mtlStructStep_names p us next hs).2 u h1
        · exact Or.inr (h1.trans (mtlStructStep_names p us next hs).1.isInfix)
    · rw [← Option.some.inj h] at hu
      exact Or.inl hu

theorem mtlStructPass_names (text : List Char) (us r : List Uniform)
    (h : mtlStructPass text us = some r) : ∀ u ∈ r, u ∈ us ∨ u.name <:+: text := by
  intro u hu
  unfold mtlStructPass at h
  dsimp only at h
  split_ifs at h
  · rw [← Option.some.inj h] at hu
    exact Or.inl hu
  · rcases mtlStructLoop_names _ _ _ _ _ h u hu with h1 | h1
    · exact Or.inl h1
    · exact Or.inr (h1.trans
        ((List.drop_suffix _ _).trans (strFind_suffix _ text)).isInfix)

theorem mtlEntryStep_names (p : List Char) (us : List Uniform)
    (next : List Char × List Uniform) (h : mtlEntryStep p us = some next) :
    next.1 <:+ p ∧ ∀ u ∈ next.2, u ∈ us ∨ u.name <:+: p := by
  have htrim := strLTrimSpace_suffix p
  unfold mtlEntryStep at h
  dsimp only at h
  split_ifs at h
  · rw [← Option.some.inj h]
    exact ⟨List.nil_suffix, fun u hu => Or.inl hu⟩
  · rw [← Option.some.inj h]
    refine ⟨(List.tail_suffix _).trans ((List.drop_suffix _ _).trans
      ((strFind_suffix _ _).trans htrim)), fun u hu => ?_⟩
    rcases List.mem_append.mp hu with h1 | h1
    · exact Or.inl h1
    · right
      rw [List.mem_singleton] at h1
      rw [h1]
      dsimp only
      refine (strCopy_begins _ _).isInfix.trans ?_
      split
      · exact ((List.drop_suffix _ _).isInfix.trans (List.take_prefix _ _).isInfix).trans
          htrim.isInfix
      · exact (List.take_prefix _ _).isInfix.trans htrim.isInfix

theorem mtlEntryLoop_names : ∀ (fuel : Nat) (p stop : List Char) (us r : List Uniform),
    mtlEntryLoop fuel p stop us = some r → ∀ u ∈ r, u ∈ us ∨ u.name <:+: p := by
  intro fuel
  induction fuel with
  | zero => intro p stop us r h; exact absurd h (by simp [mtlEntryLoop])
  | succ n ih =>
    intro p stop us r h u hu
    unfold mtlEntryLoop at h
    split_ifs at h
    · cases hs : mtlEntryStep p us with
      | none =>
        rw [hs] at h
        exact absurd h (by simp)
      | some next =>
        rw [hs] at h
        rcases ih _ _ _ r h u hu with h1 | h1
        · exact (mtlEntryStep_names p us next hs).2 u h1
        · exact Or.inr (h1.trans (mtlEntryStep_names p us next hs).1.isInfix)
    · rw [← Option.some.inj h] at hu
      exact Or.inl hu

theorem mtlEntryPass_names (text : List Char) (us r : List Uniform)
    (h : mtlEntryPass text us = some r) : ∀ u ∈ r, u ∈ us ∨ u.name <:+: text := by
  intro u hu
  unfold mtlEntryPass at h
  dsimp only at h
  split_ifs at h
  · rw [← Option.some.inj h] at hu
    exact Or.inl hu
  · rcases mtlEntryLoop_names _ _ _ _ _ h u hu with h1 | h1
    · exact Or.inl h1
    · exact Or.inr (h1.trans
        ((List.drop_suffix _ _).trans (strFind_suffix _ text)).isInfix)

/-- Every name in the table of the Metal scanner is a part of the text. -/
theorem scanMetal_names (text : List Char) (us : List Uniform) (h : scanMetal text = some us) :
    ∀ u ∈ us, u.name <:+: text := by
  intro u hu
  unfold scanMetal at h
  cases h1 : mtlStructPass text [] with
  | none =>
    rw [h1] at h
    exact absurd h (by simp)
  | some mid =>
    rw [h1, Option.some_bind] at h
    rcases mtlEntryPass_names text mid us h u hu with h2 | h2
    · rcases mtlStructPass_names text [] mid h1 u h2 with h3 | h3
      · exact absurd h3 (List.not_mem_nil u)
      · exact h3
    · exact h2

theorem scanUniforms_names (target : Target) (text : List Char) (us : List Uniform)
    (h : scanUniforms target text = some us) : ∀ u ∈ us, u.name <:+: text := by
  unfold scanUniforms at h
  split_ifs at h
  · exact scanGL_names text us h
  · exact scanMetal_names text us h

theorem serialize_short (us : List Uniform) (src : List Char) (h : src.length < 2 ^ 32) :
    serialize us src
      = le16 (us.length % 65536)
          ++ ((us.map writeUniform).flatten
            ++ (le32 src.length ++ (src.map Char.toNat ++ [0]))) := by
  unfold serialize
  rw [Nat.mod_eq_of_lt h, List.take_length]

/-- C20: the table and the source stored in the blob are consistent.  In every
run of `compile` that returns success, the final text (the output of the
optimizer after directive stripping, the table and the precision forcing) is
the text the scanner of the target reads and the text serialized after the
table; the name of every descriptor of the table is a contiguous part of
that text; and for a text shorter than 2^32 bytes the blob ends with the
length of the text, the text itself and a zero byte. -/
theorem compile_table_consistent (glslopt : Target → ShaderKind → List Char → OptShader)
    (options : Options) (version : Nat) (code : List Char) (r : CompileResult)
    (hr : compile glslopt options version code = some r) (hok : r.ok = true) :
    ∃ src us,
      finalSource (selectTarget version) options.shaderType
          (glslopt (selectTarget version) (shaderKind options.shaderType) code).output
        = some src
      ∧ scanUniforms (selectTarget version) src = some us
      ∧ r.shader = serialize us src
      ∧ (∀ u ∈ us, u.name <:+: src)
      ∧ (src.length < 2 ^ 32 →
          r.shader = le16 (us.length % 65536)
            ++ ((us.map writeUniform).flatten
              ++ (le32 src.length ++ (src.map Char.toNat ++ [0])))) := by
  have hst : (glslopt (selectTarget version) (shaderKind options.shaderType) code).status
      = true := by
    cases h : (glslopt (selectTarget version) (shaderKind options.shaderType) code).status with
    | true => rfl
    | false =>
      unfold compile at hr
      simp only [h, if_true] at hr
      rw [← Option.some.inj hr] at hok
      exact absurd hok Bool.false_ne_true
  obtain ⟨src, us, hsrc, hus, hr2⟩ := compile_success glslopt options version code r hst hr
  refine ⟨src, us, hsrc, hus, by rw [hr2], scanUniforms_names _ src us hus, fun hlen => ?_⟩
  rw [hr2]
  exact serialize_short us src hlen

/-- Witness for C20: a vertex shader `uniform mediump vec4 u_color;` for the
OpenGL target; the final text is `uniform highp vec4 u_color;` and the name
`u_color` of the table is a part of it. -/
theorem compile_table_consistent_witness :
    ∃ src us,
      finalSource (selectTarget 120) 'v' "uniform mediump vec4 u_color;\n".toList = some src
      ∧ scanUniforms (selectTarget 120) src = some us
      ∧ serialize
          [{ name := "u_color".toList, type := UniformType.Vec4, num := 1, regIndex := 0,
             regCount := 1, texComponent := 0, texDimension := 0, texFormat := 0 }]
          "uniform highp vec4 u_color;\n".toList = serialize us src
      ∧ (∀ u ∈ us, u.name <:+: src)
      ∧ (src.length < 2 ^ 32 →
          serialize
              [{ name := "u_color".toList, type := UniformType.Vec4, num := 1, regIndex := 0,
                 regCount := 1, texComponent := 0, texDimension := 0, texFormat := 0 }]
              "uniform highp vec4 u_color;\n".toList
            = le16 (us.length % 65536)
              ++ ((us.map writeUniform).flatten
                ++ (le32 src.length ++ (src.map Char.toNat ++ [0])))) :=
  compile_table_consistent (fun _ _ code => { status := true, log := [], output := code })
    { shaderType := 'v', disasm := false, outputFilePath := [] } 120
    "uniform mediump vec4 u_color;\n".toList
    { ok := true
      shader := serialize
        [{ name := "u_color".toList, type := UniformType.Vec4, num := 1, regIndex := 0,
           regCount := 1, texComponent := 0, texDimension := 0, texFormat := 0 }]
        "uniform highp vec4 u_color;\n".toList
      message := []
      printed := none
      disasm := none }
    (by decide) (by decide)

end Shaderc
